import Mathlib

/-!
sha3run: exhaustive search for a double-Keccak preimage.

A shallow embedding of `src/sha3run.c` (`bench`, `brute`, `help`, `main`) and the
properties of its range partitioning, candidate enumeration and match detection.

Conventions of the embedding:
* a C `int` is an `Int`; an operation whose C behaviour is undefined (signed overflow,
  division by zero, a store past the end of an array, a float-to-int conversion of a
  value that does not fit) makes the function return `Except.error`;
* a byte is a `Nat` below 256 and a buffer is a `List Nat`;
* a `double` is an IEEE 754 binary64 value: a finite rational, an infinity or a NaN,
  every arithmetic result being rounded to the nearest representable value, ties to even;
* standard output is the list of the pieces the `printf` calls write, in order.
-/

namespace Sha3run

/-! ## C arithmetic -/

/-- Ways in which a run leaves defined C behaviour. -/
inductive CError
  | divisionByZero
  | signedOverflow
  | outOfBounds
  | floatToInt
  deriving DecidableEq, Repr

/-- Smallest value of a 32-bit `int`. -/
def INT_MIN : Int := -2147483648

/-- Largest value of a 32-bit `int`. -/
def INT_MAX : Int := 2147483647

/-- The result of an `int` operation: defined only when it fits in 32 bits. -/
def checked (x : Int) : Except CError Int :=
  if INT_MIN ≤ x ∧ x ≤ INT_MAX then .ok x else .error .signedOverflow

/-- C integer division `a / b` (truncating toward zero). -/
def cdiv (a b : Int) : Except CError Int :=
  if b = 0 then .error .divisionByZero else checked (Int.tdiv a b)

/-- Conversion of an `int` to `uint8_t` (reduction modulo 256). -/
def toUInt8 (x : Int) : Nat := (x % 256).toNat

/-! ### The type double -/

/-- Rounding of a rational to the nearest integer, a tie going to the even one. -/
def roundHalfEven (x : ℚ) : Int :=
  let f := ⌊x⌋
  if x - f < 1 / 2 then f else if 1 / 2 < x - f then f + 1 else if f % 2 = 0 then f else f + 1

/-- The exponent of the unit in the last place of the binary64 values of magnitude `a`:
52 below the binary exponent of `a`, which for subnormal magnitudes is held at `-1022`. -/
def ulpExp (a : ℚ) : Int := max (Int.log 2 a) (-1022) - 52

/-- The multiple of the unit in the last place that is nearest to the magnitude `a`. -/
def roundMagnitude (a : ℚ) : ℚ :=
  (roundHalfEven (a / (2 : ℚ) ^ ulpExp a) : ℚ) * (2 : ℚ) ^ ulpExp a

/-- A value of the C type `double` (IEEE 754 binary64): a finite value, an infinity or a
NaN. The signs of zero and of infinity are not recorded. -/
inductive Double
  | fin (q : ℚ)
  | inf
  | nan
  deriving DecidableEq, Repr

/-- The `double` an exact result is rounded to (to nearest, ties to even); a magnitude
that rounds to `2^1024` or more overflows to infinity. -/
def roundDouble (x : ℚ) : Double :=
  if x = 0 then .fin 0
  else if (2 : ℚ) ^ (1024 : Int) ≤ roundMagnitude |x| then .inf
  else .fin (if x < 0 then -roundMagnitude |x| else roundMagnitude |x|)

/-- Conversion of an integer to `double`. -/
def Double.ofInt (n : Int) : Double := roundDouble (n : ℚ)

/-- Division of two `double` values. -/
def Double.div : Double → Double → Double
  | .fin x, .fin y => if y = 0 then (if x = 0 then .nan else .inf) else roundDouble (x / y)
  | .fin _, .inf => .fin 0
  | .inf, .fin _ => .inf
  | .inf, .inf => .nan
  | .nan, _ => .nan
  | _, .nan => .nan

/-- Multiplication of two `double` values. -/
def Double.mul : Double → Double → Double
  | .fin x, .fin y => roundDouble (x * y)
  | .fin x, .inf => if x = 0 then .nan else .inf
  | .inf, .fin y => if y = 0 then .nan else .inf
  | .inf, .inf => .inf
  | .nan, _ => .nan
  | _, .nan => .nan

/-- Conversion of a `double` to `int`: truncation toward zero, undefined when the value
is not finite or the truncated value does not fit. -/
def Double.toInt : Double → Except CError Int
  | .fin q =>
    let z := Int.tdiv q.num (q.den : Int)
    if INT_MIN ≤ z ∧ z ≤ INT_MAX then .ok z else .error .floatToInt
  | .inf => .error .floatToInt
  | .nan => .error .floatToInt

/-- The finite value of a `double`, `none` for an infinity or a NaN. -/
def Double.toOption : Double → Option ℚ
  | .fin q => some q
  | .inf => none
  | .nan => none

/-- The values a loop variable takes in `for (int v = lo; v < hi; v++)`. -/
def forRange (lo hi : Int) : List Int :=
  (List.range (hi - lo).toNat).map (fun (d : Nat) => lo + (d : Int))

/-! ## Standard output -/

/-- One piece written to standard output: literal text of a format string or one
conversion (`%i`, `%c`, `%02x`, `%f`). -/
inductive Printed
  | lit (s : String)
  | int (n : Int)
  | chr (b : Nat)
  | hex2 (b : Nat)
  | dbl (q : Option ℚ)
  deriving DecidableEq

/-! ## The hash primitive -/

/-- Modelled from the spec: the mode flag of the hash primitive, declared in `sha3.h`,
which is not among the sources (padded standard hash, or unpadded "pure" Keccak). -/
inductive SHA3_FLAGS
  | SHA3_FLAGS_NONE
  | SHA3_FLAGS_KECCAK
  deriving DecidableEq, Repr

/-- Modelled from the spec: the external hash primitive behind `sha3.h`, a deterministic
function `hash(input, outputLengthBits, mode)` whose digest has `outputLengthBits / 8`
bytes. -/
structure HashPrimitive where
  hash : List Nat → Nat → SHA3_FLAGS → List Nat
  hash_length : ∀ (input : List Nat) (bits : Nat) (mode : SHA3_FLAGS),
    (hash input bits mode).length = bits / 8

/-- Modelled from the spec: the call `sha3_HashBuffer(bitSize, flags, in, inBytes, out,
outBytes)` of `sha3.h`; the value is the content of `out` after the call, the digest of
the first `inBytes` bytes of `in`, at most `outBytes` bytes of it. -/
def sha3_HashBuffer (P : HashPrimitive) (bitSize : Nat) (flags : SHA3_FLAGS)
    (inp : List Nat) (inBytes : Nat) (outBytes : Nat) : List Nat :=
  (P.hash (inp.take inBytes) bitSize flags).take outBytes

/-- The two consecutive `sha3_HashBuffer` calls of `bench` (lines 75-76) and `brute`
(lines 120-121): `buf` receives the digest of the first `num` bytes of `str`, then the
digest of its own 32 bytes. -/
def hashTwice (P : HashPrimitive) (str : List Nat) (num : Nat) : List Nat :=
  let buf := sha3_HashBuffer P 256 .SHA3_FLAGS_KECCAK str num 32
  sha3_HashBuffer P 256 .SHA3_FLAGS_KECCAK buf 32 32

/-- The 32 bytes `brute` compares each digest with (lines 124-127). -/
def target : List Nat :=
  [0x57, 0x46, 0xfe, 0x8a, 0xe2, 0xbf, 0x9f, 0xb2,
   0x4b, 0xcd, 0xf4, 0x97, 0x2e, 0xa7, 0x8c, 0x02,
   0x11, 0x21, 0x1e, 0x23, 0xc3, 0x76, 0x46, 0x19,
   0x56, 0xd4, 0x6d, 0x8d, 0x8a, 0x65, 0x19, 0xba]

/-- The library call `memcmp(a, b, n)`: zero exactly when the first `n` bytes agree. -/
def memcmp (a b : List Nat) (n : Nat) : Int :=
  if a.take n = b.take n then 0 else if a.take n < b.take n then -1 else 1

/-! ## bench -/

/-- What `bench` leaves behind: its return value, its output, and the digests left in
`buf` by the successive iterations. -/
structure BenchResult where
  speed : Int
  stdout : List Printed
  digests : List (List Nat)

/-- The function `bench(num)`. `clocksPerSec` is `CLOCKS_PER_SEC`, `begin` and `finish`
are the two readings of `clock()`, and `junk` gives the indeterminate bytes of the
uninitialised buffer `str`, of which only `str[0]` is ever written. -/
def bench (P : HashPrimitive) (clocksPerSec : Int) (begin finish : Int) (junk : Nat → Nat)
    (num : Int) : Except CError BenchResult := do
  let str0 : List Nat := (List.range 5).map (fun k => junk k % 256)
  let digests := (forRange 0 num).map (fun i => hashTwice P (str0.set 0 (toUInt8 i)) 5)
  let time_spent := Double.div (Double.ofInt (finish - begin)) (Double.ofInt clocksPerSec)
  let speed ← Double.toInt (Double.div (Double.ofInt num) time_spent)
  pure { speed := speed
         stdout := [.lit "Bench: ", .int speed, .lit " hashes per second\n"]
         digests := digests }

/-! ## brute -/

/-- The values of `(i, j, k, l, m)` in the order the five nested loops of `brute` reach
the loop body (lines 110-114). -/
def bruteLoops (start stop : Int) : List (Int × Int × Int × Int × Int) :=
  (forRange start stop).flatMap fun i =>
  (forRange 32 127).flatMap fun j =>
  (forRange 32 127).flatMap fun k =>
  (forRange 32 127).flatMap fun l =>
  (forRange 32 127).map fun m => (i, j, k, l, m)

/-- The five stores `str[0] = i; ...; str[4] = m` (lines 115-119). -/
def storeStr (str : List Nat) (t : Int × Int × Int × Int × Int) : List Nat :=
  ((((str.set 0 (toUInt8 t.1)).set 1 (toUInt8 t.2.1)).set 2 (toUInt8 t.2.2.1)).set 3
    (toUInt8 t.2.2.2.1)).set 4 (toUInt8 t.2.2.2.2)

/-- The variables of `brute` that survive an iteration: the buffer `str`, and the record
of the inputs given to the first hash call of each iteration so far, oldest first. -/
structure BruteState where
  str : List Nat
  hashed : List (List Nat)

/-- The loop nest of `brute` run over the remaining index tuples: each iteration stores
the tuple in `str`, hashes twice and compares; the first match leaves the loops at once
with the matching digest. -/
def bruteLoop (P : HashPrimitive) (num : Nat) :
    List (Int × Int × Int × Int × Int) → BruteState → BruteState × Option (List Nat)
  | [], s => (s, none)
  | t :: rest, s =>
    let str := storeStr s.str t
    let buf := hashTwice P str num
    let s1 : BruteState := { str := str, hashed := s.hashed ++ [str.take num] }
    if memcmp buf target (256 / 8) = 0 then (s1, some buf) else bruteLoop P num rest s1

/-- The content of the array `uint8_t str[n]` right after its declaration: `n` bytes
of indeterminate value. -/
def junkStr (junk : Nat → Nat) (n : Nat) : List Nat :=
  (List.range n).map (fun k => junk k % 256)

/-- What `brute` leaves behind: its return value, its output, and the inputs it gave to
the digest pipeline, in order. -/
structure BruteResult where
  ret : Int
  stdout : List Printed
  hashed : List (List Nat)

/-- Lines 91 and 103-108 of `brute`: the announcement and the starting candidate. -/
def startingBlock (num : Int) (str : List Nat) : List Printed :=
  [.lit "Bruteforcing for ", .int num, .lit " characters\n", .lit "Starting from ("]
    ++ str.map .chr ++ [.lit ")\n"]

/-- Lines 128-140 of `brute`: the matching candidate as characters and the 32 bytes of
its digest in hexadecimal. -/
def foundBlock (str buf : List Nat) : List Printed :=
  [.lit "Found! ("] ++ str.map .chr ++ [.lit ")\n"] ++ (buf.take 32).map .hex2 ++ [.lit "\n"]

/-- Lines 149-154 of `brute`: the content of `str` when the loops have run out. -/
def endedBlock (str : List Nat) : List Printed :=
  [.lit "Nothing found... Ended at ("] ++ str.map .chr ++ [.lit ")\n"]

/-- The function `brute(start, stop, num)`. `junk` gives the indeterminate initial bytes
of the variable-length array `str`. The stores to `str[1..4]` are past the end of the
array when `num < 5`. -/
def brute (P : HashPrimitive) (junk : Nat → Nat) (start stop num : Int) :
    Except CError BruteResult :=
  if num < 5 then .error .outOfBounds
  else
    let n := num.toNat
    let str0 : List Nat := storeStr (junkStr junk n) (start, 32, 32, 32, 32)
    match bruteLoop P n (bruteLoops start stop) { str := str0, hashed := [] } with
    | (s, some buf) =>
      .ok { ret := 10
            stdout := startingBlock num str0 ++ foundBlock s.str buf
            hashed := s.hashed }
    | (s, none) =>
      .ok { ret := 0
            stdout := startingBlock num str0 ++ endedBlock s.str
            hashed := s.hashed }

/-! ## main -/

/-- The function `help`: the usage text. -/
def help : List Printed :=
  [.lit "To call: #Threads #Thread\n(ex: sha3run 8 2 - means 8 threads total and run 2 thread)\n"]

/-- The range computation of `main` (lines 179-189): `threadSize`, `start` and `end`. -/
structure Range where
  threadSize : Int
  start : Int
  stop : Int
  deriving DecidableEq, Repr

/-- Lines 179-189 of `main`, for `threads = atoi(argv[1])` and `thread = atoi(argv[2])`. -/
def mainRange (threads thread : Int) : Except CError Range := do
  let threadSize ← cdiv (127 - 32) threads
  let t1 ← checked (thread - 1)
  let off ← checked (t1 * threadSize)
  let start ← checked (32 + off)
  let stop ← if thread = threads then pure 127 else checked (start + threadSize)
  pure { threadSize := threadSize, start := start, stop := stop }

/-- What the operating system supplies to one run: `CLOCKS_PER_SEC`, the successive
readings of `clock()`, and the indeterminate contents of the uninitialised buffers. -/
structure Env where
  clocksPerSec : Int
  clock : Nat → Int
  benchJunk : Nat → Nat
  bruteJunk : Nat → Nat

/-- What a run of `main` past the argument check computes and prints. -/
structure SearchRun where
  speed : Int
  range : Range
  num : Int
  numHashes : Option ℚ
  eta : Option ℚ
  search : BruteResult
  elapsed : Option ℚ

/-- What `main` leaves behind: exit status, output, and the search it ran, if any. -/
structure MainResult where
  exit : Int
  stdout : List Printed
  run : Option SearchRun

/-- The function `main(argc, argv)`, with `threads = atoi(argv[1])` and
`thread = atoi(argv[2])`. -/
def main (P : HashPrimitive) (env : Env) (argc threads thread : Int) :
    Except CError MainResult :=
  if argc ≠ 3 then .ok { exit := 1, stdout := help, run := none }
  else do
    let b ← bench P env.clocksPerSec (env.clock 0) (env.clock 1) env.benchJunk 1000000
    let speed := b.speed
    let num : Int := 5
    let r ← mainRange threads thread
    let pow95 : Double := roundDouble ((95 : ℚ) ^ (num - 1).toNat)
    let numHashes := Double.mul (Double.ofInt r.threadSize) pow95
    let eta := Double.div (Double.div numHashes (Double.ofInt 60)) (Double.ofInt speed)
    let begin := env.clock 2
    let s ← brute P env.bruteJunk r.start r.stop num
    let finish := env.clock 3
    let time_spent :=
      Double.div (Double.ofInt (finish - begin)) (Double.ofInt env.clocksPerSec)
    pure { exit := 0
           stdout := b.stdout
             ++ [.lit "Running thread ", .int thread, .lit " of ", .int threads, .lit "\n",
                 .lit "ThreadSize: ", .int r.threadSize, .lit "\n",
                 .lit "Start: ", .int r.start, .lit "\n",
                 .lit "End: ", .int r.stop, .lit "\n",
                 .lit "Number of hashes to check: ", .dbl numHashes.toOption, .lit "\n",
                 .lit "Estimated time to complete: ", .dbl eta.toOption, .lit " minutes\n"]
             ++ s.stdout
             ++ [.lit "Elapsed: ", .dbl time_spent.toOption, .lit " seconds\n"]
           run := some { speed := speed, range := r, num := num
                         numHashes := numHashes.toOption, eta := eta.toOption, search := s
                         elapsed := time_spent.toOption } }

/-- The candidates of a range in the order `brute` reaches them: the content of the
first `num` bytes of `str` at each pass through the loop body. -/
def candidates (junk : Nat → Nat) (start stop : Int) (num : Nat) : List (List Nat) :=
  (bruteLoops start stop).map fun t => (storeStr (junkStr junk num) t).take num

/-- The digest `brute` compares with the target for a candidate of `num` bytes. -/
def pipeline (P : HashPrimitive) (c : List Nat) : List Nat :=
  hashTwice P c c.length

/-- Whether `main`, started with `threads` and `thread`, computes a range and the value
`v` of byte 0 lies in it. -/
def assigned (threads thread v : Int) : Bool :=
  match mainRange threads thread with
  | .ok r => decide (r.start ≤ v ∧ v < r.stop)
  | .error _ => false

/-- The five bytes the stores of one iteration leave in `str[0..4]`. -/
def fiveBytes (t : Int × Int × Int × Int × Int) : List Nat :=
  [toUInt8 t.1, toUInt8 t.2.1, toUInt8 t.2.2.1, toUInt8 t.2.2.2.1, toUInt8 t.2.2.2.2]

/-- The index tuple at position `n` (counted from 0) of odometer order over a range that
starts at `start`: byte 0 advances every `95^4` steps, byte 4 at every step. -/
def odometer (start : Int) (n : Nat) : Int × Int × Int × Int × Int :=
  (start + ((n / 95 ^ 4 : Nat) : Int), 32 + ((n / 95 ^ 3 % 95 : Nat) : Int),
    32 + ((n / 95 ^ 2 % 95 : Nat) : Int), 32 + ((n / 95 % 95 : Nat) : Int),
    32 + ((n % 95 : Nat) : Int))

/-- The candidate at position `n` of odometer order, as bytes, for a range starting at a
non-negative `start`. -/
def odometerBytes (start : Int) (n : Nat) : List Nat :=
  [(start + ((n / 95 ^ 4 : Nat) : Int)).toNat, 32 + n / 95 ^ 3 % 95, 32 + n / 95 ^ 2 % 95,
    32 + n / 95 % 95, 32 + n % 95]

/-- The odometer successor of a 5-byte candidate: the last byte below 126 is advanced and
the bytes after it restart at 32; byte 0 advances when bytes 1..4 are all 126. -/
def nextCandidate : List Nat → List Nat
  | [a, b, c, d, e] =>
    if e < 126 then [a, b, c, d, e + 1]
    else if d < 126 then [a, b, c, d + 1, 32]
    else if c < 126 then [a, b, c + 1, 32, 32]
    else if b < 126 then [a, b + 1, 32, 32, 32]
    else [a + 1, 32, 32, 32, 32]
  | l => l

/-- A hash primitive whose digest is all zero bytes, so that no candidate matches. -/
def zeroHash : HashPrimitive :=
  { hash := fun _ bits _ => List.replicate (bits / 8) 0
    hash_length := fun _ _ _ => List.length_replicate _ _ }

/-- A hash primitive whose 256-bit digest is always the target, so that every candidate
matches. -/
def targetHash : HashPrimitive :=
  { hash := fun _ bits _ => if bits = 256 then target else List.replicate (bits / 8) 0
    hash_length := fun _ bits _ => by
      by_cases h : bits = 256
      · subst h; rfl
      · simp [h] }

/-- A hash primitive for which `"AAAAA"` is the only 5-byte input whose double digest is
the target. -/
def onlyAAAAA : HashPrimitive :=
  { hash := fun inp bits _ =>
      if bits = 256 ∧ (inp = [65, 65, 65, 65, 65] ∨ inp = target) then target
      else List.replicate (bits / 8) 0
    hash_length := fun inp bits _ => by
      show (if bits = 256 ∧ (inp = [65, 65, 65, 65, 65] ∨ inp = target) then target
        else List.replicate (bits / 8) 0).length = bits / 8
      split_ifs with h
      · rw [h.1]; rfl
      · simp }

/-- The inputs hashed by the call `brute(start, end, num)` of `main` (line 197) when
`main` is started with `threads` and `thread`: the range of lines 179-189, `num = 5`. -/
def workerHashed (P : HashPrimitive) (junk : Nat → Nat) (threads thread : Int) :
    List (List Nat) :=
  match mainRange threads thread with
  | .ok r =>
    match brute P junk r.start r.stop 5 with
    | .ok b => b.hashed
    | .error _ => []
  | .error _ => []

/-- An environment in which `CLOCKS_PER_SEC` is 1000000 and each reading of `clock()`
is one second after the one before, with all indeterminate bytes zero. -/
def oneSecondEnv : Env :=
  { clocksPerSec := 1000000
    clock := fun k => 1000000 * (k : Int)
    benchJunk := fun _ => 0
    bruteJunk := fun _ => 0 }

/-- An environment like `oneSecondEnv` in which each reading of `clock()` is two seconds
after the one before, so that the benchmark measures half the rate. -/
def twoSecondEnv : Env :=
  { clocksPerSec := 1000000
    clock := fun k => 2000000 * (k : Int)
    benchJunk := fun _ => 0
    bruteJunk := fun _ => 0 }

/-- An environment like `oneSecondEnv` in which each reading of `clock()` is two million
seconds after the one before, twice as many seconds as the benchmark has samples. -/
def slowEnv : Env :=
  { clocksPerSec := 1000000
    clock := fun k => 2000000000000 * (k : Int)
    benchJunk := fun _ => 0
    bruteJunk := fun _ => 0 }

/-! ## The range computation of main -/

theorem threadSize_facts (threads : Int) (h1 : 1 ≤ threads) :
    Int.tdiv (127 - 32) threads = 95 / threads ∧ 0 ≤ (95 : Int) / threads ∧
      (95 : Int) / threads ≤ 95 ∧ 95 / threads * threads ≤ 95 ∧
      95 < (95 / threads + 1) * threads := by
  have hpos : (0 : Int) < threads := by omega
  refine ⟨?_, ?_, ?_, ?_, ?_⟩
  · rw [Int.tdiv_eq_ediv (by norm_num) (by omega)]; norm_num
  · exact Int.ediv_nonneg (by norm_num) (by omega)
  · exact Int.ediv_le_self _ (by norm_num)
  · exact Int.ediv_mul_le _ (by omega)
  · exact Int.lt_ediv_add_one_mul_self _ hpos

theorem offset_bounds (threads thread : Int) (h1 : 1 ≤ thread) (h2 : thread ≤ threads) :
    0 ≤ (thread - 1) * (95 / threads) ∧ (thread - 1) * (95 / threads) + 95 / threads ≤ 95 := by
  obtain ⟨_, hw0, _, hmul, _⟩ := threadSize_facts threads (by omega)
  constructor
  · exact mul_nonneg (by omega) hw0
  · have h3 : (thread - 1) * (95 / threads) ≤ (threads - 1) * (95 / threads) :=
      mul_le_mul_of_nonneg_right (by omega) hw0
    have h4 : (threads - 1) * (95 / threads) = 95 / threads * threads - 95 / threads := by ring
    omega

theorem checked_ok (x : Int) (h1 : -2147483648 ≤ x) (h2 : x ≤ 2147483647) :
    checked x = .ok x := by
  simp [checked, INT_MIN, INT_MAX, h1, h2]

theorem mainRange_eq (threads thread : Int) (h1 : 1 ≤ thread) (h2 : thread ≤ threads)
    (h3 : threads ≤ INT_MAX) :
    mainRange threads thread = .ok
      { threadSize := 95 / threads
        start := 32 + (thread - 1) * (95 / threads)
        stop := if thread = threads then 127
                else 32 + (thread - 1) * (95 / threads) + 95 / threads } := by
  obtain ⟨htd, hw0, hw95, _, _⟩ := threadSize_facts threads (by omega)
  obtain ⟨ho0, ho95⟩ := offset_bounds threads thread h1 h2
  have hne : threads ≠ 0 := by omega
  unfold INT_MAX at h3
  have c1 := checked_ok (95 / threads) (by omega) (by omega)
  have c2 := checked_ok (thread - 1) (by omega) (by omega)
  have c3 := checked_ok ((thread - 1) * (95 / threads)) (by omega) (by omega)
  have c4 := checked_ok (32 + (thread - 1) * (95 / threads)) (by omega) (by omega)
  have c5 := checked_ok (32 + (thread - 1) * (95 / threads) + 95 / threads) (by omega)
    (by omega)
  by_cases he : thread = threads
  · simp only [mainRange, cdiv, hne, if_false, htd, bind, Except.bind, c1, c2, c3, c4, he,
      if_true, pure, Except.pure]
    subst he
    simp only [c2, c3, c4]
  · simp only [mainRange, cdiv, hne, if_false, htd, bind, Except.bind, c1, c2, c3, c4, c5, he,
      pure, Except.pure]

theorem tdiv_95_bounds (threads : Int) :
    -95 ≤ Int.tdiv 95 threads ∧ Int.tdiv 95 threads ≤ 95 := by
  rcases lt_trichotomy threads 0 with h | h | h
  · have e : Int.tdiv 95 threads = -(Int.tdiv 95 (-threads)) := by
      rw [Int.tdiv_neg, neg_neg]
    rw [e, Int.tdiv_eq_ediv (by norm_num) (by omega)]
    have h1 : 0 ≤ (95 : Int) / (-threads) := Int.ediv_nonneg (by norm_num) (by omega)
    have h2 : (95 : Int) / (-threads) ≤ 95 := Int.ediv_le_self _ (by norm_num)
    omega
  · subst h
    decide
  · rw [Int.tdiv_eq_ediv (by norm_num) (by omega)]
    have h1 : 0 ≤ (95 : Int) / threads := Int.ediv_nonneg (by norm_num) (by omega)
    have h2 : (95 : Int) / threads ≤ 95 := Int.ediv_le_self _ (by norm_num)
    omega

theorem checked_inv (x y : Int) (h : checked x = .ok y) : y = x := by
  unfold checked at h
  split_ifs at h
  exact (Except.ok.inj h).symm

theorem mainRange_inv (threads thread : Int) (r : Range)
    (h : mainRange threads thread = .ok r) :
    r.threadSize = Int.tdiv 95 threads ∧ r.start = 32 + (thread - 1) * r.threadSize ∧
      r.stop = if thread = threads then 127 else r.start + r.threadSize := by
  simp only [mainRange, cdiv, bind, Except.bind, pure, Except.pure] at h
  by_cases h0 : threads = 0
  · simp [h0] at h
  · simp only [h0, if_false] at h
    cases c1 : checked (Int.tdiv (127 - 32) threads) with
    | error e => rw [c1] at h; simp at h
    | ok w =>
      rw [c1] at h
      simp only at h
      have hw := checked_inv _ _ c1
      cases c2 : checked (thread - 1) with
      | error e => rw [c2] at h; simp at h
      | ok t1 =>
        rw [c2] at h
        simp only at h
        have ht1 := checked_inv _ _ c2
        cases c3 : checked (t1 * w) with
        | error e => rw [c3] at h; simp at h
        | ok off =>
          rw [c3] at h
          simp only at h
          have hoff := checked_inv _ _ c3
          cases c4 : checked (32 + off) with
          | error e => rw [c4] at h; simp at h
          | ok st =>
            rw [c4] at h
            simp only at h
            have hst := checked_inv _ _ c4
            by_cases he : thread = threads
            · simp only [he, if_true] at h
              have hr := Except.ok.inj h
              subst hr
              subst hst hoff ht1 hw
              simp [he]
            · simp only [he, if_false] at h
              cases c5 : checked (st + w) with
              | error e => rw [c5] at h; simp at h
              | ok en =>
                rw [c5] at h
                simp only at h
                have hen := checked_inv _ _ c5
                have hr := Except.ok.inj h
                subst hr
                subst hen hst hoff ht1 hw
                simp [he]

theorem assigned_iff (threads thread v : Int) (h1 : 1 ≤ thread) (h2 : thread ≤ threads)
    (h3 : threads ≤ INT_MAX) :
    assigned threads thread v = true ↔
      (32 + (thread - 1) * (95 / threads) ≤ v ∧
        v < (if thread = threads then 127
             else 32 + (thread - 1) * (95 / threads) + 95 / threads)) := by
  simp [assigned, mainRange_eq threads thread h1 h2 h3]

theorem assigned_iff_of (threads thread v w : Int) (hw : 95 / threads = w) (h1 : 1 ≤ thread)
    (h2 : thread ≤ threads) (h3 : threads ≤ INT_MAX) :
    assigned threads thread v = true ↔
      (32 + (thread - 1) * w ≤ v ∧
        v < (if thread = threads then 127 else 32 + (thread - 1) * w + w)) := by
  subst hw
  exact assigned_iff threads thread v h1 h2 h3

theorem mul_lt_cancel (a b w : Int) (hw : 0 ≤ w) (h : a * w < b * w) : a < b :=
  lt_of_mul_lt_mul_right h hw

theorem assigned_exists_unique (threads v : Int) (h1 : 1 ≤ threads) (h2 : threads ≤ INT_MAX)
    (hv1 : 32 ≤ v) (hv2 : v < 127) :
    ∃! i, 1 ≤ i ∧ i ≤ threads ∧ assigned threads i v = true := by
  obtain ⟨_, hw0, _, hmul, hlt⟩ := threadSize_facts threads h1
  rcases eq_or_lt_of_le hw0 with hw | hw
  · -- threadSize = 0: only the last worker has a non-empty range
    refine ⟨threads, ⟨h1, le_refl _, ?_⟩, ?_⟩
    · rw [assigned_iff threads threads v h1 (le_refl _) h2, ← hw]; simp; omega
    · rintro i ⟨hi1, hi2, hi⟩
      rw [assigned_iff threads i v hi1 hi2 h2, ← hw] at hi
      by_contra hne
      simp [hne] at hi
      omega
  · -- threadSize > 0
    have hq1 : (v - 32) / (95 / threads) * (95 / threads) ≤ v - 32 :=
      Int.ediv_mul_le _ (by omega)
    have hq2 : v - 32 < ((v - 32) / (95 / threads) + 1) * (95 / threads) :=
      Int.lt_ediv_add_one_mul_self _ hw
    have hq0 : 0 ≤ (v - 32) / (95 / threads) := Int.ediv_nonneg (by omega) hw0
    generalize (v - 32) / (95 / threads) = q at hq1 hq2 hq0
    generalize hwd : 95 / threads = w at hw hw0 hmul hlt hq1 hq2
    by_cases hq : q + 1 < threads
    · refine ⟨q + 1, ⟨by omega, by omega, ?_⟩, ?_⟩
      · rw [assigned_iff_of threads (q + 1) v w hwd (by omega) (by omega) h2]
        have e : q + 1 - 1 = q := by ring
        rw [if_neg (by omega), e]
        constructor
        · omega
        · have : (q + 1) * w = q * w + w := by ring
          omega
      · rintro i ⟨hi1, hi2, hi⟩
        rw [assigned_iff_of threads i v w hwd hi1 hi2 h2] at hi
        obtain ⟨ha, hb⟩ := hi
        have k1 : (i - 1) * w < (q + 1) * w := by omega
        have k1 := mul_lt_cancel _ _ _ hw0 k1
        by_cases hit : i = threads
        · omega
        · rw [if_neg hit] at hb
          have k2 : q * w < i * w := by
            have : i * w = (i - 1) * w + w := by ring
            omega
          have k2 := mul_lt_cancel _ _ _ hw0 k2
          omega
    · refine ⟨threads, ⟨h1, le_refl _, ?_⟩, ?_⟩
      · rw [assigned_iff_of threads threads v w hwd h1 (le_refl _) h2]
        simp only [if_true]
        refine ⟨?_, hv2⟩
        have : (threads - 1) * w ≤ q * w := mul_le_mul_of_nonneg_right (by omega) hw0
        omega
      · rintro i ⟨hi1, hi2, hi⟩
        rw [assigned_iff_of threads i v w hwd hi1 hi2 h2] at hi
        obtain ⟨ha, hb⟩ := hi
        by_contra hit
        rw [if_neg hit] at hb
        have k2 : q * w < i * w := by
          have : i * w = (i - 1) * w + w := by ring
          omega
        have k2 := mul_lt_cancel _ _ _ hw0 k2
        omega

/-- C1: for every `threads ≥ 1` (an `int`), `main` computes a range for each worker
`1..threads`, every such range lies inside `[32, 127)`, every value `32..126` lies in the
range of exactly one worker, and the ranges of two different workers share no value. -/
theorem main_ranges_partition (threads : Int) (h1 : 1 ≤ threads) (h2 : threads ≤ INT_MAX) :
    (∀ i, 1 ≤ i → i ≤ threads →
      ∃ r, mainRange threads i = .ok r ∧ ∀ v, r.start ≤ v → v < r.stop → 32 ≤ v ∧ v < 127) ∧
    (∀ v, 32 ≤ v → v < 127 →
      ∃! i, 1 ≤ i ∧ i ≤ threads ∧ assigned threads i v = true) ∧
    (∀ i j v, 1 ≤ i → i ≤ threads → 1 ≤ j → j ≤ threads → i ≠ j →
      ¬ (assigned threads i v = true ∧ assigned threads j v = true)) := by
  have hin : ∀ i, 1 ≤ i → i ≤ threads →
      ∃ r, mainRange threads i = .ok r ∧
        ∀ v, r.start ≤ v → v < r.stop → 32 ≤ v ∧ v < 127 := by
    intro i hi1 hi2
    refine ⟨_, mainRange_eq threads i hi1 hi2 h2, ?_⟩
    intro v hs he
    obtain ⟨ho0, ho95⟩ := offset_bounds threads i hi1 hi2
    simp only at hs he
    split_ifs at he <;> omega
  refine ⟨hin, fun v hv1 hv2 => assigned_exists_unique threads v h1 h2 hv1 hv2, ?_⟩
  rintro i j v hi1 hi2 hj1 hj2 hij ⟨hai, haj⟩
  have hv : 32 ≤ v ∧ v < 127 := by
    obtain ⟨r, hr, hrv⟩ := hin i hi1 hi2
    simp only [assigned, hr, decide_eq_true_eq] at hai
    exact hrv v hai.1 hai.2
  obtain ⟨k, _, hk⟩ := assigned_exists_unique threads v h1 h2 hv.1 hv.2
  exact hij ((hk i ⟨hi1, hi2, hai⟩).trans (hk j ⟨hj1, hj2, haj⟩).symm)

/-- Witness of C1 at `threads = 3`. -/
theorem main_ranges_partition_witness :
    (1 : Int) ≤ 3 ∧ (3 : Int) ≤ INT_MAX ∧
    (∀ v : Int, 32 ≤ v → v < 127 → ∃! i, 1 ≤ i ∧ i ≤ 3 ∧ assigned 3 i v = true) :=
  ⟨by decide, by decide, (main_ranges_partition 3 (by decide) (by decide)).2.1⟩

/-! ## The loop nest of brute -/

theorem flatMap_range_map {β : Type} (a b : Nat) (g : Nat → Nat → β) :
    (List.range a).flatMap (fun i => (List.range b).map (g i)) =
      (List.range (a * b)).map (fun n => g (n / b) (n % b)) := by
  induction a with
  | zero => simp
  | succ a ih =>
    rw [List.range_succ, List.flatMap_append, ih, Nat.succ_mul, List.range_add, List.map_append]
    congr 1
    simp only [List.flatMap_cons, List.flatMap_nil, List.append_nil, List.map_map]
    apply List.map_congr_left
    intro k hk
    have hk : k < b := List.mem_range.mp hk
    have hb : 0 < b := by omega
    simp only [Function.comp]
    rw [Nat.mul_comm a b, Nat.mul_add_div hb, Nat.mul_add_mod, Nat.div_eq_of_lt hk,
      Nat.mod_eq_of_lt hk, Nat.add_zero]

theorem bruteLoops_eq (start stop : Int) :
    bruteLoops start stop =
      (List.range ((stop - start).toNat * 95 ^ 4)).map (odometer start) := by
  unfold bruteLoops forRange
  have h95 : (127 - 32 : Int).toNat = 95 := by decide
  simp only [List.flatMap_map, h95, List.map_map, Function.comp_def]
  simp only [flatMap_range_map]
  apply List.map_congr_left
  intro n _
  simp only [odometer, Prod.mk.injEq]
  refine ⟨?_, ?_, ?_, ?_, ?_⟩ <;> congr 2 <;> omega

/-! ## The buffer of brute -/

theorem storeStr_eq (str : List Nat) (t : Int × Int × Int × Int × Int)
    (h : 5 ≤ str.length) : storeStr str t = fiveBytes t ++ str.drop 5 := by
  match str, h with
  | a0 :: a1 :: a2 :: a3 :: a4 :: rest, _ => simp [storeStr, fiveBytes]

theorem length_storeStr (str : List Nat) (t : Int × Int × Int × Int × Int) :
    (storeStr str t).length = str.length := by
  simp [storeStr]

theorem storeStr_storeStr (str : List Nat) (t u : Int × Int × Int × Int × Int)
    (h : 5 ≤ str.length) : storeStr (storeStr str u) t = storeStr str t := by
  rw [storeStr_eq (storeStr str u) t (by rw [length_storeStr]; exact h), storeStr_eq str u h,
    storeStr_eq str t h]
  simp [fiveBytes]

theorem foldl_storeStr_append (str : List Nat) (pre : List (Int × Int × Int × Int × Int))
    (t : Int × Int × Int × Int × Int) (h : 5 ≤ str.length) :
    (pre ++ [t]).foldl storeStr str = storeStr str t := by
  induction pre generalizing str with
  | nil => rfl
  | cons u pre ih =>
    rw [List.cons_append, List.foldl_cons, ih _ (by rw [length_storeStr]; exact h),
      storeStr_storeStr str t u h]

/-! ## The digest comparison -/

theorem length_hashTwice (P : HashPrimitive) (str : List Nat) (num : Nat) :
    (hashTwice P str num).length = 32 := by
  simp [hashTwice, sha3_HashBuffer, P.hash_length]

theorem length_target : target.length = 32 := by decide

theorem memcmp_eq_zero_iff (P : HashPrimitive) (str : List Nat) (num : Nat) :
    memcmp (hashTwice P str num) target (256 / 8) = 0 ↔ hashTwice P str num = target := by
  have h1 : (hashTwice P str num).take (256 / 8) = hashTwice P str num :=
    List.take_of_length_le (by rw [length_hashTwice])
  have h2 : target.take (256 / 8) = target := List.take_of_length_le (by rw [length_target])
  unfold memcmp
  rw [h1, h2]
  by_cases h : hashTwice P str num = target
  · simp [h]
  · simp only [h, if_false, iff_false]
    split_ifs <;> decide

theorem hashTwice_eq_pipeline (P : HashPrimitive) (str : List Nat) (num : Nat) :
    hashTwice P str num = pipeline P (str.take num) := by
  have h : (str.take num).take (str.take num).length = str.take num := List.take_length _
  simp only [pipeline, hashTwice, sha3_HashBuffer, h]

/-! ## The search loop -/

theorem bruteLoop_none (P : HashPrimitive) (num : Nat)
    (ts : List (Int × Int × Int × Int × Int)) (s : BruteState) (hlen : 5 ≤ s.str.length)
    (hno : ∀ t ∈ ts, hashTwice P (storeStr s.str t) num ≠ target) :
    bruteLoop P num ts s =
      ({ str := ts.foldl storeStr s.str
         hashed := s.hashed ++ ts.map (fun t => (storeStr s.str t).take num) }, none) := by
  induction ts generalizing s with
  | nil => simp [bruteLoop]
  | cons t rest ih =>
    have h0 : ¬ memcmp (hashTwice P (storeStr s.str t) num) target (256 / 8) = 0 := by
      rw [memcmp_eq_zero_iff]; exact hno t (List.mem_cons_self _ _)
    have hmap : rest.map (fun u => (storeStr (storeStr s.str t) u).take num) =
        rest.map (fun u => (storeStr s.str u).take num) :=
      List.map_congr_left (fun u _ => by rw [storeStr_storeStr s.str u t hlen])
    simp only [bruteLoop, h0, if_false]
    rw [ih { str := storeStr s.str t, hashed := s.hashed ++ [(storeStr s.str t).take num] }
      (by simp only [length_storeStr]; exact hlen)
      (by
        intro u hu
        simp only [storeStr_storeStr s.str u t hlen]
        exact hno u (List.mem_cons_of_mem _ hu))]
    simp only [hmap, List.foldl_cons, List.map_cons, List.append_assoc, List.singleton_append]

theorem bruteLoop_some (P : HashPrimitive) (num : Nat)
    (pre : List (Int × Int × Int × Int × Int)) (t : Int × Int × Int × Int × Int)
    (post : List (Int × Int × Int × Int × Int)) (s : BruteState) (hlen : 5 ≤ s.str.length)
    (hno : ∀ u ∈ pre, hashTwice P (storeStr s.str u) num ≠ target)
    (hit : hashTwice P (storeStr s.str t) num = target) :
    bruteLoop P num (pre ++ t :: post) s =
      ({ str := storeStr s.str t
         hashed := s.hashed ++ (pre ++ [t]).map (fun u => (storeStr s.str u).take num) },
        some (hashTwice P (storeStr s.str t) num)) := by
  induction pre generalizing s with
  | nil =>
    have h0 : memcmp (hashTwice P (storeStr s.str t) num) target (256 / 8) = 0 := by
      rw [memcmp_eq_zero_iff]; exact hit
    simp [bruteLoop, h0]
  | cons v pre ih =>
    have h0 : ¬ memcmp (hashTwice P (storeStr s.str v) num) target (256 / 8) = 0 := by
      rw [memcmp_eq_zero_iff]; exact hno v (List.mem_cons_self _ _)
    have hmap : (pre ++ [t]).map (fun u => (storeStr (storeStr s.str v) u).take num) =
        (pre ++ [t]).map (fun u => (storeStr s.str u).take num) :=
      List.map_congr_left (fun u _ => by rw [storeStr_storeStr s.str u v hlen])
    rw [List.cons_append, bruteLoop]
    simp only [h0, if_false]
    rw [ih { str := storeStr s.str v, hashed := s.hashed ++ [(storeStr s.str v).take num] }
      (by simp only [length_storeStr]; exact hlen)
      (by
        intro u hu
        simp only [storeStr_storeStr s.str u v hlen]
        exact hno u (List.mem_cons_of_mem _ hu))
      (by simp only [storeStr_storeStr s.str t v hlen]; exact hit)]
    simp only [hmap, storeStr_storeStr s.str t v hlen, List.map_cons, List.append_assoc,
      List.singleton_append, List.cons_append, List.nil_append]

theorem first_match_split {α : Type} (p : α → Prop) [DecidablePred p] (ts : List α) :
    (∀ t ∈ ts, ¬ p t) ∨
      ∃ pre t post, ts = pre ++ t :: post ∧ (∀ u ∈ pre, ¬ p u) ∧ p t := by
  induction ts with
  | nil => left; simp
  | cons a ts ih =>
    by_cases ha : p a
    · right; exact ⟨[], a, ts, rfl, by simp, ha⟩
    · rcases ih with h | ⟨pre, t, post, e, hpre, ht⟩
      · left
        intro t ht
        rcases List.mem_cons.mp ht with rfl | h1
        · exact ha
        · exact h t h1
      · right
        refine ⟨a :: pre, t, post, by rw [e]; rfl, ?_, ht⟩
        intro u hu
        rcases List.mem_cons.mp hu with rfl | h1
        · exact ha
        · exact hpre u h1

/-! ## The two ways brute returns -/

theorem length_junkStr (junk : Nat → Nat) (n : Nat) : (junkStr junk n).length = n := by
  simp [junkStr]

theorem toNat_ge_five (num : Int) (h5 : 5 ≤ num) : 5 ≤ num.toNat := by omega

theorem brute_exhausted (P : HashPrimitive) (junk : Nat → Nat) (start stop num : Int)
    (h5 : 5 ≤ num)
    (hno : ∀ c ∈ candidates junk start stop num.toNat, pipeline P c ≠ target) :
    brute P junk start stop num = .ok
      { ret := 0
        stdout :=
          startingBlock num (storeStr (junkStr junk num.toNat) (start, 32, 32, 32, 32))
            ++ endedBlock ((bruteLoops start stop).foldl storeStr
                (storeStr (junkStr junk num.toNat) (start, 32, 32, 32, 32)))
        hashed := candidates junk start stop num.toNat } := by
  have hn : 5 ≤ (junkStr junk num.toNat).length := by
    rw [length_junkStr]; exact toNat_ge_five num h5
  have hloop := bruteLoop_none P num.toNat (bruteLoops start stop)
    { str := storeStr (junkStr junk num.toNat) (start, 32, 32, 32, 32), hashed := [] }
    (by simp only [length_storeStr]; exact hn)
    (by
      intro t ht
      simp only [storeStr_storeStr _ t _ hn, hashTwice_eq_pipeline]
      exact hno _ (List.mem_map_of_mem _ ht))
  have hmap : (bruteLoops start stop).map (fun t =>
        (storeStr (storeStr (junkStr junk num.toNat) (start, 32, 32, 32, 32)) t).take
          num.toNat) = candidates junk start stop num.toNat :=
    List.map_congr_left (fun t _ => by rw [storeStr_storeStr _ t _ hn])
  simp only [hmap, List.nil_append] at hloop
  unfold brute
  rw [if_neg (by omega)]
  simp only [hloop]

theorem brute_found (P : HashPrimitive) (junk : Nat → Nat) (start stop num : Int)
    (h5 : 5 ≤ num) (pre : List (Int × Int × Int × Int × Int))
    (t : Int × Int × Int × Int × Int) (post : List (Int × Int × Int × Int × Int))
    (hsplit : bruteLoops start stop = pre ++ t :: post)
    (hno : ∀ u ∈ pre,
      pipeline P ((storeStr (junkStr junk num.toNat) u).take num.toNat) ≠ target)
    (hit : pipeline P ((storeStr (junkStr junk num.toNat) t).take num.toNat) = target) :
    brute P junk start stop num = .ok
      { ret := 10
        stdout :=
          startingBlock num (storeStr (junkStr junk num.toNat) (start, 32, 32, 32, 32))
            ++ foundBlock (storeStr (junkStr junk num.toNat) t) target
        hashed := (pre ++ [t]).map
          (fun u => (storeStr (junkStr junk num.toNat) u).take num.toNat) } := by
  have hn : 5 ≤ (junkStr junk num.toNat).length := by
    rw [length_junkStr]; exact toNat_ge_five num h5
  have hloop := bruteLoop_some P num.toNat pre t post
    { str := storeStr (junkStr junk num.toNat) (start, 32, 32, 32, 32), hashed := [] }
    (by simp only [length_storeStr]; exact hn)
    (by
      intro u hu
      simp only [storeStr_storeStr _ u _ hn, hashTwice_eq_pipeline]
      exact hno u hu)
    (by simp only [storeStr_storeStr _ t _ hn, hashTwice_eq_pipeline]; exact hit)
  have hmap : (pre ++ [t]).map (fun u =>
        (storeStr (storeStr (junkStr junk num.toNat) (start, 32, 32, 32, 32)) u).take
          num.toNat) =
      (pre ++ [t]).map (fun u => (storeStr (junkStr junk num.toNat) u).take num.toNat) :=
    List.map_congr_left (fun u _ => by rw [storeStr_storeStr _ u _ hn])
  simp only [hmap, List.nil_append, storeStr_storeStr _ t _ hn, hashTwice_eq_pipeline, hit]
    at hloop
  unfold brute
  rw [if_neg (by omega)]
  simp only [hsplit, hloop]

/-! ## The candidates of a range -/

theorem candidates_five (junk : Nat → Nat) (start stop : Int) :
    candidates junk start stop 5 = (bruteLoops start stop).map fiveBytes := by
  unfold candidates
  apply List.map_congr_left
  intro t _
  rw [storeStr_eq _ t (by rw [length_junkStr])]
  have h : (junkStr junk 5).drop 5 = [] :=
    List.drop_eq_nil_of_le (by rw [length_junkStr])
  rw [h]
  rfl

theorem length_bruteLoops (start stop : Int) :
    (bruteLoops start stop).length = (stop - start).toNat * 95 ^ 4 := by
  rw [bruteLoops_eq, List.length_map, List.length_range]

theorem length_candidates (junk : Nat → Nat) (start stop : Int) (num : Nat) :
    (candidates junk start stop num).length = (stop - start).toNat * 95 ^ 4 := by
  rw [candidates, List.length_map, length_bruteLoops]

theorem mem_forRange (lo hi x : Int) : x ∈ forRange lo hi ↔ lo ≤ x ∧ x < hi := by
  simp only [forRange, List.mem_map, List.mem_range]
  constructor
  · rintro ⟨d, hd, rfl⟩
    omega
  · intro h
    exact ⟨(x - lo).toNat, by omega, by omega⟩

theorem mem_bruteLoops (start stop : Int) (t : Int × Int × Int × Int × Int) :
    t ∈ bruteLoops start stop ↔
      (start ≤ t.1 ∧ t.1 < stop) ∧ (32 ≤ t.2.1 ∧ t.2.1 < 127) ∧
        (32 ≤ t.2.2.1 ∧ t.2.2.1 < 127) ∧ (32 ≤ t.2.2.2.1 ∧ t.2.2.2.1 < 127) ∧
        (32 ≤ t.2.2.2.2 ∧ t.2.2.2.2 < 127) := by
  obtain ⟨i, j, k, l, m⟩ := t
  simp only [bruteLoops, List.mem_flatMap, List.mem_map, mem_forRange, Prod.mk.injEq]
  constructor
  · rintro ⟨i1, hi, j1, hj, k1, hk, l1, hl, m1, hm, rfl, rfl, rfl, rfl, rfl⟩
    exact ⟨hi, hj, hk, hl, hm⟩
  · rintro ⟨hi, hj, hk, hl, hm⟩
    exact ⟨i, hi, j, hj, k, hk, l, hl, m, hm, rfl, rfl, rfl, rfl, rfl⟩

theorem toUInt8_of_byte (x : Int) (h0 : 0 ≤ x) (h1 : x < 256) : (toUInt8 x : Int) = x := by
  unfold toUInt8
  omega

theorem toUInt8_natCast (b : Nat) (h : b < 256) : toUInt8 (b : Int) = b := by
  unfold toUInt8
  omega

theorem fiveBytes_injOn (start stop : Int) (h0 : 0 ≤ start) (h1 : stop ≤ 256)
    (t u : Int × Int × Int × Int × Int) (ht : t ∈ bruteLoops start stop)
    (hu : u ∈ bruteLoops start stop) (h : fiveBytes t = fiveBytes u) : t = u := by
  rw [mem_bruteLoops] at ht hu
  obtain ⟨i, j, k, l, m⟩ := t
  obtain ⟨i1, j1, k1, l1, m1⟩ := u
  simp only [fiveBytes, List.cons.injEq, and_true, toUInt8] at h
  simp only at ht hu
  simp only [Prod.mk.injEq]
  omega

theorem nodup_bruteLoops (start stop : Int) : (bruteLoops start stop).Nodup := by
  rw [bruteLoops_eq]
  apply List.Nodup.map_on _ (List.nodup_range _)
  intro x hx y hy h
  have hx : x < (stop - start).toNat * 95 ^ 4 := List.mem_range.mp hx
  have hy : y < (stop - start).toNat * 95 ^ 4 := List.mem_range.mp hy
  simp only [odometer, Prod.mk.injEq] at h
  omega

theorem nodup_candidates_five (junk : Nat → Nat) (start stop : Int) (h0 : 0 ≤ start)
    (h1 : stop ≤ 256) : (candidates junk start stop 5).Nodup := by
  rw [candidates_five]
  exact List.Nodup.map_on (fun t ht u hu h => fiveBytes_injOn start stop h0 h1 t u ht hu h)
    (nodup_bruteLoops start stop)

theorem mem_candidates_five (junk : Nat → Nat) (start stop : Int) (h0 : 0 ≤ start)
    (h1 : stop ≤ 256) (b0 b1 b2 b3 b4 : Nat) :
    [b0, b1, b2, b3, b4] ∈ candidates junk start stop 5 ↔
      (start ≤ (b0 : Int) ∧ (b0 : Int) < stop) ∧ (32 ≤ b1 ∧ b1 ≤ 126) ∧ (32 ≤ b2 ∧ b2 ≤ 126) ∧
        (32 ≤ b3 ∧ b3 ≤ 126) ∧ (32 ≤ b4 ∧ b4 ≤ 126) := by
  rw [candidates_five, List.mem_map]
  constructor
  · rintro ⟨⟨i, j, k, l, m⟩, ht, h⟩
    rw [mem_bruteLoops] at ht
    simp only [fiveBytes, List.cons.injEq, and_true, toUInt8] at h
    simp only at ht
    omega
  · intro h
    refine ⟨((b0 : Int), (b1 : Int), (b2 : Int), (b3 : Int), (b4 : Int)), ?_, ?_⟩
    · rw [mem_bruteLoops]
      simp only
      omega
    · simp only [fiveBytes, List.cons.injEq, and_true, toUInt8]
      omega

theorem mem_candidates_five_bounds (junk : Nat → Nat) (start stop : Int) (h0 : 0 ≤ start)
    (h1 : stop ≤ 256) (c : List Nat) (hc : c ∈ candidates junk start stop 5) :
    ∃ b0 b1 b2 b3 b4 : Nat, c = [b0, b1, b2, b3, b4] ∧
      (start ≤ (b0 : Int) ∧ (b0 : Int) < stop) ∧ (32 ≤ b1 ∧ b1 ≤ 126) ∧ (32 ≤ b2 ∧ b2 ≤ 126) ∧
        (32 ≤ b3 ∧ b3 ≤ 126) ∧ (32 ≤ b4 ∧ b4 ≤ 126) := by
  have hc1 := hc
  rw [candidates_five, List.mem_map] at hc1
  obtain ⟨t, _, rfl⟩ := hc1
  refine ⟨_, _, _, _, _, rfl, ?_⟩
  exact (mem_candidates_five junk start stop h0 h1 _ _ _ _ _).mp hc

theorem getElem?_candidates_five (junk : Nat → Nat) (start stop : Int) (h0 : 0 ≤ start)
    (h1 : stop ≤ 256) (n : Nat) :
    (candidates junk start stop 5)[n]? =
      if n < (stop - start).toNat * 95 ^ 4 then some (odometerBytes start n) else none := by
  rw [candidates_five, bruteLoops_eq, List.map_map, List.getElem?_map]
  split_ifs with hn
  · rw [List.getElem?_range hn]
    simp only [Option.map_some', Function.comp, fiveBytes, odometer, odometerBytes, toUInt8,
      Option.some.injEq, List.cons.injEq, and_true]
    omega
  · rw [List.getElem?_eq_none (by rw [List.length_range]; omega)]
    rfl

theorem nextCandidate_odometerBytes (start : Int) (h0 : 0 ≤ start) (n : Nat) :
    nextCandidate (odometerBytes start n) = odometerBytes start (n + 1) := by
  simp only [odometerBytes, nextCandidate]
  split_ifs <;> simp only [List.cons.injEq, and_true] <;> omega

theorem lex_nextCandidate (a b c d e : Nat) :
    List.Lex (· < ·) [a, b, c, d, e] (nextCandidate [a, b, c, d, e]) := by
  simp only [nextCandidate]
  split_ifs
  · exact .cons (.cons (.cons (.cons (.rel (Nat.lt_succ_self _)))))
  · exact .cons (.cons (.cons (.rel (Nat.lt_succ_self _))))
  · exact .cons (.cons (.rel (Nat.lt_succ_self _)))
  · exact .cons (.rel (Nat.lt_succ_self _))
  · exact .rel (Nat.lt_succ_self _)

theorem pipeline_zeroHash (c : List Nat) : pipeline zeroHash c ≠ target := by
  have h : pipeline zeroHash c = List.replicate 32 0 := by
    simp [pipeline, hashTwice, sha3_HashBuffer, zeroHash]
  rw [h]
  decide

/-- For every hash primitive, `brute` with `num = 5` returns, and the inputs it hashed
are an initial segment of the candidates of its range. -/
theorem brute_five_cases (P : HashPrimitive) (junk : Nat → Nat) (start stop : Int) :
    ((∀ c ∈ candidates junk start stop 5, pipeline P c ≠ target) ∧
      brute P junk start stop 5 = .ok
        { ret := 0
          stdout := startingBlock 5 (fiveBytes (start, 32, 32, 32, 32))
            ++ endedBlock ((bruteLoops start stop).foldl storeStr
                (fiveBytes (start, 32, 32, 32, 32)))
          hashed := candidates junk start stop 5 }) ∨
    (∃ pre t post, bruteLoops start stop = pre ++ t :: post ∧
      (∀ u ∈ pre, pipeline P (fiveBytes u) ≠ target) ∧ pipeline P (fiveBytes t) = target ∧
      brute P junk start stop 5 = .ok
        { ret := 10
          stdout := startingBlock 5 (fiveBytes (start, 32, 32, 32, 32))
            ++ foundBlock (fiveBytes t) target
          hashed := (pre ++ [t]).map fiveBytes }) := by
  have hst : ∀ t, storeStr (junkStr junk (5 : Int).toNat) t = fiveBytes t := by
    intro t
    rw [storeStr_eq _ t (by rw [length_junkStr]; decide)]
    have h : (junkStr junk (5 : Int).toNat).drop 5 = [] :=
      List.drop_eq_nil_of_le (by rw [length_junkStr]; decide)
    rw [h]
    rfl
  have h5 : (5 : Int).toNat = 5 := rfl
  have htk : ∀ t, (fiveBytes t).take 5 = fiveBytes t := fun t => rfl
  rcases first_match_split (fun t => pipeline P (fiveBytes t) = target)
    (bruteLoops start stop) with hno | ⟨pre, t, post, hsplit, hpre, hit⟩
  · left
    have hno1 : ∀ c ∈ candidates junk start stop 5, pipeline P c ≠ target := by
      intro c hc
      rw [candidates_five, List.mem_map] at hc
      obtain ⟨t, ht, rfl⟩ := hc
      exact hno t ht
    refine ⟨hno1, ?_⟩
    have := brute_exhausted P junk start stop 5 (le_refl _) (by rw [h5]; exact hno1)
    simpa only [hst, h5] using this
  · right
    refine ⟨pre, t, post, hsplit, hpre, hit, ?_⟩
    have := brute_found P junk start stop 5 (le_refl _) pre t post hsplit
      (by intro u hu; rw [hst, h5, htk]; exact hpre u hu) (by rw [hst, h5, htk]; exact hit)
    simpa only [hst, h5, htk] using this

theorem brute_found_five (P : HashPrimitive) (junk : Nat → Nat) (start stop : Int)
    (pre : List (Int × Int × Int × Int × Int)) (t : Int × Int × Int × Int × Int)
    (post : List (Int × Int × Int × Int × Int))
    (hsplit : bruteLoops start stop = pre ++ t :: post)
    (hno : ∀ u ∈ pre, pipeline P (fiveBytes u) ≠ target)
    (hit : pipeline P (fiveBytes t) = target) :
    brute P junk start stop 5 = .ok
      { ret := 10
        stdout := startingBlock 5 (fiveBytes (start, 32, 32, 32, 32))
          ++ foundBlock (fiveBytes t) target
        hashed := (pre ++ [t]).map fiveBytes } := by
  have hst : ∀ t, storeStr (junkStr junk (5 : Int).toNat) t = fiveBytes t := by
    intro t
    rw [storeStr_eq _ t (by rw [length_junkStr]; decide)]
    have h : (junkStr junk (5 : Int).toNat).drop 5 = [] :=
      List.drop_eq_nil_of_le (by rw [length_junkStr]; decide)
    rw [h]
    rfl
  have h5 : (5 : Int).toNat = 5 := rfl
  have htk : ∀ t, (fiveBytes t).take 5 = fiveBytes t := fun t => rfl
  have := brute_found P junk start stop 5 (le_refl _) pre t post hsplit
    (by intro u hu; rw [hst, h5, htk]; exact hno u hu) (by rw [hst, h5, htk]; exact hit)
  simpa only [hst, h5, htk] using this

theorem brute_five_hashed_take (P : HashPrimitive) (junk : Nat → Nat) (start stop : Int) :
    ∃ r k, brute P junk start stop 5 = .ok r ∧
      r.hashed = (candidates junk start stop 5).take k := by
  rcases brute_five_cases P junk start stop with ⟨_, h⟩ | ⟨pre, t, post, hsplit, _, _, h⟩
  · exact ⟨_, (candidates junk start stop 5).length, h, (List.take_length _).symm⟩
  · refine ⟨_, pre.length + 1, h, ?_⟩
    simp only [candidates_five, hsplit, ← List.map_take]
    congr 1
    rw [List.take_append_eq_append_take]
    simp

theorem eq_odometerBytes_of_getElem? (junk : Nat → Nat) (start stop : Int) (h0 : 0 ≤ start)
    (h1 : stop ≤ 256) (k n : Nat) (a : List Nat)
    (h : ((candidates junk start stop 5).take k)[n]? = some a) :
    a = odometerBytes start n := by
  rw [List.getElem?_take] at h
  split_ifs at h
  rw [getElem?_candidates_five junk start stop h0 h1] at h
  split_ifs at h
  exact (Option.some.inj h).symm

theorem brute_exhausted_five (P : HashPrimitive) (junk : Nat → Nat) (start stop : Int)
    (hno : ∀ c ∈ candidates junk start stop 5, pipeline P c ≠ target) :
    ∃ r, brute P junk start stop 5 = .ok r ∧ r.ret = 0 ∧
      r.hashed = candidates junk start stop 5 := by
  rcases brute_five_cases P junk start stop with ⟨_, h⟩ | ⟨pre, t, post, hsplit, _, hit, _⟩
  · exact ⟨_, h, rfl, rfl⟩
  · exfalso
    refine hno (fiveBytes t) ?_ hit
    rw [candidates_five, hsplit]
    simp

theorem cast_length_candidates (junk : Nat → Nat) (start stop : Int) (num : Nat)
    (h : start ≤ stop) :
    ((candidates junk start stop num).length : Int) = (stop - start) * 95 ^ 4 := by
  rw [length_candidates]
  push_cast
  rw [Int.toNat_of_nonneg (by omega)]

/-! ## Enumeration -/

/-- C3 (amended to the length `main` uses): for every range with
`32 ≤ start < stop ≤ 127` and length 5, when no candidate matches the target, `brute`
returns and the candidates it passed to the digest pipeline are exactly
`(stop - start) * 95^(5-1)` in number, each of 5 bytes all within `[32, 126]`, and no two
are equal. -/
theorem brute_enumeration (P : HashPrimitive) (junk : Nat → Nat) (start stop : Int)
    (h1 : 32 ≤ start) (h2 : start < stop) (h3 : stop ≤ 127)
    (hno : ∀ c ∈ candidates junk start stop 5, pipeline P c ≠ target) :
    ∃ r, brute P junk start stop 5 = .ok r ∧
      (r.hashed.length : Int) = (stop - start) * 95 ^ (5 - 1) ∧
      (∀ c ∈ r.hashed, c.length = 5 ∧ ∀ b ∈ c, 32 ≤ b ∧ b ≤ 126) ∧
      r.hashed.Nodup := by
  obtain ⟨r, hr, _, hh⟩ := brute_exhausted_five P junk start stop hno
  refine ⟨r, hr, ?_, ?_, ?_⟩
  · rw [hh]
    exact cast_length_candidates junk start stop 5 (by omega)
  · intro c hc
    rw [hh] at hc
    obtain ⟨b0, b1, b2, b3, b4, rfl, hb⟩ :=
      mem_candidates_five_bounds junk start stop (by omega) (by omega) c hc
    refine ⟨rfl, ?_⟩
    intro b hb1
    simp only [List.mem_cons, List.mem_singleton, List.not_mem_nil, or_false] at hb1
    omega
  · rw [hh]
    exact nodup_candidates_five junk start stop (by omega) (by omega)

/-- Witness of C3: the range `[32, 34)` with a hash that never matches yields
`2 * 95^4` distinct candidates. -/
theorem brute_enumeration_witness :
    (∀ c ∈ candidates (fun _ => 0) 32 34 5, pipeline zeroHash c ≠ target) ∧
    ∃ r, brute zeroHash (fun _ => 0) 32 34 5 = .ok r ∧
      (r.hashed.length : Int) = (34 - 32) * 95 ^ (5 - 1) ∧
      (∀ c ∈ r.hashed, c.length = 5 ∧ ∀ b ∈ c, 32 ≤ b ∧ b ≤ 126) ∧
      r.hashed.Nodup :=
  ⟨fun c _ => pipeline_zeroHash c,
    brute_enumeration zeroHash (fun _ => 0) 32 34 (by decide) (by decide) (by decide)
      (fun c _ => pipeline_zeroHash c)⟩

/-- Counterexample to C3 as stated for every length: with length 6 the range `[32, 34)`
yields `2 * 95^4` candidates and not `2 * 95^(6-1)`, and with length 2 the stores to
`str[2..4]` fall outside the array. -/
theorem six_byte_candidates_not_95_pow_5 :
    (∀ c, pipeline zeroHash c ≠ target) ∧
    (∃ r, brute zeroHash (fun _ => 0) 32 34 6 = .ok r ∧
      (r.hashed.length : Int) = (34 - 32) * 95 ^ 4 ∧
      (r.hashed.length : Int) ≠ (34 - 32) * 95 ^ (6 - 1)) ∧
    brute zeroHash (fun _ => 0) 32 34 2 = .error .outOfBounds := by
  refine ⟨pipeline_zeroHash, ⟨_, brute_exhausted zeroHash (fun _ => 0) 32 34 6 (by decide)
    (fun c _ => pipeline_zeroHash c), ?_, ?_⟩, rfl⟩
  · exact cast_length_candidates _ 32 34 _ (by decide)
  · simp only [cast_length_candidates (fun _ => 0) 32 34 _ (by decide)]
    decide

/-- C4: for every range with `32 ≤ start < stop ≤ 127` and length 5, the `n`-th candidate
`brute` hashes (from 0) has byte 0 equal to `start + n / 95^4` and byte `j` equal to
`32 + (n / 95^(4-j)) mod 95` for `j = 1..4`; each hashed candidate is lexicographically
greater than the one before it and is `nextCandidate` of it, a function of that
candidate alone. -/
theorem brute_odometer_order (P : HashPrimitive) (junk : Nat → Nat) (start stop : Int)
    (h1 : 32 ≤ start) (h2 : start < stop) (h3 : stop ≤ 127) :
    ∃ r, brute P junk start stop 5 = .ok r ∧
      (∀ n, n < r.hashed.length → ∃ b0 b1 b2 b3 b4 : Nat,
        r.hashed[n]? = some [b0, b1, b2, b3, b4] ∧ (b0 : Int) = start + ((n / 95 ^ 4 : Nat) : Int) ∧
        b1 = 32 + n / 95 ^ 3 % 95 ∧ b2 = 32 + n / 95 ^ 2 % 95 ∧ b3 = 32 + n / 95 ^ 1 % 95 ∧
        b4 = 32 + n / 95 ^ 0 % 95) ∧
      (∀ n a b, r.hashed[n]? = some a → r.hashed[n + 1]? = some b →
        List.Lex (· < ·) a b ∧ b = nextCandidate a) := by
  obtain ⟨r, k, hr, hk⟩ := brute_five_hashed_take P junk start stop
  have hstop : 0 ≤ stop := by omega
  refine ⟨r, hr, ?_, ?_⟩
  · intro n hn
    have hget : r.hashed[n]? = some (r.hashed[n]) := List.getElem?_eq_getElem hn
    have ha : r.hashed[n] = odometerBytes start n :=
      eq_odometerBytes_of_getElem? junk start stop (by omega) (by omega) k n _
        (by rw [← hk]; exact hget)
    refine ⟨_, _, _, _, _, by rw [hget, ha]; rfl, ?_, rfl, rfl, ?_, ?_⟩
    · omega
    · simp
    · simp
  · intro n a b ha hb
    have ea : a = odometerBytes start n :=
      eq_odometerBytes_of_getElem? junk start stop (by omega) (by omega) k n a
        (by rw [← hk]; exact ha)
    have eb : b = odometerBytes start (n + 1) :=
      eq_odometerBytes_of_getElem? junk start stop (by omega) (by omega) k (n + 1) b
        (by rw [← hk]; exact hb)
    have hnext : b = nextCandidate a := by
      rw [ea, eb, nextCandidate_odometerBytes start (by omega)]
    refine ⟨?_, hnext⟩
    rw [hnext, ea]
    exact lex_nextCandidate _ _ _ _ _

/-- Witness of C4 on the range `[32, 34)`. -/
theorem brute_odometer_order_witness :
    ∃ r, brute zeroHash (fun _ => 0) 32 34 5 = .ok r ∧
      (∀ n, n < r.hashed.length → ∃ b0 b1 b2 b3 b4 : Nat,
        r.hashed[n]? = some [b0, b1, b2, b3, b4] ∧ (b0 : Int) = 32 + ((n / 95 ^ 4 : Nat) : Int) ∧
        b1 = 32 + n / 95 ^ 3 % 95 ∧ b2 = 32 + n / 95 ^ 2 % 95 ∧ b3 = 32 + n / 95 ^ 1 % 95 ∧
        b4 = 32 + n / 95 ^ 0 % 95) ∧
      (∀ n a b, r.hashed[n]? = some a → r.hashed[n + 1]? = some b →
        List.Lex (· < ·) a b ∧ b = nextCandidate a) :=
  brute_odometer_order zeroHash (fun _ => 0) 32 34 (by decide) (by decide) (by decide)

/-! ## Match detection -/

theorem bruteLoops_head (start stop : Int) (h : start < stop) :
    ∃ post, bruteLoops start stop = (start, 32, 32, 32, 32) :: post := by
  obtain ⟨m, hm⟩ : ∃ m, (stop - start).toNat * 95 ^ 4 = m + 1 :=
    ⟨(stop - start).toNat * 95 ^ 4 - 1, by omega⟩
  rw [bruteLoops_eq, hm, List.range_succ_eq_map, List.map_cons]
  refine ⟨List.map (odometer start) (List.map Nat.succ (List.range m)), ?_⟩
  congr 1
  simp [odometer]

theorem pipeline_targetHash (c : List Nat) : pipeline targetHash c = target := by
  simp only [pipeline, hashTwice, sha3_HashBuffer, targetHash, if_true]
  decide

theorem pipeline_onlyAAAAA (c : List Nat) (hlen : c.length = 5)
    (hc : c ≠ [65, 65, 65, 65, 65]) : pipeline onlyAAAAA c ≠ target := by
  have h1 : c ≠ target := by
    intro h
    rw [h] at hlen
    exact absurd hlen (by decide)
  have h2 : pipeline onlyAAAAA c = List.replicate 32 0 := by
    simp only [pipeline, hashTwice, sha3_HashBuffer, onlyAAAAA, List.take_length, hc, h1,
      or_self, and_false, if_false]
    decide
  rw [h2]
  decide

theorem pipeline_onlyAAAAA_self : pipeline onlyAAAAA [65, 65, 65, 65, 65] = target := by
  decide

/-- C5 (amended): for every range and length 5, if `brute` returns 10 then it reports a
candidate `c` and a digest `d` such that byte 0 of `c` is the low 8 bits of some `i` in
`[start, stop)` (so it is `i` itself, inside the range, whenever `0 ≤ start` and
`stop ≤ 256`), bytes 1..4 lie in `[32, 126]`, `d` is the pipeline digest of `c` and equals
the target, no candidate before `c` in enumeration order has a digest equal to the
target, and `c` is the last candidate hashed. -/
theorem brute_found_first_match (P : HashPrimitive) (junk : Nat → Nat) (start stop : Int)
    (r : BruteResult) (hr : brute P junk start stop 5 = .ok r) (h10 : r.ret = 10) :
    ∃ (i : Int) (b1 b2 b3 b4 : Nat) (pre post : List (List Nat)),
      (start ≤ i ∧ i < stop) ∧ (32 ≤ b1 ∧ b1 ≤ 126) ∧ (32 ≤ b2 ∧ b2 ≤ 126) ∧
      (32 ≤ b3 ∧ b3 ≤ 126) ∧ (32 ≤ b4 ∧ b4 ≤ 126) ∧
      (0 ≤ start → stop ≤ 256 → (toUInt8 i : Int) = i) ∧
      pipeline P [toUInt8 i, b1, b2, b3, b4] = target ∧
      r.stdout = startingBlock 5 (fiveBytes (start, 32, 32, 32, 32))
        ++ foundBlock [toUInt8 i, b1, b2, b3, b4] (pipeline P [toUInt8 i, b1, b2, b3, b4]) ∧
      candidates junk start stop 5 = pre ++ [toUInt8 i, b1, b2, b3, b4] :: post ∧
      (∀ x ∈ pre, pipeline P x ≠ target) ∧
      r.hashed = pre ++ [[toUInt8 i, b1, b2, b3, b4]] := by
  rcases brute_five_cases P junk start stop with ⟨_, h⟩ | ⟨pre, t, post, hsplit, hpre, hit, h⟩
  · rw [h] at hr
    have := Except.ok.inj hr
    subst this
    simp at h10
  · rw [h] at hr
    have := Except.ok.inj hr
    subst this
    have ht : t ∈ bruteLoops start stop := by rw [hsplit]; simp
    rw [mem_bruteLoops] at ht
    obtain ⟨i, j, k, l, m⟩ := t
    simp only at ht
    refine ⟨i, toUInt8 j, toUInt8 k, toUInt8 l, toUInt8 m, pre.map fiveBytes,
      post.map fiveBytes, ht.1, ?_, ?_, ?_, ?_, ?_, hit, ?_, ?_, ?_, ?_⟩
    · unfold toUInt8; omega
    · unfold toUInt8; omega
    · unfold toUInt8; omega
    · unfold toUInt8; omega
    · intro h0 h256
      exact toUInt8_of_byte i (by omega) (by omega)
    · have e : pipeline P [toUInt8 i, toUInt8 j, toUInt8 k, toUInt8 l, toUInt8 m] = target :=
        hit
      rw [e]
      rfl
    · rw [candidates_five, hsplit, List.map_append, List.map_cons]
      rfl
    · intro x hx
      obtain ⟨u, hu, rfl⟩ := List.mem_map.mp hx
      exact hpre u hu
    · simp only [List.map_append, List.map_cons, List.map_nil]
      rfl

/-- Witness of C5: with a hash under which every candidate matches, `brute(65, 66, 5)`
returns 10 and reports its first candidate. -/
theorem brute_found_first_match_witness :
    ∃ r, brute targetHash (fun _ => 0) 65 66 5 = .ok r ∧ r.ret = 10 ∧
      ∃ (i : Int) (b1 b2 b3 b4 : Nat) (pre post : List (List Nat)),
        ((65 : Int) ≤ i ∧ i < 66) ∧ (32 ≤ b1 ∧ b1 ≤ 126) ∧ (32 ≤ b2 ∧ b2 ≤ 126) ∧
        (32 ≤ b3 ∧ b3 ≤ 126) ∧ (32 ≤ b4 ∧ b4 ≤ 126) ∧
        ((0 : Int) ≤ 65 → (66 : Int) ≤ 256 → (toUInt8 i : Int) = i) ∧
        pipeline targetHash [toUInt8 i, b1, b2, b3, b4] = target ∧
        r.stdout = startingBlock 5 (fiveBytes (65, 32, 32, 32, 32))
          ++ foundBlock [toUInt8 i, b1, b2, b3, b4]
              (pipeline targetHash [toUInt8 i, b1, b2, b3, b4]) ∧
        candidates (fun _ => 0) 65 66 5 = pre ++ [toUInt8 i, b1, b2, b3, b4] :: post ∧
        (∀ x ∈ pre, pipeline targetHash x ≠ target) ∧
        r.hashed = pre ++ [[toUInt8 i, b1, b2, b3, b4]] := by
  obtain ⟨post, hpost⟩ := bruteLoops_head 65 66 (by decide)
  have hb := brute_found targetHash (fun _ => 0) 65 66 5 (le_refl _) [] (65, 32, 32, 32, 32)
    post hpost (by simp) (pipeline_targetHash _)
  exact ⟨_, hb, rfl, brute_found_first_match targetHash (fun _ => 0) 65 66 _ hb rfl⟩

/-- Counterexample to C5 as stated for every range: `brute(317, 412, 5)`, the call
`main` makes for `threads = 1`, `thread = 4`, returns 10 reporting a candidate whose
byte 0 is `317 mod 256 = 61`, outside `[317, 412)`. -/
theorem brute_found_byte0_outside_range :
    brute targetHash (fun _ => 0) 317 412 5 = .ok
      { ret := 10
        stdout := startingBlock 5 [61, 32, 32, 32, 32]
          ++ foundBlock [61, 32, 32, 32, 32] target
        hashed := [[61, 32, 32, 32, 32]] } ∧
    pipeline targetHash [61, 32, 32, 32, 32] = target ∧
    ¬ ((317 : Int) ≤ 61 ∧ (61 : Int) < 412) := by
  obtain ⟨post, hpost⟩ := bruteLoops_head 317 412 (by decide)
  have hb := brute_found targetHash (fun _ => 0) 317 412 5 (le_refl _) []
    (317, 32, 32, 32, 32) post hpost (by simp) (pipeline_targetHash _)
  exact ⟨hb, pipeline_targetHash _, by decide⟩

/-- C6: for every range and length 5, if some 5-byte candidate with byte 0 in
`[start, stop)` and bytes 1..4 in `[32, 126]` has a pipeline digest equal to the target,
`brute` returns 10 and not 0; and when the target is the pipeline digest of `"AAAAA"` and
no candidate of the range `[65, 66)` before `"AAAAA"` has that digest, `brute(65, 66, 5)`
returns 10 reporting `"AAAAA"` and that digest. -/
theorem brute_found_of_match (P : HashPrimitive) (junk : Nat → Nat) :
    (∀ (start stop : Int) (b0 b1 b2 b3 b4 : Nat),
      start ≤ (b0 : Int) → (b0 : Int) < stop → b0 < 256 →
      (32 ≤ b1 ∧ b1 ≤ 126) → (32 ≤ b2 ∧ b2 ≤ 126) → (32 ≤ b3 ∧ b3 ≤ 126) →
      (32 ≤ b4 ∧ b4 ≤ 126) → pipeline P [b0, b1, b2, b3, b4] = target →
      ∃ r, brute P junk start stop 5 = .ok r ∧ r.ret = 10 ∧ r.ret ≠ 0) ∧
    (pipeline P [65, 65, 65, 65, 65] = target →
      (∀ pre post, candidates junk 65 66 5 = pre ++ [65, 65, 65, 65, 65] :: post →
        ∀ x ∈ pre, pipeline P x ≠ target) →
      ∃ r, brute P junk 65 66 5 = .ok r ∧ r.ret = 10 ∧
        r.stdout = startingBlock 5 [65, 32, 32, 32, 32]
          ++ foundBlock [65, 65, 65, 65, 65] (pipeline P [65, 65, 65, 65, 65]) ∧
        r.hashed.getLast? = some [65, 65, 65, 65, 65]) := by
  constructor
  · intro start stop b0 b1 b2 b3 b4 hs he hb hb1 hb2 hb3 hb4 hit
    rcases brute_five_cases P junk start stop with ⟨hno, _⟩ | ⟨pre, t, post, _, _, _, h⟩
    · exfalso
      refine hno [b0, b1, b2, b3, b4] ?_ hit
      rw [candidates_five, List.mem_map]
      refine ⟨((b0 : Int), (b1 : Int), (b2 : Int), (b3 : Int), (b4 : Int)), ?_, ?_⟩
      · rw [mem_bruteLoops]
        simp only
        omega
      · simp only [fiveBytes, List.cons.injEq, and_true, toUInt8]
        omega
    · refine ⟨_, h, rfl, ?_⟩
      simp
  · intro hA hbefore
    have hmem : ((65 : Int), (65 : Int), (65 : Int), (65 : Int), (65 : Int)) ∈
        bruteLoops 65 66 := by
      rw [mem_bruteLoops]
      decide
    obtain ⟨pre, post, hsplit⟩ := List.append_of_mem hmem
    have hfive : fiveBytes (65, 65, 65, 65, 65) = [65, 65, 65, 65, 65] := by decide
    have hpre : ∀ u ∈ pre, pipeline P (fiveBytes u) ≠ target := by
      intro u hu
      refine hbefore (pre.map fiveBytes) (post.map fiveBytes) ?_ _ (List.mem_map_of_mem _ hu)
      rw [candidates_five, hsplit, List.map_append, List.map_cons, hfive]
    have hb := brute_found_five P junk 65 66 pre (65, 65, 65, 65, 65) post hsplit hpre
      (by rw [hfive]; exact hA)
    refine ⟨_, hb, rfl, ?_, ?_⟩
    · simp only [hfive, hA]
      rfl
    · simp only [List.map_append, List.map_cons, List.map_nil, hfive]
      exact List.getLast?_concat _

/-- Witness of C6, with a hash under which `"AAAAA"` is the only matching candidate. -/
theorem brute_found_of_match_witness :
    ((65 : Int) ≤ ((65 : Nat) : Int) ∧ (((65 : Nat) : Int) < 66) ∧
      pipeline onlyAAAAA [65, 65, 65, 65, 65] = target ∧
      ∃ r, brute onlyAAAAA (fun _ => 0) 65 66 5 = .ok r ∧ r.ret = 10 ∧ r.ret ≠ 0) ∧
    ((∀ pre post, candidates (fun _ => 0) 65 66 5 = pre ++ [65, 65, 65, 65, 65] :: post →
        ∀ x ∈ pre, pipeline onlyAAAAA x ≠ target) ∧
      ∃ r, brute onlyAAAAA (fun _ => 0) 65 66 5 = .ok r ∧ r.ret = 10 ∧
        r.stdout = startingBlock 5 [65, 32, 32, 32, 32]
          ++ foundBlock [65, 65, 65, 65, 65] (pipeline onlyAAAAA [65, 65, 65, 65, 65]) ∧
        r.hashed.getLast? = some [65, 65, 65, 65, 65]) := by
  have hbefore : ∀ pre post,
      candidates (fun _ => 0) 65 66 5 = pre ++ [65, 65, 65, 65, 65] :: post →
        ∀ x ∈ pre, pipeline onlyAAAAA x ≠ target := by
    intro pre post hsplit x hx
    have hnd := nodup_candidates_five (fun _ => 0) 65 66 (by decide) (by decide)
    have hxc : x ∈ candidates (fun _ => 0) 65 66 5 := by
      rw [hsplit]; exact List.mem_append_left _ hx
    obtain ⟨b0, b1, b2, b3, b4, rfl, _⟩ :=
      mem_candidates_five_bounds (fun _ => 0) 65 66 (by decide) (by decide) x hxc
    refine pipeline_onlyAAAAA [b0, b1, b2, b3, b4] rfl ?_
    intro heq
    rw [hsplit] at hnd
    have := (List.nodup_append.mp hnd).2.2
    exact this hx (by rw [heq]; exact List.mem_cons_self _ _)
  exact ⟨⟨by decide, by decide, pipeline_onlyAAAAA_self,
      (brute_found_of_match onlyAAAAA (fun _ => 0)).1 65 66 65 65 65 65 65 (by decide)
        (by decide) (by decide) (by decide) (by decide) (by decide) (by decide)
        pipeline_onlyAAAAA_self⟩,
    ⟨hbefore, (brute_found_of_match onlyAAAAA (fun _ => 0)).2 pipeline_onlyAAAAA_self
      hbefore⟩⟩

/-- C7 (amended to the length `main` uses): for every range with `start < stop` and
length 5, if no candidate of the range has a pipeline digest equal to the target, `brute`
returns 0 after invoking the digest pipeline exactly `(stop - start) * 95^(5-1)` times. -/
theorem brute_exhausted_count (P : HashPrimitive) (junk : Nat → Nat) (start stop : Int)
    (h : start < stop)
    (hno : ∀ c ∈ candidates junk start stop 5, pipeline P c ≠ target) :
    ∃ r, brute P junk start stop 5 = .ok r ∧ r.ret = 0 ∧
      (r.hashed.length : Int) = (stop - start) * 95 ^ (5 - 1) := by
  obtain ⟨r, hr, hret, hh⟩ := brute_exhausted_five P junk start stop hno
  refine ⟨r, hr, hret, ?_⟩
  rw [hh]
  exact cast_length_candidates junk start stop 5 (by omega)

/-- Witness of C7: the range `[32, 33)` with a hash that never matches is exhausted
after `95^4` pipeline invocations. -/
theorem brute_exhausted_count_witness :
    (32 : Int) < 33 ∧
    (∀ c ∈ candidates (fun _ => 0) 32 33 5, pipeline zeroHash c ≠ target) ∧
    ∃ r, brute zeroHash (fun _ => 0) 32 33 5 = .ok r ∧ r.ret = 0 ∧
      (r.hashed.length : Int) = (33 - 32) * 95 ^ (5 - 1) :=
  ⟨by decide, fun c _ => pipeline_zeroHash c,
    brute_exhausted_count zeroHash (fun _ => 0) 32 33 (by decide)
      (fun c _ => pipeline_zeroHash c)⟩

/-- Counterexample to C7 as stated for every length: with length 6 the range `[32, 33)`
is exhausted after `95^4` pipeline invocations, not `95^(6-1)`; and with length 1, the
example of the claim, the stores to `str[1..4]` fall outside the array. -/
theorem six_byte_exhaustion_after_95_pow_4 :
    (∀ c, pipeline zeroHash c ≠ target) ∧
    (∃ r, brute zeroHash (fun _ => 0) 32 33 6 = .ok r ∧ r.ret = 0 ∧
      (r.hashed.length : Int) = 95 ^ 4 ∧
      (r.hashed.length : Int) ≠ (33 - 32) * 95 ^ (6 - 1)) ∧
    brute zeroHash (fun _ => 0) 32 33 1 = .error .outOfBounds := by
  refine ⟨pipeline_zeroHash, ⟨_, brute_exhausted zeroHash (fun _ => 0) 32 33 6 (by decide)
    (fun c _ => pipeline_zeroHash c), rfl, ?_, ?_⟩, rfl⟩
  · simp only [cast_length_candidates (fun _ => 0) 32 33 _ (by decide)]
    decide
  · simp only [cast_length_candidates (fun _ => 0) 32 33 _ (by decide)]
    decide

/-! ## The workers together -/

theorem mainRange_bounds (threads thread : Int) (h1 : 1 ≤ thread) (h2 : thread ≤ threads)
    (h3 : threads ≤ INT_MAX) :
    ∃ r, mainRange threads thread = .ok r ∧ 32 ≤ r.start ∧ r.start ≤ r.stop ∧ r.stop ≤ 127 ∧
      (threads ≤ 95 → r.start < r.stop) ∧ (thread = threads → r.start < r.stop) ∧
      (95 < threads → thread ≠ threads → r.start = r.stop) := by
  obtain ⟨_, hw0, _, hmul, hlt⟩ := threadSize_facts threads (by omega)
  obtain ⟨ho0, ho95⟩ := offset_bounds threads thread h1 h2
  refine ⟨_, mainRange_eq threads thread h1 h2 h3, ?_, ?_, ?_, ?_, ?_, ?_⟩
  · simp only; omega
  · simp only; split_ifs <;> omega
  · simp only; split_ifs <;> omega
  · intro h95
    have hw : 1 ≤ 95 / threads := by
      by_contra hcon
      have hz : 95 / threads = 0 := by omega
      rw [hz] at hlt
      omega
    simp only; split_ifs <;> omega
  · intro he
    simp only [he, if_true]
    subst he
    by_cases hz : 95 / thread = 0
    · rw [hz]; omega
    · omega
  · intro h95 hne
    have hz : 95 / threads = 0 := Int.ediv_eq_zero_of_lt (by norm_num) h95
    simp only [hne, if_false, hz]
    omega

theorem workerHashed_eq (P : HashPrimitive) (junk : Nat → Nat) (threads thread : Int)
    (h1 : 1 ≤ thread) (h2 : thread ≤ threads) (h3 : threads ≤ INT_MAX) :
    ∃ r k, mainRange threads thread = .ok r ∧ 32 ≤ r.start ∧ r.stop ≤ 127 ∧
      workerHashed P junk threads thread = (candidates junk r.start r.stop 5).take k ∧
      ((∀ c ∈ candidates junk r.start r.stop 5, pipeline P c ≠ target) →
        workerHashed P junk threads thread = candidates junk r.start r.stop 5) := by
  obtain ⟨r, hr, hs, _, he, _⟩ := mainRange_bounds threads thread h1 h2 h3
  obtain ⟨b, k, hb, hk⟩ := brute_five_hashed_take P junk r.start r.stop
  refine ⟨r, k, hr, hs, he, ?_, ?_⟩
  · simp only [workerHashed, hr, hb, hk]
  · intro hno
    obtain ⟨b1, hb1, _, hh⟩ := brute_exhausted_five P junk r.start r.stop hno
    simp only [workerHashed, hr, hb1, hh]

theorem assigned_of_mem_workerHashed (P : HashPrimitive) (junk : Nat → Nat)
    (threads thread : Int) (h1 : 1 ≤ thread) (h2 : thread ≤ threads) (h3 : threads ≤ INT_MAX)
    (b0 b1 b2 b3 b4 : Nat)
    (h : [b0, b1, b2, b3, b4] ∈ workerHashed P junk threads thread) :
    assigned threads thread (b0 : Int) = true := by
  obtain ⟨r, k, hr, hs, he, hk, _⟩ := workerHashed_eq P junk threads thread h1 h2 h3
  rw [hk] at h
  have hm := (mem_candidates_five junk r.start r.stop (by omega) (by omega) _ _ _ _ _).mp
    (List.mem_of_mem_take h)
  simp only [assigned, hr, decide_eq_true_eq]
  exact hm.1

theorem nodup_workerHashed (P : HashPrimitive) (junk : Nat → Nat)
    (threads thread : Int) (h1 : 1 ≤ thread) (h2 : thread ≤ threads) (h3 : threads ≤ INT_MAX) :
    (workerHashed P junk threads thread).Nodup := by
  obtain ⟨r, k, _, hs, he, hk, _⟩ := workerHashed_eq P junk threads thread h1 h2 h3
  rw [hk]
  exact (nodup_candidates_five junk r.start r.stop (by omega) (by omega)).sublist
    (List.take_sublist _ _)

theorem before_subset_of_hashed {α : Type} (A B pre post : List α) (a x : α)
    (hnd : (A ++ a :: B).Nodup) (h : A ++ a :: B = pre ++ x :: post)
    (hx : x ∈ A ++ [a]) : ∀ y ∈ pre, y ∈ A := by
  rcases List.append_eq_append_iff.mp h with ⟨s, hs1, hs2⟩ | ⟨s, hs1, hs2⟩
  · cases s with
    | nil =>
      intro y hy
      rw [hs1, List.append_nil] at hy
      exact hy
    | cons s0 s' =>
      exfalso
      simp only [List.cons_append, List.cons.injEq] at hs2
      have hxB : x ∈ B := by rw [hs2.2]; simp
      rw [List.nodup_append] at hnd
      obtain ⟨_, hndB, hdisj⟩ := hnd
      rw [List.mem_append, List.mem_singleton] at hx
      rcases hx with hxA | hxa
      · exact hdisj hxA (List.mem_cons_of_mem _ hxB)
      · rw [hxa] at hxB
        exact (List.nodup_cons.mp hndB).1 hxB
  · intro y hy
    rw [hs1]
    exact List.mem_append_left _ hy

theorem match_before_of_not_hashed {α : Type} (A B pre post : List α) (a x : α)
    (h : A ++ a :: B = pre ++ x :: post) (hx : x ∉ A ++ [a]) : a ∈ pre := by
  rcases List.append_eq_append_iff.mp h with ⟨s, hs1, hs2⟩ | ⟨s, hs1, hs2⟩
  · cases s with
    | nil =>
      exfalso
      simp only [List.nil_append, List.cons.injEq] at hs2
      exact hx (by rw [hs2.1]; simp)
    | cons s0 s' =>
      simp only [List.cons_append, List.cons.injEq] at hs2
      rw [hs1, ← hs2.1]
      simp
  · exfalso
    cases s with
    | nil =>
      simp only [List.nil_append, List.cons.injEq] at hs2
      exact hx (by rw [hs2.1]; simp)
    | cons s0 s' =>
      simp only [List.cons_append, List.cons.injEq] at hs2
      exact hx (by rw [hs1, hs2.1]; simp)

theorem workerHashed_cases (P : HashPrimitive) (junk : Nat → Nat) (threads thread : Int)
    (h1 : 1 ≤ thread) (h2 : thread ≤ threads) (h3 : threads ≤ INT_MAX) :
    ∃ r, mainRange threads thread = .ok r ∧ 32 ≤ r.start ∧ r.stop ≤ 127 ∧
      (((∀ c ∈ candidates junk r.start r.stop 5, pipeline P c ≠ target) ∧
        workerHashed P junk threads thread = candidates junk r.start r.stop 5) ∨
      (∃ A a B, candidates junk r.start r.stop 5 = A ++ a :: B ∧
        (∀ y ∈ A, pipeline P y ≠ target) ∧ pipeline P a = target ∧
        workerHashed P junk threads thread = A ++ [a])) := by
  obtain ⟨r, hr, hs, _, he, _⟩ := mainRange_bounds threads thread h1 h2 h3
  refine ⟨r, hr, hs, he, ?_⟩
  rcases brute_five_cases P junk r.start r.stop with
    ⟨hno, hb⟩ | ⟨pre, t, post, hsplit, hpre, hit, hb⟩
  · left
    refine ⟨hno, ?_⟩
    simp only [workerHashed, hr, hb]
  · right
    refine ⟨pre.map fiveBytes, fiveBytes t, post.map fiveBytes, ?_, ?_, hit, ?_⟩
    · rw [candidates_five, hsplit, List.map_append, List.map_cons]
    · intro y hy
      rw [List.mem_map] at hy
      obtain ⟨u, hu, rfl⟩ := hy
      exact hpre u hu
    · simp only [workerHashed, hr, hb, List.map_append, List.map_cons, List.map_nil]

theorem mem_workerHashed_iff (P : HashPrimitive) (junk : Nat → Nat) (threads thread : Int)
    (h1 : 1 ≤ thread) (h2 : thread ≤ threads) (h3 : threads ≤ INT_MAX) (r : Range)
    (hr : mainRange threads thread = .ok r) (pre post : List (List Nat)) (x : List Nat)
    (hsplit : candidates junk r.start r.stop 5 = pre ++ x :: post) :
    x ∈ workerHashed P junk threads thread ↔ ∀ y ∈ pre, pipeline P y ≠ target := by
  obtain ⟨r1, hr1, hs, he, hcases⟩ := workerHashed_cases P junk threads thread h1 h2 h3
  rw [hr] at hr1
  have hrr := Except.ok.inj hr1
  subst hrr
  have hnd := nodup_candidates_five junk r.start r.stop (by omega) (by omega)
  rcases hcases with ⟨hno, hw⟩ | ⟨A, a, B, hAB, hA, ha, hw⟩
  · rw [hw]
    constructor
    · intro _ y hy
      exact hno y (by rw [hsplit]; exact List.mem_append_left _ hy)
    · intro _
      rw [hsplit]
      simp
  · rw [hw]
    rw [hAB] at hnd
    have heq : A ++ a :: B = pre ++ x :: post := hAB.symm.trans hsplit
    constructor
    · intro hx y hy
      exact hA y (before_subset_of_hashed A B pre post a x hnd heq hx y hy)
    · intro hpre
      by_contra hx
      exact hpre a (match_before_of_not_hashed A B pre post a x heq hx) ha

theorem mem_candidates_of_mem_workerHashed (P : HashPrimitive) (junk : Nat → Nat)
    (threads thread : Int) (h1 : 1 ≤ thread) (h2 : thread ≤ threads) (h3 : threads ≤ INT_MAX)
    (x : List Nat) (hx : x ∈ workerHashed P junk threads thread) :
    ∃ r, mainRange threads thread = .ok r ∧ x ∈ candidates junk r.start r.stop 5 := by
  obtain ⟨r, k, hr, _, _, hk, _⟩ := workerHashed_eq P junk threads thread h1 h2 h3
  rw [hk] at hx
  exact ⟨r, hr, List.mem_of_mem_take hx⟩

theorem range_of_candidate_unique (junk : Int → Nat → Nat) (threads : Int) (h1 : 1 ≤ threads)
    (h2 : threads ≤ INT_MAX) (b0 b1 b2 b3 b4 : Nat)
    (hb0 : 32 ≤ b0 ∧ b0 ≤ 126) (hb1 : 32 ≤ b1 ∧ b1 ≤ 126) (hb2 : 32 ≤ b2 ∧ b2 ≤ 126)
    (hb3 : 32 ≤ b3 ∧ b3 ≤ 126) (hb4 : 32 ≤ b4 ∧ b4 ≤ 126) :
    ∃! i, 1 ≤ i ∧ i ≤ threads ∧ ∃ r, mainRange threads i = .ok r ∧
      [b0, b1, b2, b3, b4] ∈ candidates (junk i) r.start r.stop 5 := by
  obtain ⟨w, ⟨hw1, hw2, hw⟩, huniq⟩ :=
    assigned_exists_unique threads (b0 : Int) h1 h2 (by omega) (by omega)
  refine ⟨w, ⟨hw1, hw2, ?_⟩, ?_⟩
  · obtain ⟨r, hr, hs, _, he, _⟩ := mainRange_bounds threads w hw1 hw2 h2
    refine ⟨r, hr, ?_⟩
    rw [mem_candidates_five (junk w) r.start r.stop (by omega) (by omega)]
    simp only [assigned, hr, decide_eq_true_eq] at hw
    exact ⟨hw, hb1, hb2, hb3, hb4⟩
  · rintro i ⟨hi1, hi2, r, hr, hm⟩
    obtain ⟨r1, hr1, hs, _, he, _⟩ := mainRange_bounds threads i hi1 hi2 h2
    rw [hr] at hr1
    have hrr := Except.ok.inj hr1
    subst hrr
    have hm1 := (mem_candidates_five (junk i) r.start r.stop (by omega) (by omega)
      _ _ _ _ _).mp hm
    refine huniq i ⟨hi1, hi2, ?_⟩
    simp only [assigned, hr, decide_eq_true_eq]
    exact hm1.1

/-- C2 (amended): for every `threads ≥ 1` and every 5-byte string `c` with all bytes in
`[32, 126]`: no worker hashes a candidate twice; `c` is a candidate of the range of
exactly one worker `1..threads`; a worker hashes only candidates of its own range, so no
two workers both hash `c`; a worker hashes a candidate of its range exactly when no
candidate before it in the worker's order has a pipeline digest equal to the target, so
that a worker hashes none of the candidates after a match; hence exactly one worker
hashes `c` whenever no candidate before `c` in its worker's range matches the target, and
in particular whenever no 5-byte string over `[32, 126]` matches it. -/
theorem workers_hash_each_candidate_once (P : HashPrimitive) (junk : Int → Nat → Nat)
    (threads : Int) (h1 : 1 ≤ threads) (h2 : threads ≤ INT_MAX) (b0 b1 b2 b3 b4 : Nat)
    (hb0 : 32 ≤ b0 ∧ b0 ≤ 126) (hb1 : 32 ≤ b1 ∧ b1 ≤ 126) (hb2 : 32 ≤ b2 ∧ b2 ≤ 126)
    (hb3 : 32 ≤ b3 ∧ b3 ≤ 126) (hb4 : 32 ≤ b4 ∧ b4 ≤ 126) :
    (∀ i, 1 ≤ i → i ≤ threads → (workerHashed P (junk i) threads i).Nodup) ∧
    (∃! i, 1 ≤ i ∧ i ≤ threads ∧ ∃ r, mainRange threads i = .ok r ∧
      [b0, b1, b2, b3, b4] ∈ candidates (junk i) r.start r.stop 5) ∧
    (∀ i, 1 ≤ i → i ≤ threads → ∀ x ∈ workerHashed P (junk i) threads i,
      ∃ r, mainRange threads i = .ok r ∧ x ∈ candidates (junk i) r.start r.stop 5) ∧
    (∀ i j, 1 ≤ i → i ≤ threads → 1 ≤ j → j ≤ threads →
      [b0, b1, b2, b3, b4] ∈ workerHashed P (junk i) threads i →
      [b0, b1, b2, b3, b4] ∈ workerHashed P (junk j) threads j → i = j) ∧
    (∀ i r pre x post, 1 ≤ i → i ≤ threads → mainRange threads i = .ok r →
      candidates (junk i) r.start r.stop 5 = pre ++ x :: post →
      (x ∈ workerHashed P (junk i) threads i ↔ ∀ y ∈ pre, pipeline P y ≠ target)) ∧
    (∀ i r pre m post, 1 ≤ i → i ≤ threads → mainRange threads i = .ok r →
      candidates (junk i) r.start r.stop 5 = pre ++ m :: post → pipeline P m = target →
      ∀ x ∈ post, x ∉ workerHashed P (junk i) threads i) ∧
    (∀ i r pre post, 1 ≤ i → i ≤ threads → mainRange threads i = .ok r →
      candidates (junk i) r.start r.stop 5 = pre ++ [b0, b1, b2, b3, b4] :: post →
      (∀ y ∈ pre, pipeline P y ≠ target) →
      ∃! k, 1 ≤ k ∧ k ≤ threads ∧
        [b0, b1, b2, b3, b4] ∈ workerHashed P (junk k) threads k) ∧
    ((∀ c : List Nat, c.length = 5 → (∀ b ∈ c, 32 ≤ b ∧ b ≤ 126) → pipeline P c ≠ target) →
      ∃! i, 1 ≤ i ∧ i ≤ threads ∧
        [b0, b1, b2, b3, b4] ∈ workerHashed P (junk i) threads i) := by
  have hrange := range_of_candidate_unique junk threads h1 h2 b0 b1 b2 b3 b4 hb0 hb1 hb2
    hb3 hb4
  have hsub : ∀ i, 1 ≤ i → i ≤ threads → ∀ x ∈ workerHashed P (junk i) threads i,
      ∃ r, mainRange threads i = .ok r ∧ x ∈ candidates (junk i) r.start r.stop 5 :=
    fun i hi1 hi2 x hx =>
      mem_candidates_of_mem_workerHashed P (junk i) threads i hi1 hi2 h2 x hx
  have hsame : ∀ i j, 1 ≤ i → i ≤ threads → 1 ≤ j → j ≤ threads →
      [b0, b1, b2, b3, b4] ∈ workerHashed P (junk i) threads i →
      [b0, b1, b2, b3, b4] ∈ workerHashed P (junk j) threads j → i = j := by
    intro i j hi1 hi2 hj1 hj2 hmi hmj
    exact hrange.unique ⟨hi1, hi2, hsub i hi1 hi2 _ hmi⟩ ⟨hj1, hj2, hsub j hj1 hj2 _ hmj⟩
  have hiff : ∀ i r pre x post, 1 ≤ i → i ≤ threads → mainRange threads i = .ok r →
      candidates (junk i) r.start r.stop 5 = pre ++ x :: post →
      (x ∈ workerHashed P (junk i) threads i ↔ ∀ y ∈ pre, pipeline P y ≠ target) :=
    fun i r pre x post hi1 hi2 hr hsplit =>
      mem_workerHashed_iff P (junk i) threads i hi1 hi2 h2 r hr pre post x hsplit
  have hone : ∀ i r pre post, 1 ≤ i → i ≤ threads → mainRange threads i = .ok r →
      candidates (junk i) r.start r.stop 5 = pre ++ [b0, b1, b2, b3, b4] :: post →
      (∀ y ∈ pre, pipeline P y ≠ target) →
      ∃! k, 1 ≤ k ∧ k ≤ threads ∧
        [b0, b1, b2, b3, b4] ∈ workerHashed P (junk k) threads k := by
    intro i r pre post hi1 hi2 hr hsplit hpre
    have hm := (hiff i r pre _ post hi1 hi2 hr hsplit).mpr hpre
    refine ⟨i, ⟨hi1, hi2, hm⟩, ?_⟩
    rintro k ⟨hk1, hk2, hmk⟩
    exact hsame k i hk1 hk2 hi1 hi2 hmk hm
  refine ⟨fun i hi1 hi2 => nodup_workerHashed P (junk i) threads i hi1 hi2 h2, hrange, hsub,
    hsame, hiff, ?_, hone, ?_⟩
  · intro i r pre m post hi1 hi2 hr hsplit hm x hx hxw
    obtain ⟨s, t, hst⟩ := List.append_of_mem hx
    have hsplit2 : candidates (junk i) r.start r.stop 5 = (pre ++ m :: s) ++ x :: t := by
      rw [hsplit, hst]
      simp
    have := (hiff i r (pre ++ m :: s) x t hi1 hi2 hr hsplit2).mp hxw m (by simp)
    exact this hm
  · intro hno
    obtain ⟨w, ⟨hw1, hw2, r, hr, hmem⟩, _⟩ := hrange
    obtain ⟨pre, post, hsplit⟩ := List.append_of_mem hmem
    refine hone w r pre post hw1 hw2 hr hsplit ?_
    intro y hy
    obtain ⟨r1, hr1, hs, _, he, _⟩ := mainRange_bounds threads w hw1 hw2 h2
    rw [hr] at hr1
    have hrr := Except.ok.inj hr1
    subst hrr
    have hyc : y ∈ candidates (junk w) r.start r.stop 5 := by
      rw [hsplit]
      exact List.mem_append_left _ hy
    obtain ⟨c0, c1, c2, c3, c4, rfl, hc0, hc1, hc2, hc3, hc4⟩ :=
      mem_candidates_five_bounds (junk w) r.start r.stop (by omega) (by omega) y hyc
    refine hno _ rfl ?_
    intro b hb
    simp only [List.mem_cons, List.mem_singleton, List.not_mem_nil, or_false] at hb
    omega

/-- Witness of C2: three workers and the candidate `"AAAAA"`. Under a hash that never
matches, exactly one worker hashes it; under a hash for which `"AAAAA"` is the only
match, so that its worker stops there, exactly one worker hashes it as well. -/
theorem workers_hash_each_candidate_once_witness :
    ((1 : Int) ≤ 3 ∧ (3 : Int) ≤ INT_MAX ∧ (32 ≤ 65 ∧ 65 ≤ 126)) ∧
    ((∀ c : List Nat, c.length = 5 → (∀ b ∈ c, 32 ≤ b ∧ b ≤ 126) →
        pipeline zeroHash c ≠ target) ∧
      ∃! i, 1 ≤ i ∧ i ≤ 3 ∧
        [65, 65, 65, 65, 65] ∈ workerHashed zeroHash (fun _ => 0) 3 i) ∧
    (pipeline onlyAAAAA [65, 65, 65, 65, 65] = target ∧
      ∃! i, 1 ≤ i ∧ i ≤ 3 ∧
        [65, 65, 65, 65, 65] ∈ workerHashed onlyAAAAA (fun _ => 0) 3 i) := by
  refine ⟨⟨by decide, by decide, by decide⟩, ⟨fun c _ _ => pipeline_zeroHash c, ?_⟩,
    pipeline_onlyAAAAA_self, ?_⟩
  · exact (workers_hash_each_candidate_once zeroHash (fun _ _ => 0) 3 (by decide) (by decide)
      65 65 65 65 65 (by decide) (by decide) (by decide) (by decide) (by decide)).2.2.2.2.2.2.2
      (fun c _ _ => pipeline_zeroHash c)
  · have hw := workers_hash_each_candidate_once onlyAAAAA (fun _ _ => 0) 3 (by decide)
      (by decide) 65 65 65 65 65 (by decide) (by decide) (by decide) (by decide) (by decide)
    obtain ⟨w, ⟨hw1, hw2, r, hr, hmem⟩, _⟩ := hw.2.1
    obtain ⟨pre, post, hsplit⟩ := List.append_of_mem hmem
    obtain ⟨r1, hr1, hs, _, he, _⟩ := mainRange_bounds 3 w hw1 hw2 (by decide)
    rw [hr] at hr1
    have hrr := Except.ok.inj hr1
    subst hrr
    have hnd := nodup_candidates_five (fun _ => 0) r.start r.stop (by omega) (by omega)
    refine hw.2.2.2.2.2.2.1 w r pre post hw1 hw2 hr hsplit ?_
    intro y hy
    have hyc : y ∈ candidates (fun _ => 0) r.start r.stop 5 := by
      rw [hsplit]
      exact List.mem_append_left _ hy
    obtain ⟨c0, c1, c2, c3, c4, hyeq, _⟩ :=
      mem_candidates_five_bounds (fun _ => 0) r.start r.stop (by omega) (by omega) y hyc
    refine pipeline_onlyAAAAA y (by rw [hyeq]; rfl) ?_
    intro hyA
    rw [hsplit, List.nodup_append] at hnd
    exact hnd.2.2 hy (by rw [hyA]; exact List.mem_cons_self _ _)

/-- Counterexample to C2 as stated: with one worker and a hash under which the first
candidate matches, `brute` returns at once, and the candidate `(32, 32, 32, 32, 33)` is
hashed by no worker. -/
theorem workers_skip_candidates_after_match :
    workerHashed targetHash (fun _ => 0) 1 1 = [[32, 32, 32, 32, 32]] ∧
    ¬ ∃ i : Int, 1 ≤ i ∧ i ≤ 1 ∧
      [32, 32, 32, 32, 33] ∈ workerHashed targetHash (fun _ => 0) 1 i := by
  have hr : mainRange 1 1 = .ok { threadSize := 95, start := 32, stop := 127 } := by
    rw [mainRange_eq 1 1 (by decide) (by decide) (by decide)]
    rfl
  obtain ⟨post, hpost⟩ := bruteLoops_head 32 127 (by decide)
  have hb := brute_found_five targetHash (fun _ => 0) 32 127 [] (32, 32, 32, 32, 32) post
    hpost (by simp) (pipeline_targetHash _)
  have hw : workerHashed targetHash (fun _ => 0) 1 1 = [[32, 32, 32, 32, 32]] := by
    simp only [workerHashed, hr, hb]
    rfl
  refine ⟨hw, ?_⟩
  rintro ⟨i, hi1, hi2, hm⟩
  have hi : i = 1 := by omega
  subst hi
  rw [hw] at hm
  simp at hm

/-! ## The range handed to brute -/

/-- C10 (amended): for every `threads ≥ 1` and `thread` in `[1, threads]` the range
`main` computes satisfies `32 ≤ start ≤ stop ≤ 127`; it is non-empty (`start < stop`)
whenever `threads ≤ 95`, and for the last worker whatever `threads` is. -/
theorem main_range_within_alphabet (threads thread : Int) (h1 : 1 ≤ thread)
    (h2 : thread ≤ threads) (h3 : threads ≤ INT_MAX) :
    ∃ r, mainRange threads thread = .ok r ∧ 32 ≤ r.start ∧ r.start ≤ r.stop ∧ r.stop ≤ 127 ∧
      (threads ≤ 95 → r.start < r.stop) ∧ (thread = threads → r.start < r.stop) := by
  obtain ⟨r, hr, a, b, c, d, e, _⟩ := mainRange_bounds threads thread h1 h2 h3
  exact ⟨r, hr, a, b, c, d, e⟩

/-- Witness of C10 at `threads = 3`, `thread = 2`. -/
theorem main_range_within_alphabet_witness :
    (1 : Int) ≤ 2 ∧ (2 : Int) ≤ 3 ∧ (3 : Int) ≤ INT_MAX ∧
    ∃ r, mainRange 3 2 = .ok r ∧ 32 ≤ r.start ∧ r.start ≤ r.stop ∧ r.stop ≤ 127 ∧
      ((3 : Int) ≤ 95 → r.start < r.stop) ∧ ((2 : Int) = 3 → r.start < r.stop) :=
  ⟨by decide, by decide, by decide,
    main_range_within_alphabet 3 2 (by decide) (by decide) (by decide)⟩

/-- Counterexample to C10 as stated: with 96 workers, worker 1 is assigned the empty
range `[32, 32)`. -/
theorem main_range_empty_for_96_workers :
    (1 : Int) ≤ 96 ∧ (1 : Int) ≤ 1 ∧ (1 : Int) ≤ 96 ∧
    mainRange 96 1 = .ok { threadSize := 0, start := 32, stop := 32 } ∧
    ¬ ((32 : Int) < 32) := by
  refine ⟨by decide, by decide, by decide, ?_, by decide⟩
  rw [mainRange_eq 96 1 (by decide) (by decide) (by decide)]
  rfl

/-! ## Rounding to double -/

theorem roundHalfEven_le (x : ℚ) (M : Int) (h : x ≤ M) : roundHalfEven x ≤ M := by
  have hfl : (⌊x⌋ : ℚ) ≤ x := Int.floor_le x
  have hf : ⌊x⌋ ≤ M := by exact_mod_cast hfl.trans h
  have hstep : 0 < x - ⌊x⌋ → ⌊x⌋ + 1 ≤ M := by
    intro hpos
    have : (⌊x⌋ : ℚ) < M := by linarith
    have : ⌊x⌋ < M := by exact_mod_cast this
    omega
  simp only [roundHalfEven]
  split_ifs with h1 h2 h3
  · exact hf
  · exact hstep (by linarith)
  · exact hf
  · exact hstep (by linarith)

theorem le_roundHalfEven (x : ℚ) (M : Int) (h : (M : ℚ) ≤ x) : M ≤ roundHalfEven x := by
  have hf : M ≤ ⌊x⌋ := Int.le_floor.mpr h
  simp only [roundHalfEven]
  split_ifs <;> omega

theorem ulpExp_bounds (a : ℚ) (ha : 0 < a) :
    (2 : ℚ) ^ Int.log 2 a ≤ a ∧ a < (2 : ℚ) ^ (Int.log 2 a + 1) := by
  have h1 := Int.zpow_log_le_self (R := ℚ) (b := 2) (by norm_num) ha
  have h2 := Int.lt_zpow_succ_log_self (R := ℚ) (b := 2) (by norm_num) a
  simp only [Nat.cast_ofNat] at h1 h2
  exact ⟨h1, h2⟩

theorem two_zpow_split (j k : Int) (h : k ≤ j) :
    (2 : ℚ) ^ j = (((2 : Int) ^ (j - k).toNat : Int) : ℚ) * (2 : ℚ) ^ k := by
  have e : j = ((j - k).toNat : Int) + k := by omega
  conv_lhs => rw [e]
  rw [zpow_add₀ (by norm_num), zpow_natCast]
  push_cast
  rfl

theorem roundMagnitude_le (a : ℚ) (ha : 0 < a) (n j : Int) (hn : n < 2 ^ 53)
    (hj : -1074 ≤ j) (h : a ≤ (n : ℚ) * (2 : ℚ) ^ j) :
    roundMagnitude a ≤ (n : ℚ) * (2 : ℚ) ^ j := by
  obtain ⟨hlo, _⟩ := ulpExp_bounds a ha
  have hkpos : (0 : ℚ) < (2 : ℚ) ^ ulpExp a := zpow_pos (by norm_num) _
  have hk : ulpExp a ≤ j := by
    by_contra hcon
    have hjpos : (0 : ℚ) < (2 : ℚ) ^ j := zpow_pos (by norm_num) _
    have h53 : (n : ℚ) < (2 : ℚ) ^ (53 : Int) := by
      have : ((2 : ℚ) ^ (53 : Int)) = (((2 : Int) ^ 53 : Int) : ℚ) := by norm_num
      rw [this]
      exact_mod_cast hn
    have hlt : (2 : ℚ) ^ Int.log 2 a < (2 : ℚ) ^ (53 + j) := by
      rw [zpow_add₀ (by norm_num)]
      calc (2 : ℚ) ^ Int.log 2 a ≤ a := hlo
        _ ≤ (n : ℚ) * (2 : ℚ) ^ j := h
        _ < (2 : ℚ) ^ (53 : Int) * (2 : ℚ) ^ j := by
            exact mul_lt_mul_of_pos_right h53 hjpos
    have he := (zpow_lt_zpow_iff_right₀ (by norm_num : (1 : ℚ) < 2)).mp hlt
    unfold ulpExp at hcon
    omega
  unfold roundMagnitude
  rw [two_zpow_split j (ulpExp a) hk, ← mul_assoc]
  apply mul_le_mul_of_nonneg_right _ hkpos.le
  have hM : a / (2 : ℚ) ^ ulpExp a ≤ ((n * (2 : Int) ^ (j - ulpExp a).toNat : Int) : ℚ) := by
    rw [div_le_iff₀ hkpos]
    push_cast
    rw [mul_assoc, ← Int.cast_two (R := ℚ)]
    have := two_zpow_split j (ulpExp a) hk
    push_cast at this ⊢
    rw [← this]
    exact h
  have := roundHalfEven_le _ _ hM
  exact_mod_cast this

theorem le_roundMagnitude (a : ℚ) (ha : 0 < a) (n j : Int) (hn : n < 2 ^ 53)
    (hj : -1074 ≤ j) (h : (n : ℚ) * (2 : ℚ) ^ j ≤ a) :
    (n : ℚ) * (2 : ℚ) ^ j ≤ roundMagnitude a := by
  obtain ⟨hlo, _⟩ := ulpExp_bounds a ha
  have hkpos : (0 : ℚ) < (2 : ℚ) ^ ulpExp a := zpow_pos (by norm_num) _
  by_cases hk : ulpExp a ≤ j
  · unfold roundMagnitude
    rw [two_zpow_split j (ulpExp a) hk, ← mul_assoc]
    apply mul_le_mul_of_nonneg_right _ hkpos.le
    have hM : ((n * (2 : Int) ^ (j - ulpExp a).toNat : Int) : ℚ) ≤ a / (2 : ℚ) ^ ulpExp a := by
      rw [le_div_iff₀ hkpos]
      push_cast
      rw [mul_assoc]
      have := two_zpow_split j (ulpExp a) hk
      push_cast at this ⊢
      rw [← this]
      exact h
    have := le_roundHalfEven _ _ hM
    exact_mod_cast this
  · -- the value is below the binade of `a`
    have hjpos : (0 : ℚ) < (2 : ℚ) ^ j := zpow_pos (by norm_num) _
    have he : ulpExp a = Int.log 2 a - 52 := by
      unfold ulpExp at hk ⊢
      omega
    have h52 : (((2 : Int) ^ 52 : Int) : ℚ) ≤ a / (2 : ℚ) ^ ulpExp a := by
      rw [le_div_iff₀ hkpos, he]
      have : (((2 : Int) ^ 52 : Int) : ℚ) = (2 : ℚ) ^ (52 : Int) := by norm_num
      rw [this, ← zpow_add₀ (by norm_num)]
      have : (52 : Int) + (Int.log 2 a - 52) = Int.log 2 a := by ring
      rw [this]
      exact hlo
    have hm := le_roundHalfEven _ _ h52
    have hm' : (((2 : Int) ^ 52 : Int) : ℚ) ≤ (roundHalfEven (a / (2 : ℚ) ^ ulpExp a) : ℚ) := by
      exact_mod_cast hm
    have hraw : (2 : ℚ) ^ Int.log 2 a ≤ roundMagnitude a := by
      unfold roundMagnitude
      have e : (2 : ℚ) ^ Int.log 2 a = (((2 : Int) ^ 52 : Int) : ℚ) * (2 : ℚ) ^ ulpExp a := by
        have : (((2 : Int) ^ 52 : Int) : ℚ) = (2 : ℚ) ^ (52 : Int) := by norm_num
        rw [this, he, ← zpow_add₀ (by norm_num)]
        congr 1
        ring
      rw [e]
      exact mul_le_mul_of_nonneg_right hm' hkpos.le
    refine le_trans ?_ hraw
    have h53 : (n : ℚ) ≤ (2 : ℚ) ^ (53 : Int) := by
      have : ((2 : ℚ) ^ (53 : Int)) = (((2 : Int) ^ 53 : Int) : ℚ) := by norm_num
      rw [this]
      exact_mod_cast hn.le
    calc (n : ℚ) * (2 : ℚ) ^ j ≤ (2 : ℚ) ^ (53 : Int) * (2 : ℚ) ^ j :=
          mul_le_mul_of_nonneg_right h53 hjpos.le
      _ = (2 : ℚ) ^ (53 + j) := (zpow_add₀ (by norm_num) _ _).symm
      _ ≤ (2 : ℚ) ^ Int.log 2 a := by
          apply zpow_le_zpow_right₀ (by norm_num)
          omega

theorem roundMagnitude_nonneg (a : ℚ) (ha : 0 < a) : 0 ≤ roundMagnitude a := by
  have hkpos : (0 : ℚ) < (2 : ℚ) ^ ulpExp a := zpow_pos (by norm_num) _
  have h0 : ((0 : Int) : ℚ) ≤ a / (2 : ℚ) ^ ulpExp a := by
    rw [Int.cast_zero]
    positivity
  have hm := le_roundHalfEven _ _ h0
  have hm' : (0 : ℚ) ≤ (roundHalfEven (a / (2 : ℚ) ^ ulpExp a) : ℚ) := by exact_mod_cast hm
  unfold roundMagnitude
  positivity

theorem roundDouble_between (x : ℚ) (hx : 0 < x) (nl jl nh jh : Int) (hnl : nl < 2 ^ 53)
    (hjl : -1074 ≤ jl) (hnh : nh < 2 ^ 53) (hjh : -1074 ≤ jh)
    (hlo : (nl : ℚ) * (2 : ℚ) ^ jl ≤ x) (hhi : x ≤ (nh : ℚ) * (2 : ℚ) ^ jh)
    (hfin : (nh : ℚ) * (2 : ℚ) ^ jh < (2 : ℚ) ^ (1024 : Int)) :
    ∃ y, roundDouble x = .fin y ∧ (nl : ℚ) * (2 : ℚ) ^ jl ≤ y ∧ y ≤ (nh : ℚ) * (2 : ℚ) ^ jh := by
  have h1 := le_roundMagnitude x hx nl jl hnl hjl hlo
  have h2 := roundMagnitude_le x hx nh jh hnh hjh hhi
  refine ⟨roundMagnitude x, ?_, h1, h2⟩
  unfold roundDouble
  rw [if_neg hx.ne', abs_of_pos hx, if_neg (not_le.mpr (lt_of_le_of_lt h2 hfin)),
    if_neg (not_lt.mpr hx.le)]

theorem roundMagnitude_natural (n : Int) (h1 : 0 < n) (h2 : n < 2 ^ 53) :
    roundMagnitude (n : ℚ) = (n : ℚ) := by
  have hx : (0 : ℚ) < (n : ℚ) := by exact_mod_cast h1
  have e : (n : ℚ) = (n : ℚ) * (2 : ℚ) ^ (0 : Int) := by simp
  have a := le_roundMagnitude (n : ℚ) hx n 0 h2 (by norm_num) (by rw [← e])
  have b := roundMagnitude_le (n : ℚ) hx n 0 h2 (by norm_num) (by rw [← e])
  rw [← e] at a b
  exact le_antisymm b a

theorem two_pow_53_lt : (((2 : Int) ^ 53 : Int) : ℚ) < (2 : ℚ) ^ (1024 : Int) := by
  have h : ((2 : ℚ) ^ (1024 : Int)) = (2 : ℚ) ^ (53 : Int) * (2 : ℚ) ^ (971 : Int) := by
    rw [← zpow_add₀ (by norm_num)]; norm_num
  have h53 : (((2 : Int) ^ 53 : Int) : ℚ) = (2 : ℚ) ^ (53 : Int) := by norm_num
  rw [h, h53]
  have h971 : (1 : ℚ) < (2 : ℚ) ^ (971 : Int) := by
    have := zpow_lt_zpow_right₀ (by norm_num : (1 : ℚ) < 2) (by norm_num : (0 : Int) < 971)
    simpa using this
  have hpos : (0 : ℚ) < (2 : ℚ) ^ (53 : Int) := zpow_pos (by norm_num) _
  nlinarith

theorem roundDouble_intCast (n : Int) (h1 : -2 ^ 53 < n) (h2 : n < 2 ^ 53) :
    roundDouble (n : ℚ) = .fin (n : ℚ) := by
  rcases lt_trichotomy n 0 with hn | hn | hn
  · have hneg : (n : ℚ) < 0 := by exact_mod_cast hn
    have habs : |(n : ℚ)| = ((-n : Int) : ℚ) := by
      rw [abs_of_neg hneg]; push_cast; rfl
    have hm := roundMagnitude_natural (-n) (by omega) (by omega)
    have hlt : ((-n : Int) : ℚ) < (2 : ℚ) ^ (1024 : Int) := by
      refine lt_trans ?_ two_pow_53_lt
      exact_mod_cast (by omega : -n < 2 ^ 53)
    unfold roundDouble
    rw [if_neg hneg.ne, habs, hm, if_neg (not_le.mpr hlt), if_pos hneg]
    push_cast
    rw [neg_neg]
  · subst hn
    simp [roundDouble]
  · have hpos : (0 : ℚ) < (n : ℚ) := by exact_mod_cast hn
    have hm := roundMagnitude_natural n hn h2
    have hlt : (n : ℚ) < (2 : ℚ) ^ (1024 : Int) := by
      refine lt_trans ?_ two_pow_53_lt
      exact_mod_cast h2
    unfold roundDouble
    rw [if_neg hpos.ne', abs_of_pos hpos, hm, if_neg (not_le.mpr hlt),
      if_neg (not_lt.mpr hpos.le)]

theorem roundDouble_fin_of_abs_le (x : ℚ) (j : Int) (hj1 : -1074 ≤ j) (hj2 : j < 1024)
    (h : |x| ≤ (2 : ℚ) ^ j) : ∃ y, roundDouble x = .fin y ∧ |y| ≤ (2 : ℚ) ^ j := by
  by_cases hx : x = 0
  · subst hx
    refine ⟨0, by simp [roundDouble], ?_⟩
    rw [abs_zero]
    exact (zpow_pos (by norm_num) _).le
  · have hpos : 0 < |x| := abs_pos.mpr hx
    have h' : |x| ≤ ((1 : Int) : ℚ) * (2 : ℚ) ^ j := by simpa using h
    have hle := roundMagnitude_le |x| hpos 1 j (by norm_num) hj1 h'
    have hle1 : roundMagnitude |x| ≤ (2 : ℚ) ^ j := by simpa using hle
    have h0 := roundMagnitude_nonneg |x| hpos
    have hlt : roundMagnitude |x| < (2 : ℚ) ^ (1024 : Int) :=
      lt_of_le_of_lt hle1 (zpow_lt_zpow_right₀ (by norm_num) hj2)
    unfold roundDouble
    rw [if_neg hx, if_neg (not_le.mpr hlt)]
    refine ⟨_, rfl, ?_⟩
    split_ifs
    · rw [abs_neg, abs_of_nonneg h0]; exact hle1
    · rw [abs_of_nonneg h0]; exact hle1

theorem tdiv_num_den_floor (q : ℚ) (h : 0 ≤ q) : Int.tdiv q.num (q.den : Int) = ⌊q⌋ := by
  rw [Int.tdiv_eq_ediv (Rat.num_nonneg.mpr h) (by positivity), Rat.floor_def]

theorem toInt_fin (q : ℚ) (h : 0 ≤ q) :
    Double.toInt (.fin q) = if ⌊q⌋ ≤ INT_MAX then .ok ⌊q⌋ else .error .floatToInt := by
  have h0 : 0 ≤ ⌊q⌋ := Int.floor_nonneg.mpr h
  simp only [Double.toInt, tdiv_num_den_floor q h, INT_MIN, INT_MAX]
  by_cases hf : ⌊q⌋ ≤ 2147483647
  · rw [if_pos ⟨by omega, hf⟩, if_pos hf]
  · rw [if_neg (fun hc => hf hc.2), if_neg hf]

theorem roundDouble_natural_div (a c q : Int) (hc : c ≠ 0) (hq1 : -2 ^ 53 < q)
    (hq2 : q < 2 ^ 53) (h : a = q * c) :
    roundDouble ((a : ℚ) / (c : ℚ)) = .fin (q : ℚ) := by
  have hc' : (c : ℚ) ≠ 0 := by exact_mod_cast hc
  have e : (a : ℚ) / (c : ℚ) = (q : ℚ) := by
    rw [h]; push_cast; field_simp
  rw [e]
  exact roundDouble_intCast q hq1 hq2

theorem div_ofInt_of_multiple (a c q : Int) (hc : c ≠ 0) (ha1 : -2 ^ 53 < a) (ha2 : a < 2 ^ 53)
    (hc1 : -2 ^ 53 < c) (hc2 : c < 2 ^ 53) (hq1 : -2 ^ 53 < q) (hq2 : q < 2 ^ 53)
    (h : a = q * c) :
    Double.div (Double.ofInt a) (Double.ofInt c) = .fin (q : ℚ) := by
  have hc' : (c : ℚ) ≠ 0 := by exact_mod_cast hc
  simp only [Double.ofInt, roundDouble_intCast a ha1 ha2, roundDouble_intCast c hc1 hc2,
    Double.div, hc', if_false]
  exact roundDouble_natural_div a c q hc hq1 hq2 h

theorem toInt_intCast (z : Int) (h0 : 0 ≤ z) (h1 : z ≤ INT_MAX) :
    Double.toInt (.fin (z : ℚ)) = .ok z := by
  have hq : (0 : ℚ) ≤ (z : ℚ) := by exact_mod_cast h0
  rw [toInt_fin _ hq, Int.floor_intCast, if_pos h1]

theorem numHashes_eq (w : Int) (h1 : -95 ≤ w) (h2 : w ≤ 95) :
    Double.mul (Double.ofInt w) (roundDouble ((95 : ℚ) ^ ((5 : Int) - 1).toNat)) =
      .fin ((w : ℚ) * 95 ^ 4) := by
  have e1 : ((95 : ℚ) ^ ((5 : Int) - 1).toNat) = ((81450625 : Int) : ℚ) := by
    have : ((5 : Int) - 1).toNat = 4 := rfl
    rw [this]; norm_num
  have e2 : (w : ℚ) * ((81450625 : Int) : ℚ) = ((w * 81450625 : Int) : ℚ) := by push_cast; rfl
  have e3 : ((w * 81450625 : Int) : ℚ) = (w : ℚ) * 95 ^ 4 := by push_cast; norm_num
  simp only [Double.ofInt, e1, roundDouble_intCast w (by omega) (by omega),
    roundDouble_intCast 81450625 (by norm_num) (by norm_num), Double.mul, e2]
  rw [roundDouble_intCast (w * 81450625) (by omega) (by omega), e3]

/-! ## bench -/

theorem bench_of_toInt (P : HashPrimitive) (cps begin finish : Int) (junk : Nat → Nat)
    (num z : Int)
    (h : Double.toInt (Double.div (Double.ofInt num)
      (Double.div (Double.ofInt (finish - begin)) (Double.ofInt cps))) = .ok z) :
    ∃ b, bench P cps begin finish junk num = .ok b ∧ b.speed = z := by
  simp only [bench, h, bind, Except.bind, pure, Except.pure]
  exact ⟨_, rfl, rfl⟩

theorem bench_of_toInt_error (P : HashPrimitive) (cps begin finish : Int) (junk : Nat → Nat)
    (num : Int) (e : CError)
    (h : Double.toInt (Double.div (Double.ofInt num)
      (Double.div (Double.ofInt (finish - begin)) (Double.ofInt cps))) = .error e) :
    bench P cps begin finish junk num = .error e := by
  simp only [bench, h, bind, Except.bind]

theorem bench_inv (P : HashPrimitive) (cps begin finish : Int) (junk : Nat → Nat)
    (num : Int) (b : BenchResult) (h : bench P cps begin finish junk num = .ok b) :
    Double.toInt (Double.div (Double.ofInt num)
      (Double.div (Double.ofInt (finish - begin)) (Double.ofInt cps))) = .ok b.speed ∧
    b.digests = (forRange 0 num).map
      (fun i => hashTwice P ((junkStr junk 5).set 0 (toUInt8 i)) 5) := by
  simp only [bench, bind, Except.bind, pure, Except.pure] at h
  cases hd : Double.toInt (Double.div (Double.ofInt num)
      (Double.div (Double.ofInt (finish - begin)) (Double.ofInt cps))) with
  | error e => rw [hd] at h; simp at h
  | ok z =>
    rw [hd] at h
    have := Except.ok.inj h
    subst this
    exact ⟨rfl, rfl⟩

theorem toInt_range (d : Double) (z : Int) (h : Double.toInt d = .ok z) :
    INT_MIN ≤ z ∧ z ≤ INT_MAX := by
  cases d with
  | fin q =>
    simp only [Double.toInt] at h
    split_ifs at h with hc
    have := Except.ok.inj h
    subst this
    exact hc
  | inf => simp [Double.toInt] at h
  | nan => simp [Double.toInt] at h

theorem bench_of_multiple (P : HashPrimitive) (cps begin finish : Int) (junk : Nat → Nat)
    (num q r : Int) (hc : 0 < cps) (hq : 0 < q) (ht : finish - begin = q * cps)
    (hrep : q * cps < 2 ^ 53) (hnum : num = r * q) (hr0 : 0 ≤ r) (hr1 : r ≤ INT_MAX)
    (hn53 : num < 2 ^ 53) :
    ∃ b, bench P cps begin finish junk num = .ok b ∧ b.speed = r := by
  apply bench_of_toInt
  have hqc : q ≤ q * cps := le_mul_of_one_le_right hq.le (by omega)
  have hcq : cps ≤ q * cps := le_mul_of_one_le_left hc.le (by omega)
  have hnn : 0 ≤ num := by rw [hnum]; exact mul_nonneg hr0 hq.le
  unfold INT_MAX at hr1
  rw [ht, div_ofInt_of_multiple (q * cps) cps q (by omega) (by omega) hrep (by omega)
    (by omega) (by omega) (by omega) rfl]
  have hq' : (q : ℚ) ≠ 0 := by exact_mod_cast hq.ne'
  simp only [Double.ofInt, roundDouble_intCast num (by omega) hn53, Double.div, hq', if_false]
  rw [roundDouble_natural_div num q r (by omega) (by omega) (by omega) hnum]
  exact toInt_intCast r hr0 hr1

/-! ## main -/

theorem bench_oneSecondEnv (P : HashPrimitive) :
    ∃ b, bench P oneSecondEnv.clocksPerSec (oneSecondEnv.clock 0) (oneSecondEnv.clock 1)
      oneSecondEnv.benchJunk 1000000 = .ok b ∧ b.speed = 1000000 :=
  bench_of_multiple P oneSecondEnv.clocksPerSec (oneSecondEnv.clock 0) (oneSecondEnv.clock 1)
    oneSecondEnv.benchJunk 1000000 1 1000000 (by decide) (by decide) (by decide) (by decide)
    (by decide) (by decide) (by decide) (by decide)

theorem main_eq_eta (P : HashPrimitive) (env : Env) (threads thread : Int) (b : BenchResult)
    (r : Range) (s : BruteResult)
    (hb : bench P env.clocksPerSec (env.clock 0) (env.clock 1) env.benchJunk 1000000 = .ok b)
    (hr : mainRange threads thread = .ok r)
    (hs : brute P env.bruteJunk r.start r.stop 5 = .ok s) :
    ∃ res run, main P env 3 threads thread = .ok res ∧ res.exit = 0 ∧ res.run = some run ∧
      run.speed = b.speed ∧ run.range = r ∧ run.num = 5 ∧
      run.numHashes = some ((r.threadSize : ℚ) * 95 ^ 4) ∧
      run.eta = (Double.div (Double.div (.fin ((r.threadSize : ℚ) * 95 ^ 4))
        (Double.ofInt 60)) (Double.ofInt b.speed)).toOption ∧
      run.search = s := by
  obtain ⟨hw, _, _⟩ := mainRange_inv threads thread r hr
  obtain ⟨hw1, hw2⟩ := tdiv_95_bounds threads
  rw [← hw] at hw1 hw2
  unfold main
  rw [if_neg (by simp), hb]
  show ∃ res run, (mainRange threads thread >>= _) = Except.ok res ∧ _
  rw [hr]
  show ∃ res run, (brute P env.bruteJunk r.start r.stop 5 >>= _) = Except.ok res ∧ _
  rw [hs]
  refine ⟨_, _, rfl, rfl, rfl, rfl, rfl, rfl, ?_, ?_, rfl⟩
  · show (Double.mul (Double.ofInt r.threadSize)
      (roundDouble ((95 : ℚ) ^ ((5 : Int) - 1).toNat))).toOption = _
    rw [numHashes_eq r.threadSize hw1 hw2]
    rfl
  · show (Double.div (Double.div (Double.mul (Double.ofInt r.threadSize)
      (roundDouble ((95 : ℚ) ^ ((5 : Int) - 1).toNat))) (Double.ofInt 60))
      (Double.ofInt b.speed)).toOption = _
    rw [numHashes_eq r.threadSize hw1 hw2]

theorem main_range_error (P : HashPrimitive) (env : Env) (threads thread : Int)
    (b : BenchResult) (e : CError)
    (hb : bench P env.clocksPerSec (env.clock 0) (env.clock 1) env.benchJunk 1000000 = .ok b)
    (hr : mainRange threads thread = .error e) :
    main P env 3 threads thread = .error e := by
  unfold main
  rw [if_neg (by simp), hb]
  show (mainRange threads thread >>= _) = Except.error e
  rw [hr]
  rfl

theorem main_eq (P : HashPrimitive) (env : Env) (threads thread : Int) (b : BenchResult)
    (r : Range) (s : BruteResult)
    (hb : bench P env.clocksPerSec (env.clock 0) (env.clock 1) env.benchJunk 1000000 = .ok b)
    (hr : mainRange threads thread = .ok r)
    (hs : brute P env.bruteJunk r.start r.stop 5 = .ok s) :
    ∃ res run, main P env 3 threads thread = .ok res ∧ res.exit = 0 ∧ res.run = some run ∧
      run.speed = b.speed ∧ run.range = r ∧ run.num = 5 ∧
      run.numHashes = some ((r.threadSize : ℚ) * 95 ^ 4) ∧ run.search = s := by
  obtain ⟨res, run, h1, h2, h3, h4, h5, h6, h7, _, h9⟩ :=
    main_eq_eta P env threads thread b r s hb hr hs
  exact ⟨res, run, h1, h2, h3, h4, h5, h6, h7, h9⟩

theorem main_ok_inv (P : HashPrimitive) (env : Env) (threads thread : Int) (res : MainResult)
    (h : main P env 3 threads thread = .ok res) :
    ∃ b r s,
      bench P env.clocksPerSec (env.clock 0) (env.clock 1) env.benchJunk 1000000 = .ok b ∧
      mainRange threads thread = .ok r ∧ brute P env.bruteJunk r.start r.stop 5 = .ok s ∧
      res.exit = 0 ∧
      ∃ run, res.run = some run ∧ run.speed = b.speed ∧ run.range = r ∧ run.num = 5 ∧
        run.numHashes = some ((r.threadSize : ℚ) * 95 ^ 4) ∧
        run.eta = (Double.div (Double.div (.fin ((r.threadSize : ℚ) * 95 ^ 4))
          (Double.ofInt 60)) (Double.ofInt b.speed)).toOption ∧
        run.search = s := by
  cases hb : bench P env.clocksPerSec (env.clock 0) (env.clock 1) env.benchJunk 1000000 with
  | error e =>
    unfold main at h
    rw [if_neg (by simp), hb] at h
    exact absurd h (by intro hc; cases hc)
  | ok b =>
    cases hr : mainRange threads thread with
    | error e =>
      unfold main at h
      rw [if_neg (by simp), hb] at h
      change (mainRange threads thread >>= _) = Except.ok res at h
      rw [hr] at h
      exact absurd h (by intro hc; cases hc)
    | ok r =>
      cases hs : brute P env.bruteJunk r.start r.stop 5 with
      | error e =>
        unfold main at h
        rw [if_neg (by simp), hb] at h
        change (mainRange threads thread >>= _) = Except.ok res at h
        rw [hr] at h
        change (brute P env.bruteJunk r.start r.stop 5 >>= _) = Except.ok res at h
        rw [hs] at h
        exact absurd h (by intro hc; cases hc)
      | ok s =>
        obtain ⟨res1, run1, hm, hexit, hrun, hspeed, hrange, hnum, hcount, heta, hsearch⟩ :=
          main_eq_eta P env threads thread b r s hb hr hs
        rw [hm] at h
        have hres := Except.ok.inj h
        subst hres
        exact ⟨b, r, s, rfl, rfl, hs, hexit, run1, hrun, hspeed, hrange, hnum, hcount, heta,
          hsearch⟩

theorem mul_bounds (a w : Int) (ha1 : -1000001 ≤ a) (ha2 : a ≤ 1000001) (hw1 : -95 ≤ w)
    (hw2 : w ≤ 95) : -95000095 ≤ a * w ∧ a * w ≤ 95000095 := by
  have h := abs_mul a w
  have h1 : |a| ≤ 1000001 := abs_le.mpr ⟨ha1, ha2⟩
  have h2 : |w| ≤ 95 := abs_le.mpr ⟨hw1, hw2⟩
  have h3 : |a| * |w| ≤ 1000001 * 95 := mul_le_mul h1 h2 (abs_nonneg _) (by norm_num)
  have h4 := abs_le.mp (le_of_eq_of_le h h3)
  constructor <;> omega

theorem mainRange_unchecked (threads thread : Int) (hne : threads ≠ 0)
    (ht1 : -1000000 ≤ thread) (ht2 : thread ≤ 1000000) :
    mainRange threads thread = .ok
      { threadSize := Int.tdiv 95 threads
        start := 32 + (thread - 1) * Int.tdiv 95 threads
        stop := if thread = threads then 127
                else 32 + (thread - 1) * Int.tdiv 95 threads + Int.tdiv 95 threads } := by
  obtain ⟨hw1, hw2⟩ := tdiv_95_bounds threads
  obtain ⟨hm1, hm2⟩ := mul_bounds (thread - 1) (Int.tdiv 95 threads) (by omega) (by omega)
    hw1 hw2
  have e95 : (127 - 32 : Int) = 95 := by norm_num
  have c1 := checked_ok (Int.tdiv 95 threads) (by omega) (by omega)
  have c2 := checked_ok (thread - 1) (by omega) (by omega)
  have c3 := checked_ok ((thread - 1) * Int.tdiv 95 threads) (by omega) (by omega)
  have c4 := checked_ok (32 + (thread - 1) * Int.tdiv 95 threads) (by omega) (by omega)
  have c5 := checked_ok (32 + (thread - 1) * Int.tdiv 95 threads + Int.tdiv 95 threads)
    (by omega) (by omega)
  by_cases he : thread = threads
  · simp only [mainRange, cdiv, hne, if_false, e95, bind, Except.bind, c1, c2, c3, c4, he,
      if_true, pure, Except.pure]
    subst he
    simp only [c2, c3, c4]
  · simp only [mainRange, cdiv, hne, if_false, e95, bind, Except.bind, c1, c2, c3, c4, c5, he,
      pure, Except.pure]

/-! ## The count main reports -/

/-- C8 at the failing input `threads = 3`, `thread = 3`: `main` reports
`31 * 95^4 = 2524969375` hashes to check, while the range `[94, 127)` it hands to `brute`
holds `(127 - 94) * 95^4 = 2687870625` candidates, all of which `brute` hashes when none
matches. -/
theorem main_count_last_worker :
    ∃ res run, main zeroHash oneSecondEnv 3 3 3 = .ok res ∧ res.run = some run ∧
      run.range = { threadSize := 31, start := 94, stop := 127 } ∧
      run.numHashes = some 2524969375 ∧
      (run.search.hashed.length : Int) = (127 - 94) * 95 ^ (5 - 1) ∧
      run.numHashes ≠ some ((((127 - 94) * 95 ^ (5 - 1) : Int)) : ℚ) := by
  have hr : mainRange 3 3 = .ok { threadSize := 31, start := 94, stop := 127 } := by
    rw [mainRange_eq 3 3 (by decide) (by decide) (by decide)]
    rfl
  obtain ⟨b, hb, _⟩ := bench_oneSecondEnv zeroHash
  obtain ⟨s, hs, _, hh⟩ := brute_exhausted_five zeroHash oneSecondEnv.bruteJunk 94 127
    (fun c _ => pipeline_zeroHash c)
  obtain ⟨res, run, hm, _, hrun, _, hrange, _, hnum, hsearch⟩ :=
    main_eq zeroHash oneSecondEnv 3 3 b _ s hb hr hs
  have hnum1 : run.numHashes = some 2524969375 := by
    rw [hnum]
    norm_num
  refine ⟨res, run, hm, hrun, hrange, hnum1, ?_, ?_⟩
  · rw [hsearch, hh]
    exact cast_length_candidates _ 94 127 5 (by decide)
  · rw [hnum1]
    norm_num

/-! ## Argument checking -/

/-- C9 (amended): `main` prints the usage text and returns 1, starting neither the
benchmark nor the search, exactly when `argc ≠ 3`; it makes no range check on its two
arguments: with `argc = 3`, a completed benchmark, any non-zero `threads` and any `thread`
of absolute value at most 1000000, it computes `threadSize = 95 / threads` (truncating),
`start = 32 + (thread - 1) * threadSize` and `end = 127` if `thread = threads`, else
`start + threadSize`, hands that range to `brute` and returns 0. -/
theorem main_checks_only_argc (P : HashPrimitive) (env : Env) (threads thread : Int) :
    (∀ argc, argc ≠ 3 →
      main P env argc threads thread = .ok { exit := 1, stdout := help, run := none }) ∧
    (∀ b, bench P env.clocksPerSec (env.clock 0) (env.clock 1) env.benchJunk 1000000 = .ok b →
      threads ≠ 0 → -1000000 ≤ thread → thread ≤ 1000000 →
      ∃ res run, main P env 3 threads thread = .ok res ∧ res.exit = 0 ∧ res.run = some run ∧
        run.range =
          { threadSize := Int.tdiv 95 threads
            start := 32 + (thread - 1) * Int.tdiv 95 threads
            stop := if thread = threads then 127
                    else 32 + (thread - 1) * Int.tdiv 95 threads + Int.tdiv 95 threads } ∧
        brute P env.bruteJunk run.range.start run.range.stop 5 = .ok run.search) := by
  constructor
  · intro argc hargc
    simp only [main, ne_eq, hargc, not_false_eq_true, if_true]
  · intro b hb hne ht1 ht2
    have hr := mainRange_unchecked threads thread hne ht1 ht2
    obtain ⟨s, _, hs, _⟩ := brute_five_hashed_take P env.bruteJunk
      (32 + (thread - 1) * Int.tdiv 95 threads)
      (if thread = threads then 127
        else 32 + (thread - 1) * Int.tdiv 95 threads + Int.tdiv 95 threads)
    obtain ⟨res, run, hm, hexit, hrun, _, hrange, _, _, hsearch⟩ :=
      main_eq P env threads thread b _ s hb hr hs
    refine ⟨res, run, hm, hexit, hrun, hrange, ?_⟩
    rw [hrange, hsearch]
    exact hs

/-- Witness of C9: `argc = 2` gives the usage text and status 1; `argc = 3` with
`threads = 3`, `thread = 2` runs the search on `[63, 94)` and returns 0. -/
theorem main_checks_only_argc_witness :
    ((2 : Int) ≠ 3 ∧
      main zeroHash oneSecondEnv 2 3 2 = .ok { exit := 1, stdout := help, run := none }) ∧
    ((3 : Int) ≠ 0 ∧ (-1000000 : Int) ≤ 2 ∧ (2 : Int) ≤ 1000000 ∧
      ∃ res run, main zeroHash oneSecondEnv 3 3 2 = .ok res ∧ res.exit = 0 ∧
        res.run = some run ∧
        run.range =
          { threadSize := Int.tdiv 95 3
            start := 32 + (2 - 1) * Int.tdiv 95 3
            stop := if (2 : Int) = 3 then 127
                    else 32 + (2 - 1) * Int.tdiv 95 3 + Int.tdiv 95 3 } ∧
        brute zeroHash oneSecondEnv.bruteJunk run.range.start run.range.stop 5 =
          .ok run.search) := by
  obtain ⟨b, hb, _⟩ := bench_oneSecondEnv zeroHash
  exact ⟨⟨by decide, (main_checks_only_argc zeroHash oneSecondEnv 3 2).1 2 (by decide)⟩,
    ⟨by decide, by decide, by decide,
      (main_checks_only_argc zeroHash oneSecondEnv 3 2).2 b hb (by decide) (by decide)
        (by decide)⟩⟩

/-- Counterexample to C9 as stated: with `threads = 3` and `thread = 0`, outside
`[1, 3]`, `main` prints no usage text and returns 0 after `brute` has searched the range
`[1, 32)` computed from these arguments; and with `threads = 0` the division of line 179
is a division by zero. -/
theorem main_accepts_worker_zero :
    ¬ ((1 : Int) ≤ 0 ∧ (0 : Int) ≤ 3) ∧
    (∃ res run, main zeroHash oneSecondEnv 3 3 0 = .ok res ∧ res.exit = 0 ∧ res.exit ≠ 1 ∧
      res.run = some run ∧ run.range = { threadSize := 31, start := 1, stop := 32 } ∧
      brute zeroHash oneSecondEnv.bruteJunk 1 32 5 = .ok run.search ∧
      (run.search.hashed.length : Int) = (32 - 1) * 95 ^ 4) ∧
    main zeroHash oneSecondEnv 3 0 1 = .error .divisionByZero := by
  obtain ⟨b, hb, _⟩ := bench_oneSecondEnv zeroHash
  have hr : mainRange 3 0 = .ok { threadSize := 31, start := 1, stop := 32 } := by
    rw [mainRange_unchecked 3 0 (by decide) (by decide) (by decide)]
    rfl
  obtain ⟨s, hs, _, hh⟩ := brute_exhausted_five zeroHash oneSecondEnv.bruteJunk 1 32
    (fun c _ => pipeline_zeroHash c)
  obtain ⟨res, run, hm, hexit, hrun, _, hrange, _, _, hsearch⟩ :=
    main_eq zeroHash oneSecondEnv 3 0 b _ s hb hr hs
  refine ⟨by decide, ⟨res, run, hm, hexit, by rw [hexit]; decide, hrun, hrange, ?_, ?_⟩, ?_⟩
  · rw [hsearch]; exact hs
  · rw [hsearch, hh]
    exact cast_length_candidates _ 1 32 5 (by decide)
  · exact main_range_error zeroHash oneSecondEnv 0 1 b .divisionByZero hb rfl

theorem brute_ret (P : HashPrimitive) (junk : Nat → Nat) (start stop : Int) (s : BruteResult)
    (hs : brute P junk start stop 5 = .ok s) : s.ret = 10 ∨ s.ret = 0 := by
  rcases brute_five_cases P junk start stop with ⟨_, h⟩ | ⟨_, _, _, _, _, _, h⟩
  · rw [h] at hs
    have := Except.ok.inj hs
    subst this
    right; rfl
  · rw [h] at hs
    have := Except.ok.inj hs
    subst this
    left; rfl

/-! ## Exit status -/

/-- C12: `main` returns 1, having printed only the usage text and run neither the
benchmark nor the search, when `argc ≠ 3`; and a run that completes returns 1 if and only
if `argc ≠ 3`, and with `argc = 3` it returns 0 whether `brute` returned 10 (Found) or
0 (Exhausted). -/
theorem main_exit_status (P : HashPrimitive) (env : Env) (argc threads thread : Int) :
    (argc ≠ 3 →
      main P env argc threads thread = .ok { exit := 1, stdout := help, run := none }) ∧
    (∀ res, main P env argc threads thread = .ok res →
      (res.exit = 1 ↔ argc ≠ 3) ∧
      (argc = 3 → res.exit = 0 ∧
        ∃ run, res.run = some run ∧ (run.search.ret = 10 ∨ run.search.ret = 0))) := by
  have hne : argc ≠ 3 →
      main P env argc threads thread = .ok { exit := 1, stdout := help, run := none } := by
    intro hargc
    simp only [main, ne_eq, hargc, not_false_eq_true, if_true]
  refine ⟨hne, ?_⟩
  intro res hres
  by_cases hargc : argc = 3
  · subst hargc
    obtain ⟨b, r, s, _, _, hs, hexit, run, hrun, _, _, _, _, _, hsearch⟩ :=
      main_ok_inv P env threads thread res hres
    refine ⟨?_, fun _ => ⟨hexit, run, hrun, ?_⟩⟩
    · rw [hexit]
      simp
    · rw [hsearch]
      exact brute_ret P env.bruteJunk r.start r.stop s hs
  · rw [hne hargc] at hres
    have := Except.ok.inj hres
    subst this
    exact ⟨by simp [hargc], fun h => absurd h hargc⟩

/-- Witness of C12: one argument gives status 1; two arguments give status 0 both when
the search is exhausted and when it finds a match. -/
theorem main_exit_status_witness :
    ((2 : Int) ≠ 3 ∧
      main zeroHash oneSecondEnv 2 3 2 = .ok { exit := 1, stdout := help, run := none }) ∧
    (∃ res run, main zeroHash oneSecondEnv 3 3 2 = .ok res ∧ res.exit = 0 ∧
      res.run = some run ∧ run.search.ret = 0) ∧
    (∃ res run, main targetHash oneSecondEnv 3 3 2 = .ok res ∧ res.exit = 0 ∧
      res.run = some run ∧ run.search.ret = 10) := by
  have hr : mainRange 3 2 = .ok { threadSize := 31, start := 63, stop := 94 } := by
    rw [mainRange_eq 3 2 (by decide) (by decide) (by decide)]
    rfl
  refine ⟨⟨by decide, (main_exit_status zeroHash oneSecondEnv 2 3 2).1 (by decide)⟩, ?_, ?_⟩
  · obtain ⟨b, hb, _⟩ := bench_oneSecondEnv zeroHash
    obtain ⟨s, hs, hret, _⟩ := brute_exhausted_five zeroHash oneSecondEnv.bruteJunk 63 94
      (fun c _ => pipeline_zeroHash c)
    obtain ⟨res, run, hm, _, hrun, _, _, _, _, hsearch⟩ :=
      main_eq zeroHash oneSecondEnv 3 2 b _ s hb hr hs
    exact ⟨res, run, hm,
      (((main_exit_status zeroHash oneSecondEnv 3 3 2).2 res hm).2 rfl).1, hrun,
      by rw [hsearch]; exact hret⟩
  · obtain ⟨b, hb, _⟩ := bench_oneSecondEnv targetHash
    obtain ⟨post, hpost⟩ := bruteLoops_head 63 94 (by decide)
    have hs := brute_found_five targetHash oneSecondEnv.bruteJunk 63 94 []
      (63, 32, 32, 32, 32) post hpost (by simp) (pipeline_targetHash _)
    obtain ⟨res, run, hm, _, hrun, _, _, _, _, hsearch⟩ :=
      main_eq targetHash oneSecondEnv 3 2 b _ _ hb hr hs
    exact ⟨res, run, hm,
      (((main_exit_status targetHash oneSecondEnv 3 3 2).2 res hm).2 rfl).1, hrun,
      by rw [hsearch]⟩

/-! ## The width of the ranges -/

/-- C13: for every `threads ≥ 1` and `thread` in `[1, threads]`, `main` computes
`threadSize = 95 / threads` (truncating), `start = 32 + (thread - 1) * threadSize`, and
`end = 127` when `thread = threads` and `start + threadSize` otherwise, and these are the
values of every run that completes; `threads = 3`, `thread = 2` gives 31, 63, 94 and
`thread = 3` gives start 94, end 127. -/
theorem main_range_formula (threads thread : Int) (h1 : 1 ≤ thread) (h2 : thread ≤ threads)
    (h3 : threads ≤ INT_MAX) :
    (∃ r, mainRange threads thread = .ok r ∧ r.threadSize = Int.tdiv 95 threads ∧
      r.threadSize = 95 / threads ∧ r.start = 32 + (thread - 1) * r.threadSize ∧
      (thread = threads → r.stop = 127) ∧
      (thread ≠ threads → r.stop = r.start + r.threadSize) ∧
      ∀ (P : HashPrimitive) (env : Env) (res : MainResult) (run : SearchRun),
        main P env 3 threads thread = .ok res → res.run = some run → run.range = r) ∧
    mainRange 3 2 = .ok { threadSize := 31, start := 63, stop := 94 } ∧
    mainRange 3 3 = .ok { threadSize := 31, start := 94, stop := 127 } := by
  have hr := mainRange_eq threads thread h1 h2 h3
  refine ⟨⟨_, hr, ?_, rfl, rfl, ?_, ?_, ?_⟩, ?_, ?_⟩
  · exact (Int.tdiv_eq_ediv (by norm_num) (by omega)).symm
  · intro he
    simp only [he, if_true]
  · intro he
    simp only [he, if_false]
  · intro P env res run hmain hrun
    obtain ⟨_, r1, _, _, hr1, _, _, run1, hrun1, _, hrange, _⟩ :=
      main_ok_inv P env threads thread res hmain
    rw [hrun1] at hrun
    have := Option.some.inj hrun
    subst this
    rw [hrange]
    rw [hr] at hr1
    exact (Except.ok.inj hr1).symm
  · rw [mainRange_eq 3 2 (by decide) (by decide) (by decide)]
    rfl
  · rw [mainRange_eq 3 3 (by decide) (by decide) (by decide)]
    rfl

/-- Witness of C13 at `threads = 8`, `thread = 2`. -/
theorem main_range_formula_witness :
    (1 : Int) ≤ 2 ∧ (2 : Int) ≤ 8 ∧ (8 : Int) ≤ INT_MAX ∧
    ∃ r, mainRange 8 2 = .ok r ∧ r.threadSize = Int.tdiv 95 8 ∧
      r.threadSize = 95 / 8 ∧ r.start = 32 + (2 - 1) * r.threadSize ∧
      ((2 : Int) = 8 → r.stop = 127) ∧
      ((2 : Int) ≠ 8 → r.stop = r.start + r.threadSize) ∧
      ∀ (P : HashPrimitive) (env : Env) (res : MainResult) (run : SearchRun),
        main P env 3 8 2 = .ok res → res.run = some run → run.range = r :=
  ⟨by decide, by decide, by decide,
    (main_range_formula 8 2 (by decide) (by decide) (by decide)).1⟩

/-- C17: for every `threads ≥ 1`, the range of a non-terminal worker holds exactly
`95 / threads` values and the range of the terminal worker exactly
`95 / threads + 95 mod threads` values; so when `threads > 95` a non-terminal worker has
the empty range starting at 32 and hashes nothing, and the terminal worker has the whole
range `[32, 127)`. -/
theorem main_range_sizes (threads thread : Int) (h1 : 1 ≤ thread) (h2 : thread ≤ threads)
    (h3 : threads ≤ INT_MAX) :
    ∃ r, mainRange threads thread = .ok r ∧ r.threadSize = 95 / threads ∧
      (thread ≠ threads → r.stop - r.start = 95 / threads) ∧
      (thread = threads → r.stop - r.start = 95 / threads + 95 % threads) ∧
      (95 < threads → thread ≠ threads →
        r.start = 32 ∧ r.stop = 32 ∧ bruteLoops r.start r.stop = [] ∧
        ∀ (P : HashPrimitive) (junk : Nat → Nat), workerHashed P junk threads thread = []) ∧
      (95 < threads → thread = threads → r.start = 32 ∧ r.stop = 127) := by
  have hr := mainRange_eq threads thread h1 h2 h3
  have hmod : (95 : Int) % threads = 95 - threads * (95 / threads) := Int.emod_def _ _
  refine ⟨_, hr, rfl, ?_, ?_, ?_, ?_⟩
  · intro he
    simp only [he, if_false]
    omega
  · intro he
    subst he
    simp only [if_true]
    have e : (thread - 1) * (95 / thread) = thread * (95 / thread) - 95 / thread := by ring
    omega
  · intro h95 he
    have hz : (95 : Int) / threads = 0 := Int.ediv_eq_zero_of_lt (by norm_num) h95
    have hnil : bruteLoops 32 32 = [] := by
      rw [bruteLoops_eq]
      rfl
    simp only [he, if_false, hz, mul_zero, add_zero, true_and]
    refine ⟨hnil, ?_⟩
    intro P junk
    obtain ⟨r, k, hr1, _, _, hk, _⟩ := workerHashed_eq P junk threads thread h1 h2 h3
    rw [hr] at hr1
    have hr2 := Except.ok.inj hr1
    rw [hk, ← hr2]
    simp only [he, if_false, hz, mul_zero, add_zero]
    rw [candidates, hnil]
    simp
  · intro h95 he
    have hz : (95 : Int) / threads = 0 := Int.ediv_eq_zero_of_lt (by norm_num) h95
    simp only [he, if_true, hz, mul_zero, add_zero, and_self]

/-- Witness of C17 at `threads = 96`, `thread = 1`. -/
theorem main_range_sizes_witness :
    (1 : Int) ≤ 1 ∧ (1 : Int) ≤ 96 ∧ (96 : Int) ≤ INT_MAX ∧
    ∃ r, mainRange 96 1 = .ok r ∧ r.threadSize = 95 / 96 ∧
      ((1 : Int) ≠ 96 → r.stop - r.start = 95 / 96) ∧
      ((1 : Int) = 96 → r.stop - r.start = 95 / 96 + 95 % 96) ∧
      ((95 : Int) < 96 → (1 : Int) ≠ 96 →
        r.start = 32 ∧ r.stop = 32 ∧ bruteLoops r.start r.stop = [] ∧
        ∀ (P : HashPrimitive) (junk : Nat → Nat), workerHashed P junk 96 1 = []) ∧
      ((95 : Int) < 96 → (1 : Int) = 96 → r.start = 32 ∧ r.stop = 127) :=
  ⟨by decide, by decide, by decide,
    main_range_sizes 96 1 (by decide) (by decide) (by decide)⟩

/-! ## The digest pipeline -/

theorem hashTwice_eq (P : HashPrimitive) (str : List Nat) (num : Nat) :
    hashTwice P str num =
      P.hash (P.hash (str.take num) 256 .SHA3_FLAGS_KECCAK) 256 .SHA3_FLAGS_KECCAK := by
  have h : ∀ c : List Nat, (P.hash c 256 .SHA3_FLAGS_KECCAK).take 32 =
      P.hash c 256 .SHA3_FLAGS_KECCAK :=
    fun c => List.take_of_length_le (by rw [P.hash_length])
  simp only [hashTwice, sha3_HashBuffer, h]

theorem bench_digests (P : HashPrimitive) (cps begin finish : Int) (junk : Nat → Nat)
    (num : Int) (b : BenchResult) (h : bench P cps begin finish junk num = .ok b) :
    b.digests = (forRange 0 num).map
      (fun i => hashTwice P ((junkStr junk 5).set 0 (toUInt8 i)) 5) :=
  (bench_inv P cps begin finish junk num b h).2

/-- C15: the value `brute` compares with the target at each pass is
`hash(hash(c))`, where `c` is the first `num` bytes of `str`, both applications being made
with 256 bits and `SHA3_FLAGS_KECCAK` and the second one on the whole 32-byte digest of
the first; and every digest `bench` computes is that same two-stage hash of its 5-byte
buffer. -/
theorem brute_compares_double_hash (P : HashPrimitive) :
    (∀ (num : Nat) (t : Int × Int × Int × Int × Int)
        (rest : List (Int × Int × Int × Int × Int)) (s : BruteState),
      bruteLoop P num (t :: rest) s =
        if memcmp (P.hash (P.hash ((storeStr s.str t).take num) 256 .SHA3_FLAGS_KECCAK) 256
            .SHA3_FLAGS_KECCAK) target (256 / 8) = 0 then
          ({ str := storeStr s.str t, hashed := s.hashed ++ [(storeStr s.str t).take num] },
            some (P.hash (P.hash ((storeStr s.str t).take num) 256 .SHA3_FLAGS_KECCAK) 256
              .SHA3_FLAGS_KECCAK))
        else bruteLoop P num rest
          { str := storeStr s.str t, hashed := s.hashed ++ [(storeStr s.str t).take num] }) ∧
    (∀ c : List Nat, (P.hash c 256 .SHA3_FLAGS_KECCAK).length = 32 ∧
      (P.hash c 256 .SHA3_FLAGS_KECCAK).take 32 = P.hash c 256 .SHA3_FLAGS_KECCAK) ∧
    (∀ c : List Nat, pipeline P c =
      P.hash (P.hash c 256 .SHA3_FLAGS_KECCAK) 256 .SHA3_FLAGS_KECCAK) ∧
    (∀ (cps begin finish : Int) (junk : Nat → Nat) (num : Int) (b : BenchResult),
      bench P cps begin finish junk num = .ok b →
        b.digests = (forRange 0 num).map (fun i =>
          P.hash (P.hash ((junkStr junk 5).set 0 (toUInt8 i)) 256 .SHA3_FLAGS_KECCAK) 256
            .SHA3_FLAGS_KECCAK) ∧
        ∀ i : Int, ((junkStr junk 5).set 0 (toUInt8 i)).length = 5) := by
  refine ⟨?_, ?_, ?_, ?_⟩
  · intro num t rest s
    rw [bruteLoop]
    simp only [hashTwice_eq]
  · intro c
    have hl : (P.hash c 256 .SHA3_FLAGS_KECCAK).length = 32 := by rw [P.hash_length]
    exact ⟨hl, List.take_of_length_le (by rw [hl])⟩
  · intro c
    rw [pipeline, hashTwice_eq, List.take_length]
  · intro cps begin finish junk num b hb
    refine ⟨?_, fun i => by rw [List.length_set, length_junkStr]⟩
    rw [bench_digests P cps begin finish junk num b hb]
    apply List.map_congr_left
    intro i _
    have ht : ((junkStr junk 5).set 0 (toUInt8 i)).take 5 = (junkStr junk 5).set 0 (toUInt8 i) :=
      List.take_of_length_le (by rw [List.length_set, length_junkStr])
    rw [hashTwice_eq, ht]

/-- Witness of C15 on the benchmark of `oneSecondEnv`. -/
theorem brute_compares_double_hash_witness :
    ∃ b, bench zeroHash oneSecondEnv.clocksPerSec (oneSecondEnv.clock 0)
        (oneSecondEnv.clock 1) oneSecondEnv.benchJunk 1000000 = .ok b ∧
      b.digests = (forRange 0 1000000).map (fun i =>
        zeroHash.hash (zeroHash.hash ((junkStr oneSecondEnv.benchJunk 5).set 0 (toUInt8 i))
          256 .SHA3_FLAGS_KECCAK) 256 .SHA3_FLAGS_KECCAK) := by
  obtain ⟨b, hb, _⟩ := bench_oneSecondEnv zeroHash
  exact ⟨b, hb, ((brute_compares_double_hash zeroHash).2.2.2 _ _ _ _ _ b hb).1⟩

/-! ## The final message -/

theorem bruteLoops_last (start stop : Int) (h : start < stop) :
    ∃ pre, bruteLoops start stop = pre ++ [(stop - 1, 126, 126, 126, 126)] := by
  obtain ⟨m, hm⟩ : ∃ m, (stop - start).toNat * 95 ^ 4 = m + 1 :=
    ⟨(stop - start).toNat * 95 ^ 4 - 1, by omega⟩
  rw [bruteLoops_eq, hm, List.range_succ, List.map_append, List.map_singleton]
  refine ⟨List.map (odometer start) (List.range m), ?_⟩
  congr 2
  simp only [odometer, Prod.mk.injEq]
  refine ⟨?_, ?_, ?_, ?_, ?_⟩ <;> omega

/-- C16 (amended): for every range with `start < stop` and length 5, when `brute` returns
0 the candidate named in its final message is the last candidate it hashed, the last
element of the enumeration order, namely the bytes `((stop - 1) mod 256, 126, 126, 126,
126)`, whose byte 0 is `stop - 1` itself whenever `1 ≤ stop ≤ 256`. -/
theorem brute_exhausted_message (P : HashPrimitive) (junk : Nat → Nat) (start stop : Int)
    (h : start < stop) (r : BruteResult) (hr : brute P junk start stop 5 = .ok r)
    (h0 : r.ret = 0) :
    r.stdout = startingBlock 5 (fiveBytes (start, 32, 32, 32, 32))
      ++ endedBlock [toUInt8 (stop - 1), 126, 126, 126, 126] ∧
    r.hashed.getLast? = some [toUInt8 (stop - 1), 126, 126, 126, 126] ∧
    (candidates junk start stop 5).getLast? = some [toUInt8 (stop - 1), 126, 126, 126, 126] ∧
    (1 ≤ stop → stop ≤ 256 → (toUInt8 (stop - 1) : Int) = stop - 1) := by
  obtain ⟨pre, hpre⟩ := bruteLoops_last start stop h
  have hlast : fiveBytes (stop - 1, 126, 126, 126, 126) =
      [toUInt8 (stop - 1), 126, 126, 126, 126] := rfl
  have hcand : (candidates junk start stop 5).getLast? =
      some [toUInt8 (stop - 1), 126, 126, 126, 126] := by
    rw [candidates_five, hpre, List.map_append, List.map_singleton, hlast]
    exact List.getLast?_concat _
  rcases brute_five_cases P junk start stop with ⟨_, hb⟩ | ⟨_, _, _, _, _, _, hb⟩
  · rw [hb] at hr
    have := Except.ok.inj hr
    subst this
    refine ⟨?_, hcand, hcand, fun h1 h2 => toUInt8_of_byte _ (by omega) (by omega)⟩
    simp only
    rw [hpre, foldl_storeStr_append _ _ _ (by simp [fiveBytes]),
      storeStr_eq _ _ (by simp [fiveBytes]), hlast]
    rfl
  · rw [hb] at hr
    have := Except.ok.inj hr
    subst this
    simp at h0

/-- Witness of C16: the range `[32, 34)` with a hash that never matches ends at
`(33, 126, 126, 126, 126)`. -/
theorem brute_exhausted_message_witness :
    (32 : Int) < 34 ∧
    ∃ r, brute zeroHash (fun _ => 0) 32 34 5 = .ok r ∧ r.ret = 0 ∧
      r.stdout = startingBlock 5 (fiveBytes (32, 32, 32, 32, 32))
        ++ endedBlock [toUInt8 (34 - 1), 126, 126, 126, 126] ∧
      r.hashed.getLast? = some [toUInt8 (34 - 1), 126, 126, 126, 126] ∧
      (candidates (fun _ => 0) 32 34 5).getLast? =
        some [toUInt8 (34 - 1), 126, 126, 126, 126] ∧
      ((1 : Int) ≤ 34 → (34 : Int) ≤ 256 → (toUInt8 (34 - 1) : Int) = 34 - 1) := by
  obtain ⟨r, hr, hret, _⟩ := brute_exhausted_five zeroHash (fun _ => 0) 32 34
    (fun c _ => pipeline_zeroHash c)
  exact ⟨by decide, r, hr, hret,
    brute_exhausted_message zeroHash (fun _ => 0) 32 34 (by decide) r hr hret⟩

/-- Counterexample to C16 as stated for every range: `brute(317, 412, 5)`, the call
`main` makes for `threads = 1`, `thread = 4`, when exhausted names the candidate
`(155, 126, 126, 126, 126)`, whose byte 0 is `411 mod 256` and not `412 - 1`. -/
theorem exhausted_message_wraps_byte0 :
    (317 : Int) < 412 ∧
    (∃ r, brute zeroHash (fun _ => 0) 317 412 5 = .ok r ∧ r.ret = 0 ∧
      r.stdout = startingBlock 5 [61, 32, 32, 32, 32]
        ++ endedBlock [155, 126, 126, 126, 126] ∧
      r.hashed.getLast? = some [155, 126, 126, 126, 126]) ∧
    ((155 : Nat) : Int) ≠ 412 - 1 := by
  obtain ⟨pre, hpre⟩ := bruteLoops_last 317 412 (by decide)
  rcases brute_five_cases zeroHash (fun _ => 0) 317 412 with
    ⟨_, hb⟩ | ⟨_, t, _, _, _, hit, _⟩
  · refine ⟨by decide, ⟨_, hb, rfl, ?_, ?_⟩, by decide⟩
    · simp only
      rw [hpre, foldl_storeStr_append _ _ _ (by decide), storeStr_eq _ _ (by decide)]
      rfl
    · simp only
      rw [candidates_five, hpre, List.map_append, List.map_singleton]
      exact List.getLast?_concat _
  · exact absurd hit (pipeline_zeroHash _)


/-! ## The benchmark rate -/

theorem div_ofInt_between (e c : Int) (he : 0 < e) (he2 : e < 2 ^ 53) (hc : 0 < c)
    (hc2 : c < 2 ^ 53) (nl jl nh jh : Int) (hnl : nl < 2 ^ 53) (hjl : -1074 ≤ jl)
    (hnh : nh < 2 ^ 53) (hjh : -1074 ≤ jh)
    (hlo : (nl : ℚ) * (2 : ℚ) ^ jl ≤ (e : ℚ) / (c : ℚ))
    (hhi : (e : ℚ) / (c : ℚ) ≤ (nh : ℚ) * (2 : ℚ) ^ jh)
    (hfin : (nh : ℚ) * (2 : ℚ) ^ jh < (2 : ℚ) ^ (1024 : Int)) :
    ∃ y, Double.div (Double.ofInt e) (Double.ofInt c) = .fin y ∧
      (nl : ℚ) * (2 : ℚ) ^ jl ≤ y ∧ y ≤ (nh : ℚ) * (2 : ℚ) ^ jh := by
  have hc' : (c : ℚ) ≠ 0 := by exact_mod_cast hc.ne'
  have hpos : (0 : ℚ) < (e : ℚ) / (c : ℚ) := by
    have h1 : (0 : ℚ) < (e : ℚ) := by exact_mod_cast he
    have h2 : (0 : ℚ) < (c : ℚ) := by exact_mod_cast hc
    positivity
  simp only [Double.ofInt, roundDouble_intCast e (by omega) he2,
    roundDouble_intCast c (by omega) hc2, Double.div, hc', if_false]
  exact roundDouble_between _ hpos nl jl nh jh hnl hjl hnh hjh hlo hhi hfin

theorem div_fin_between (n : Int) (hn1 : -2 ^ 53 < n) (hn2 : n < 2 ^ 53) (t : ℚ) (ht : 0 < t)
    (hn : 0 < n) (nl jl nh jh : Int) (hnl : nl < 2 ^ 53) (hjl : -1074 ≤ jl)
    (hnh : nh < 2 ^ 53) (hjh : -1074 ≤ jh)
    (hlo : (nl : ℚ) * (2 : ℚ) ^ jl ≤ (n : ℚ) / t)
    (hhi : (n : ℚ) / t ≤ (nh : ℚ) * (2 : ℚ) ^ jh)
    (hfin : (nh : ℚ) * (2 : ℚ) ^ jh < (2 : ℚ) ^ (1024 : Int)) :
    ∃ y, Double.div (Double.ofInt n) (.fin t) = .fin y ∧
      (nl : ℚ) * (2 : ℚ) ^ jl ≤ y ∧ y ≤ (nh : ℚ) * (2 : ℚ) ^ jh := by
  have hpos : (0 : ℚ) < (n : ℚ) / t := by
    have h1 : (0 : ℚ) < (n : ℚ) := by exact_mod_cast hn
    positivity
  simp only [Double.ofInt, roundDouble_intCast n hn1 hn2, Double.div, ht.ne', if_false]
  exact roundDouble_between _ hpos nl jl nh jh hnl hjl hnh hjh hlo hhi hfin

theorem two_zpow_neg_mul (k : Nat) : (2 : ℚ) ^ (-(k : Int)) * (2 : ℚ) ^ k = 1 := by
  rw [zpow_neg, zpow_natCast]
  exact inv_mul_cancel₀ (pow_ne_zero _ (by norm_num))

theorem toInt_of_one_le (y : ℚ) (h : 1 ≤ y) :
    (∃ z, Double.toInt (.fin y) = .ok z ∧ 0 < z) ∨
      Double.toInt (.fin y) = .error .floatToInt := by
  have h1 : (1 : Int) ≤ ⌊y⌋ := Int.le_floor.mpr (by exact_mod_cast h)
  rw [toInt_fin y (by linarith)]
  by_cases hf : ⌊y⌋ ≤ INT_MAX
  · left
    exact ⟨⌊y⌋, by rw [if_pos hf], by omega⟩
  · right
    rw [if_neg hf]

theorem toInt_of_le_two_pow_30 (y : ℚ) (h : 1 ≤ y) (h2 : y ≤ (2 : ℚ) ^ (30 : Int)) :
    ∃ z, Double.toInt (.fin y) = .ok z ∧ 0 < z := by
  have h1 : (1 : Int) ≤ ⌊y⌋ := Int.le_floor.mpr (by exact_mod_cast h)
  have h3 : ⌊y⌋ ≤ 2 ^ 30 := by
    have : (⌊y⌋ : ℚ) ≤ ((2 ^ 30 : Int) : ℚ) := by
      refine le_trans (Int.floor_le y) (le_trans h2 ?_)
      norm_num
    exact_mod_cast this
  rw [toInt_fin y (by linarith)]
  have hf : ⌊y⌋ ≤ INT_MAX := by unfold INT_MAX; omega
  exact ⟨⌊y⌋, by rw [if_pos hf], by omega⟩

theorem toInt_of_two_pow_31_le (y : ℚ) (h : (2 : ℚ) ^ (31 : Int) ≤ y) :
    Double.toInt (.fin y) = .error .floatToInt := by
  have h1 : (2 ^ 31 : Int) ≤ ⌊y⌋ := Int.le_floor.mpr (by
    refine le_trans ?_ h
    norm_num)
  have h0 : (0 : ℚ) ≤ y := le_trans (by positivity) h
  rw [toInt_fin y h0, if_neg (by unfold INT_MAX; omega)]

theorem time_spent_pos (e c n : Int) (he : 0 < e) (he2 : e < 2 ^ 53) (hc : 0 < c)
    (hc2 : c < 2 ^ 53) (hn2 : n < 2 ^ 53) (hle : e ≤ n * c) :
    ∃ ts, Double.div (Double.ofInt e) (Double.ofInt c) = .fin ts ∧
      (2 : ℚ) ^ (-53 : Int) ≤ ts ∧ ts ≤ (n : ℚ) := by
  have hcq : (0 : ℚ) < (c : ℚ) := by exact_mod_cast hc
  have hlo : ((1 : Int) : ℚ) * (2 : ℚ) ^ (-53 : Int) ≤ (e : ℚ) / (c : ℚ) := by
    rw [le_div_iff₀ hcq, Int.cast_one, one_mul]
    have h1 : (c : ℚ) ≤ (2 : ℚ) ^ (53 : Nat) := by exact_mod_cast hc2.le
    have h2 : (1 : ℚ) ≤ (e : ℚ) := by exact_mod_cast he
    have h3 := two_zpow_neg_mul 53
    have h4 : (0 : ℚ) < (2 : ℚ) ^ (-((53 : Nat) : Int)) := zpow_pos (by norm_num) _
    calc (2 : ℚ) ^ (-53 : Int) * (c : ℚ) ≤ (2 : ℚ) ^ (-53 : Int) * (2 : ℚ) ^ (53 : Nat) :=
          mul_le_mul_of_nonneg_left h1 h4.le
      _ = 1 := h3
      _ ≤ (e : ℚ) := h2
  have hhi : (e : ℚ) / (c : ℚ) ≤ (n : ℚ) * (2 : ℚ) ^ (0 : Int) := by
    rw [zpow_zero, mul_one, div_le_iff₀ hcq]
    exact_mod_cast hle
  have hfin : (n : ℚ) * (2 : ℚ) ^ (0 : Int) < (2 : ℚ) ^ (1024 : Int) := by
    rw [zpow_zero, mul_one]
    refine lt_trans ?_ two_pow_53_lt
    exact_mod_cast hn2
  obtain ⟨y, hy, hy1, hy2⟩ := div_ofInt_between e c he he2 hc hc2 1 (-53) n 0 (by norm_num)
    (by norm_num) hn2 (by norm_num) hlo hhi hfin
  refine ⟨y, hy, ?_, ?_⟩
  · simpa using hy1
  · simpa using hy2

theorem time_spent_ge (e c n : Int) (he : 0 < e) (he2 : e < 2 ^ 53) (hc : 0 < c)
    (hc2 : c < 2 ^ 53) (hn2 : n < 2 ^ 53) (hle : e ≤ n * c)
    (hlo : n * c ≤ 2 ^ 30 * e) :
    ∃ ts, Double.div (Double.ofInt e) (Double.ofInt c) = .fin ts ∧
      (n : ℚ) * (2 : ℚ) ^ (-30 : Int) ≤ ts ∧ ts ≤ (n : ℚ) := by
  have hcq : (0 : ℚ) < (c : ℚ) := by exact_mod_cast hc
  have hlo' : (n : ℚ) * (2 : ℚ) ^ (-30 : Int) ≤ (e : ℚ) / (c : ℚ) := by
    rw [le_div_iff₀ hcq]
    have h1 : (n : ℚ) * (c : ℚ) ≤ (2 : ℚ) ^ (30 : Nat) * (e : ℚ) := by exact_mod_cast hlo
    have h3 : (2 : ℚ) ^ (-30 : Int) * (2 : ℚ) ^ (30 : Nat) = 1 := two_zpow_neg_mul 30
    have h4 : (0 : ℚ) < (2 : ℚ) ^ (-((30 : Nat) : Int)) := zpow_pos (by norm_num) _
    calc (n : ℚ) * (2 : ℚ) ^ (-30 : Int) * (c : ℚ)
        = (2 : ℚ) ^ (-30 : Int) * ((n : ℚ) * (c : ℚ)) := by ring
      _ ≤ (2 : ℚ) ^ (-30 : Int) * ((2 : ℚ) ^ (30 : Nat) * (e : ℚ)) :=
          mul_le_mul_of_nonneg_left h1 h4.le
      _ = (2 : ℚ) ^ (-30 : Int) * (2 : ℚ) ^ (30 : Nat) * (e : ℚ) := by ring
      _ = (e : ℚ) := by rw [h3, one_mul]
  have hhi : (e : ℚ) / (c : ℚ) ≤ (n : ℚ) * (2 : ℚ) ^ (0 : Int) := by
    rw [zpow_zero, mul_one, div_le_iff₀ hcq]
    exact_mod_cast hle
  have hfin : (n : ℚ) * (2 : ℚ) ^ (0 : Int) < (2 : ℚ) ^ (1024 : Int) := by
    rw [zpow_zero, mul_one]
    refine lt_trans ?_ two_pow_53_lt
    exact_mod_cast hn2
  obtain ⟨y, hy, hy1, hy2⟩ := div_ofInt_between e c he he2 hc hc2 n (-30) n 0 hn2
    (by norm_num) hn2 (by norm_num) hlo' hhi hfin
  refine ⟨y, hy, hy1, ?_⟩
  simpa using hy2

theorem rate_ge_one (n : Int) (hn : 0 < n) (hn2 : n ≤ INT_MAX) (ts : ℚ)
    (h1 : (2 : ℚ) ^ (-53 : Int) ≤ ts) (h2 : ts ≤ (n : ℚ)) :
    ∃ y, Double.div (Double.ofInt n) (.fin ts) = .fin y ∧ 1 ≤ y := by
  unfold INT_MAX at hn2
  have hts : (0 : ℚ) < ts := lt_of_lt_of_le (zpow_pos (by norm_num) _) h1
  have hnq : (0 : ℚ) < (n : ℚ) := by exact_mod_cast hn
  have hlo : ((1 : Int) : ℚ) * (2 : ℚ) ^ (0 : Int) ≤ (n : ℚ) / ts := by
    rw [zpow_zero, mul_one, Int.cast_one, le_div_iff₀ hts, one_mul]
    exact h2
  have hhi : (n : ℚ) / ts ≤ (n : ℚ) * (2 : ℚ) ^ (53 : Int) := by
    rw [div_le_iff₀ hts]
    have h3 : (2 : ℚ) ^ (-53 : Int) * (2 : ℚ) ^ (53 : Nat) = 1 := two_zpow_neg_mul 53
    calc (n : ℚ) = (n : ℚ) * ((2 : ℚ) ^ (-53 : Int) * (2 : ℚ) ^ (53 : Nat)) := by
          rw [h3, mul_one]
      _ = (n : ℚ) * (2 : ℚ) ^ (53 : Int) * (2 : ℚ) ^ (-53 : Int) := by
          rw [← zpow_natCast]; push_cast; ring
      _ ≤ (n : ℚ) * (2 : ℚ) ^ (53 : Int) * ts :=
          mul_le_mul_of_nonneg_left h1 (by positivity)
  have hfin : (n : ℚ) * (2 : ℚ) ^ (53 : Int) < (2 : ℚ) ^ (1024 : Int) := by
    have h53 : (0 : ℚ) < (2 : ℚ) ^ (53 : Int) := zpow_pos (by norm_num) _
    have hn53 : (n : ℚ) < (2 : ℚ) ^ (971 : Int) := by
      have a1 : (n : ℚ) < (((2 : Int) ^ 53 : Int) : ℚ) := by exact_mod_cast (by omega : n < 2 ^ 53)
      have a2 : (((2 : Int) ^ 53 : Int) : ℚ) = (2 : ℚ) ^ (53 : Int) := by norm_num
      rw [a2] at a1
      exact lt_trans a1 (zpow_lt_zpow_right₀ (by norm_num) (by norm_num))
    have e : (2 : ℚ) ^ (1024 : Int) = (2 : ℚ) ^ (971 : Int) * (2 : ℚ) ^ (53 : Int) := by
      rw [← zpow_add₀ (by norm_num)]; norm_num
    rw [e]
    exact mul_lt_mul_of_pos_right hn53 h53
  obtain ⟨y, hy, hy1, _⟩ := div_fin_between n (by omega) (by omega) ts hts hn 1 0 n 53
    (by norm_num) (by norm_num) (by omega) (by norm_num) hlo hhi hfin
  refine ⟨y, hy, ?_⟩
  simpa using hy1

theorem rate_le_two_pow_30 (n : Int) (hn : 0 < n) (hn2 : n ≤ INT_MAX) (ts : ℚ)
    (h1 : (n : ℚ) * (2 : ℚ) ^ (-30 : Int) ≤ ts) (h2 : ts ≤ (n : ℚ)) :
    ∃ y, Double.div (Double.ofInt n) (.fin ts) = .fin y ∧ 1 ≤ y ∧ y ≤ (2 : ℚ) ^ (30 : Int) := by
  unfold INT_MAX at hn2
  have hnq : (0 : ℚ) < (n : ℚ) := by exact_mod_cast hn
  have hts : (0 : ℚ) < ts :=
    lt_of_lt_of_le (mul_pos hnq (zpow_pos (by norm_num) _)) h1
  have hlo : ((1 : Int) : ℚ) * (2 : ℚ) ^ (0 : Int) ≤ (n : ℚ) / ts := by
    rw [zpow_zero, mul_one, Int.cast_one, le_div_iff₀ hts, one_mul]
    exact h2
  have hhi : (n : ℚ) / ts ≤ ((1 : Int) : ℚ) * (2 : ℚ) ^ (30 : Int) := by
    rw [div_le_iff₀ hts, Int.cast_one, one_mul]
    have h3 : (2 : ℚ) ^ (-30 : Int) * (2 : ℚ) ^ (30 : Nat) = 1 := two_zpow_neg_mul 30
    calc (n : ℚ) = (2 : ℚ) ^ (30 : Int) * ((n : ℚ) * (2 : ℚ) ^ (-30 : Int)) := by
          have : (2 : ℚ) ^ (30 : Int) * ((n : ℚ) * (2 : ℚ) ^ (-30 : Int)) =
              (n : ℚ) * ((2 : ℚ) ^ (-30 : Int) * (2 : ℚ) ^ (30 : Nat)) := by
            rw [← zpow_natCast]; push_cast; ring
          rw [this, h3, mul_one]
      _ ≤ (2 : ℚ) ^ (30 : Int) * ts := mul_le_mul_of_nonneg_left h1 (by positivity)
  have hfin : ((1 : Int) : ℚ) * (2 : ℚ) ^ (30 : Int) < (2 : ℚ) ^ (1024 : Int) := by
    rw [Int.cast_one, one_mul]
    exact zpow_lt_zpow_right₀ (by norm_num) (by norm_num)
  obtain ⟨y, hy, hy1, hy2⟩ := div_fin_between n (by omega) (by omega) ts hts hn 1 0 1 30
    (by norm_num) (by norm_num) (by norm_num) (by norm_num) hlo hhi hfin
  refine ⟨y, hy, ?_, ?_⟩
  · simpa using hy1
  · simpa using hy2

theorem eta_finite (w s : Int) (hw1 : -95 ≤ w) (hw2 : w ≤ 95) (hs : 0 < s)
    (hs2 : s ≤ INT_MAX) :
    Double.ofInt s = .fin (s : ℚ) ∧
    ∃ e, (Double.div (Double.div (.fin ((w : ℚ) * 95 ^ 4)) (Double.ofInt 60))
      (Double.ofInt s)).toOption = some e := by
  unfold INT_MAX at hs2
  have hs' : Double.ofInt s = .fin (s : ℚ) := roundDouble_intCast s (by omega) (by omega)
  refine ⟨hs', ?_⟩
  have h60 : Double.ofInt 60 = .fin (60 : ℚ) := by
    have := roundDouble_intCast 60 (by norm_num) (by norm_num)
    simpa [Double.ofInt] using this
  have hsq : (1 : ℚ) ≤ (s : ℚ) := by exact_mod_cast hs
  have hw : |(w : ℚ)| ≤ 95 := by
    rw [abs_le]
    constructor
    · exact_mod_cast hw1
    · exact_mod_cast hw2
  have hx : |(w : ℚ) * 95 ^ 4 / 60| ≤ (2 : ℚ) ^ (27 : Int) := by
    rw [abs_div, abs_mul]
    have a1 : |((95 : ℚ) ^ 4)| = 95 ^ 4 := abs_of_pos (by norm_num)
    have a2 : |(60 : ℚ)| = 60 := abs_of_pos (by norm_num)
    rw [a1, a2, div_le_iff₀ (by norm_num)]
    have : |(w : ℚ)| * 95 ^ 4 ≤ 95 * 95 ^ 4 := mul_le_mul_of_nonneg_right hw (by norm_num)
    refine le_trans this ?_
    norm_num
  obtain ⟨y, hy, hy2⟩ := roundDouble_fin_of_abs_le _ 27 (by norm_num) (by norm_num) hx
  have hys : |y / (s : ℚ)| ≤ (2 : ℚ) ^ (27 : Int) := by
    rw [abs_div, abs_of_pos (by linarith : (0 : ℚ) < (s : ℚ))]
    rw [div_le_iff₀ (by linarith)]
    calc |y| ≤ (2 : ℚ) ^ (27 : Int) := hy2
      _ = (2 : ℚ) ^ (27 : Int) * 1 := (mul_one _).symm
      _ ≤ (2 : ℚ) ^ (27 : Int) * (s : ℚ) := mul_le_mul_of_nonneg_left hsq (by positivity)
  obtain ⟨z, hz, _⟩ := roundDouble_fin_of_abs_le _ 27 (by norm_num) (by norm_num) hys
  refine ⟨z, ?_⟩
  have hs0 : (s : ℚ) ≠ 0 := by linarith
  rw [h60, hs']
  simp only [Double.div]
  rw [if_neg (by norm_num), hy]
  simp only [Double.div]
  rw [if_neg hs0, hz]
  rfl

theorem bench_zero_ticks (P : HashPrimitive) (cps t : Int) (junk : Nat → Nat) (num : Int)
    (hc : 0 < cps) (hc2 : cps < 2 ^ 53) (hn : 0 < num) (hn2 : num < 2 ^ 53) :
    Double.div (Double.ofInt (t - t)) (Double.ofInt cps) = .fin 0 ∧
    Double.div (Double.ofInt num) (.fin 0) = .inf ∧
    bench P cps t t junk num = .error .floatToInt := by
  have hcq : (cps : ℚ) ≠ 0 := by exact_mod_cast hc.ne'
  have hnq : (num : ℚ) ≠ 0 := by exact_mod_cast hn.ne'
  have h0 : Double.ofInt (t - t) = .fin 0 := by
    rw [sub_self]
    simp [Double.ofInt, roundDouble]
  have h1 : Double.div (Double.ofInt (t - t)) (Double.ofInt cps) = .fin 0 := by
    rw [h0]
    simp only [Double.ofInt, roundDouble_intCast cps (by omega) hc2, Double.div]
    rw [if_neg hcq, zero_div]
    simp [roundDouble]
  have h2 : Double.div (Double.ofInt num) (.fin 0) = .inf := by
    simp only [Double.ofInt, roundDouble_intCast num (by omega) hn2, Double.div]
    rw [if_pos trivial, if_neg hnq]
  refine ⟨h1, h2, ?_⟩
  apply bench_of_toInt_error
  rw [h1, h2]
  rfl

theorem div_ofInt_zero (d : Double) : (Double.div d (Double.ofInt 0)).toOption = none := by
  have h0 : Double.ofInt 0 = .fin 0 := by simp [Double.ofInt, roundDouble]
  rw [h0]
  cases d with
  | fin x =>
    simp only [Double.div]
    rw [if_pos trivial]
    split_ifs <;> rfl
  | inf => rfl
  | nan => rfl

theorem toInt_rate (cps begin finish num : Int) (ts y : ℚ)
    (h1 : Double.div (Double.ofInt (finish - begin)) (Double.ofInt cps) = .fin ts)
    (h2 : Double.div (Double.ofInt num) (.fin ts) = .fin y) :
    Double.toInt (Double.div (Double.ofInt num)
      (Double.div (Double.ofInt (finish - begin)) (Double.ofInt cps))) =
      Double.toInt (.fin y) := by
  rw [h1, h2]

/-- C11 (as amended): for every `sampleCount` with `0 < sampleCount ≤ INT_MAX`, every
`CLOCKS_PER_SEC` and every elapsed tick count that are strictly positive and below `2^53`
(so that their conversion to `double` is exact), with
`elapsed ≤ sampleCount * CLOCKS_PER_SEC`: the measured time `time_spent` is a finite,
strictly positive `double`, so that the rate computation divides by no zero; `bench` either
returns a strictly positive rate or its quotient does not fit an `int`, and it does return
a strictly positive rate when `sampleCount * CLOCKS_PER_SEC ≤ 2^30 * elapsed`; and in every
run of `main` that completes after such a benchmark the estimate divides by the `double`
of a strictly positive rate and is a finite number. -/
theorem bench_rate_positive (P : HashPrimitive) (cps begin finish : Int) (junk : Nat → Nat)
    (num : Int) (hnum : 0 < num) (hint : num ≤ INT_MAX) (hcps : 0 < cps)
    (hcps2 : cps < 2 ^ 53) (he : 0 < finish - begin) (he2 : finish - begin < 2 ^ 53)
    (hle : finish - begin ≤ num * cps) :
    (∃ ts, Double.div (Double.ofInt (finish - begin)) (Double.ofInt cps) = .fin ts ∧
      0 < ts) ∧
    ((∃ b, bench P cps begin finish junk num = .ok b ∧ 0 < b.speed) ∨
      bench P cps begin finish junk num = .error .floatToInt) ∧
    (num * cps ≤ 2 ^ 30 * (finish - begin) →
      ∃ b, bench P cps begin finish junk num = .ok b ∧ 0 < b.speed) ∧
    (∀ (env : Env) (threads thread : Int) (res : MainResult) (run : SearchRun),
      num = 1000000 → env.clocksPerSec = cps → env.clock 0 = begin → env.clock 1 = finish →
      main P env 3 threads thread = .ok res → res.run = some run →
        0 < run.speed ∧ Double.ofInt run.speed = .fin (run.speed : ℚ) ∧
        ∃ e, run.eta = some e) := by
  have hn53 : num < 2 ^ 53 := by unfold INT_MAX at hint; omega
  obtain ⟨ts, hts, hts1, hts2⟩ :=
    time_spent_pos (finish - begin) cps num he he2 hcps hcps2 hn53 hle
  have htspos : 0 < ts := lt_of_lt_of_le (zpow_pos (by norm_num) _) hts1
  obtain ⟨y, hy, hy1⟩ := rate_ge_one num hnum hint ts hts1 hts2
  have hT := toInt_rate cps begin finish num ts y hts hy
  have hcases := toInt_of_one_le y hy1
  refine ⟨⟨ts, hts, htspos⟩, ?_, ?_, ?_⟩
  · rcases hcases with ⟨z, hz, hzpos⟩ | herr
    · left
      obtain ⟨b, hb, hbz⟩ := bench_of_toInt P cps begin finish junk num z (hT.trans hz)
      exact ⟨b, hb, by rw [hbz]; exact hzpos⟩
    · right
      exact bench_of_toInt_error P cps begin finish junk num _ (hT.trans herr)
  · intro hlo
    obtain ⟨ts', hts', hts1', hts2'⟩ :=
      time_spent_ge (finish - begin) cps num he he2 hcps hcps2 hn53 hle hlo
    obtain ⟨y', hy', hy1', hy2'⟩ := rate_le_two_pow_30 num hnum hint ts' hts1' hts2'
    obtain ⟨z, hz, hzpos⟩ := toInt_of_le_two_pow_30 y' hy1' hy2'
    have hT' := toInt_rate cps begin finish num ts' y' hts' hy'
    obtain ⟨b, hb, hbz⟩ := bench_of_toInt P cps begin finish junk num z (hT'.trans hz)
    exact ⟨b, hb, by rw [hbz]; exact hzpos⟩
  · intro env threads thread res run hn hc h0 h1 hmain hrun
    obtain ⟨b, r, s, hb, hr, _, _, run1, hrun1, hspeed, _, _, _, heta, _⟩ :=
      main_ok_inv P env threads thread res hmain
    rw [hrun1] at hrun
    have hrr := Option.some.inj hrun
    subst hrr
    rw [hc, h0, h1, ← hn] at hb
    obtain ⟨hbt, _⟩ := bench_inv P cps begin finish env.benchJunk num b hb
    have hrange := toInt_range _ _ hbt
    rw [hT] at hbt
    have hpos : 0 < b.speed := by
      rcases hcases with ⟨z, hz, hzpos⟩ | herr
      · rw [hz] at hbt
        have hzz := Except.ok.inj hbt
        rw [← hzz]
        exact hzpos
      · rw [herr] at hbt
        exact absurd hbt (by intro hc; cases hc)
    obtain ⟨hw, _, _⟩ := mainRange_inv threads thread r hr
    obtain ⟨hw1, hw2⟩ := tdiv_95_bounds threads
    rw [← hw] at hw1 hw2
    obtain ⟨hfin, e, hfe⟩ := eta_finite r.threadSize b.speed hw1 hw2 hpos hrange.2
    rw [hspeed]
    exact ⟨hpos, hfin, e, heta.trans hfe⟩

theorem toInt_of_lt_one (y : ℚ) (h0 : 0 ≤ y) (h1 : y < 1) : Double.toInt (.fin y) = .ok 0 := by
  have hf : ⌊y⌋ = 0 := Int.floor_eq_zero_iff.mpr ⟨h0, h1⟩
  rw [toInt_fin y h0, hf, if_pos (by decide)]

theorem bench_of_half (P : HashPrimitive) (cps begin finish : Int) (junk : Nat → Nat)
    (num : Int) (hc : 0 < cps) (hn : 0 < num) (ht : finish - begin = 2 * num * cps)
    (hrep : 2 * num * cps < 2 ^ 53) :
    ∃ b, bench P cps begin finish junk num = .ok b ∧ b.speed = 0 := by
  apply bench_of_toInt
  have h1 : num ≤ num * cps := le_mul_of_one_le_right hn.le (by omega)
  have h2 : cps ≤ num * cps := le_mul_of_one_le_left hc.le (by omega)
  have h3 : 2 * num * cps = 2 * (num * cps) := by ring
  rw [ht, div_ofInt_of_multiple (2 * num * cps) cps (2 * num) (by omega) (by omega) hrep
    (by omega) (by omega) (by omega) (by omega) rfl]
  have hnq : (0 : ℚ) < (num : ℚ) := by exact_mod_cast hn
  have hq : (num : ℚ) / ((2 * num : Int) : ℚ) = 1 / 2 := by
    push_cast
    field_simp
    ring
  have hpos : (0 : ℚ) < ((2 * num : Int) : ℚ) := by push_cast; linarith
  have hhalf : ((1 : Int) : ℚ) * (2 : ℚ) ^ (-1 : Int) = 1 / 2 := by norm_num
  obtain ⟨y, hy, hy1, hy2⟩ := div_fin_between num (by omega) (by omega) _ hpos hn 1 (-1) 1 (-1)
    (by norm_num) (by norm_num) (by norm_num) (by norm_num) (by rw [hq, hhalf])
    (by rw [hq, hhalf]) (by
      rw [hhalf]
      have : (1 : ℚ) ≤ (2 : ℚ) ^ (1024 : Int) := one_le_zpow₀ (by norm_num) (by norm_num)
      linarith)
  rw [hhalf] at hy1 hy2
  rw [hy]
  exact toInt_of_lt_one y (by linarith) (by linarith)

theorem bench_one_tick (P : HashPrimitive) (junk : Nat → Nat) :
    (∃ ts, Double.div (Double.ofInt ((1 : Int) - 0)) (Double.ofInt 1000000) = .fin ts ∧
      0 < ts) ∧
    bench P 1000000 0 1 junk 1000000 = .error .floatToInt := by
  have hlo : ((1 : Int) : ℚ) * (2 : ℚ) ^ (-20 : Int) ≤ (((1 : Int) - 0 : Int) : ℚ) /
      ((1000000 : Int) : ℚ) := by
    rw [zpow_neg]
    norm_num
  have hhi : (((1 : Int) - 0 : Int) : ℚ) / ((1000000 : Int) : ℚ) ≤
      ((1 : Int) : ℚ) * (2 : ℚ) ^ (-19 : Int) := by
    rw [zpow_neg]
    norm_num
  have hfin : ((1 : Int) : ℚ) * (2 : ℚ) ^ (-19 : Int) < (2 : ℚ) ^ (1024 : Int) := by
    rw [Int.cast_one, one_mul]
    exact zpow_lt_zpow_right₀ (by norm_num) (by norm_num)
  obtain ⟨ts, hts, hts1, hts2⟩ := div_ofInt_between ((1 : Int) - 0) 1000000 (by norm_num)
    (by norm_num) (by norm_num) (by norm_num) 1 (-20) 1 (-19) (by norm_num) (by norm_num)
    (by norm_num) (by norm_num) hlo hhi hfin
  have htspos : 0 < ts := lt_of_lt_of_le (by positivity) hts1
  refine ⟨⟨ts, hts, htspos⟩, ?_⟩
  rw [Int.cast_one, one_mul] at hts1 hts2
  have h19 : (2 : ℚ) ^ (-19 : Int) * (2 : ℚ) ^ (19 : Nat) = 1 := two_zpow_neg_mul 19
  have h20 : (2 : ℚ) ^ (-20 : Int) * (2 : ℚ) ^ (20 : Nat) = 1 := two_zpow_neg_mul 20
  have hlo2 : ((1 : Int) : ℚ) * (2 : ℚ) ^ (31 : Int) ≤ ((1000000 : Int) : ℚ) / ts := by
    rw [le_div_iff₀ htspos, Int.cast_one, one_mul]
    calc (2 : ℚ) ^ (31 : Int) * ts ≤ (2 : ℚ) ^ (31 : Int) * (2 : ℚ) ^ (-19 : Int) :=
          mul_le_mul_of_nonneg_left hts2 (by positivity)
      _ = (2 : ℚ) ^ (12 : Int) := by rw [← zpow_add₀ (by norm_num)]; norm_num
      _ ≤ ((1000000 : Int) : ℚ) := by norm_num
  have hhi2 : ((1000000 : Int) : ℚ) / ts ≤ ((1 : Int) : ℚ) * (2 : ℚ) ^ (40 : Int) := by
    rw [div_le_iff₀ htspos, Int.cast_one, one_mul]
    calc ((1000000 : Int) : ℚ) ≤ (2 : ℚ) ^ (20 : Int) := by norm_num
      _ = (2 : ℚ) ^ (40 : Int) * (2 : ℚ) ^ (-20 : Int) := by
          rw [← zpow_add₀ (by norm_num)]; norm_num
      _ ≤ (2 : ℚ) ^ (40 : Int) * ts := mul_le_mul_of_nonneg_left hts1 (by positivity)
  have hfin2 : ((1 : Int) : ℚ) * (2 : ℚ) ^ (40 : Int) < (2 : ℚ) ^ (1024 : Int) := by
    rw [Int.cast_one, one_mul]
    exact zpow_lt_zpow_right₀ (by norm_num) (by norm_num)
  obtain ⟨y, hy, hy1, _⟩ := div_fin_between 1000000 (by norm_num) (by norm_num) ts htspos
    (by norm_num) 1 31 1 40 (by norm_num) (by norm_num) (by norm_num) (by norm_num)
    hlo2 hhi2 hfin2
  rw [Int.cast_one, one_mul] at hy1
  apply bench_of_toInt_error
  rw [toInt_rate 1000000 0 1 1000000 ts y hts hy]
  exact toInt_of_two_pow_31_le y hy1

theorem roundHalfEven_nearest (x : ℚ) (m : Int) (h1 : (m : ℚ) - 1 / 2 < x)
    (h2 : x < (m : ℚ) + 1 / 2) : roundHalfEven x = m := by
  have hf1 : (⌊x⌋ : ℚ) ≤ x := Int.floor_le x
  have hf2 : x < (⌊x⌋ : ℚ) + 1 := Int.lt_floor_add_one x
  have hle : ⌊x⌋ ≤ m := by
    have : (⌊x⌋ : ℚ) < (m : ℚ) + 1 := by linarith
    have : ⌊x⌋ < m + 1 := by exact_mod_cast this
    omega
  have hge : m - 1 ≤ ⌊x⌋ := by
    have : (m : ℚ) - 2 < (⌊x⌋ : ℚ) := by linarith
    have : m - 2 < ⌊x⌋ := by exact_mod_cast this
    omega
  simp only [roundHalfEven]
  split_ifs with c1 c2 c3
  · by_contra hne
    have hm : ⌊x⌋ = m - 1 := by omega
    rw [hm] at c1
    push_cast at c1
    linarith
  · by_contra hne
    have hm : ⌊x⌋ = m := by omega
    rw [hm] at c2
    linarith
  · exfalso
    have hx : x - (⌊x⌋ : ℚ) = 1 / 2 := le_antisymm (not_lt.mp c2) (not_lt.mp c1)
    rcases (by omega : ⌊x⌋ = m ∨ ⌊x⌋ = m - 1) with hm | hm
    · rw [hm] at hx; linarith
    · rw [hm] at hx; push_cast at hx; linarith
  · exfalso
    have hx : x - (⌊x⌋ : ℚ) = 1 / 2 := le_antisymm (not_lt.mp c2) (not_lt.mp c1)
    rcases (by omega : ⌊x⌋ = m ∨ ⌊x⌋ = m - 1) with hm | hm
    · rw [hm] at hx; linarith
    · rw [hm] at hx; push_cast at hx; linarith

theorem roundDouble_nearest (x : ℚ) (k m : Int) (hk : -1022 ≤ k)
    (h1 : (2 : ℚ) ^ k ≤ x) (h2 : x < (2 : ℚ) ^ (k + 1))
    (hm1 : (m : ℚ) - 1 / 2 < x / (2 : ℚ) ^ (k - 52))
    (hm2 : x / (2 : ℚ) ^ (k - 52) < (m : ℚ) + 1 / 2)
    (hfin : (m : ℚ) * (2 : ℚ) ^ (k - 52) < (2 : ℚ) ^ (1024 : Int)) :
    roundDouble x = .fin ((m : ℚ) * (2 : ℚ) ^ (k - 52)) := by
  have hx : 0 < x := lt_of_lt_of_le (zpow_pos (by norm_num) _) h1
  have hlog : Int.log 2 x = k := by
    have a1 : k ≤ Int.log 2 x := by
      have := (Int.zpow_le_iff_le_log (R := ℚ) (b := 2) (by norm_num) hx (x := k)).mp
        (by simpa using h1)
      exact this
    have a2 : Int.log 2 x < k + 1 := by
      have := (Int.lt_zpow_iff_log_lt (R := ℚ) (b := 2) (by norm_num) hx (x := k + 1)).mp
        (by simpa using h2)
      exact this
    omega
  have hulp : ulpExp x = k - 52 := by
    unfold ulpExp
    rw [hlog, max_eq_left hk]
  have hrm : roundMagnitude x = (m : ℚ) * (2 : ℚ) ^ (k - 52) := by
    unfold roundMagnitude
    rw [hulp, roundHalfEven_nearest _ m hm1 hm2]
  unfold roundDouble
  rw [if_neg hx.ne', abs_of_pos hx, hrm, if_neg (not_le.mpr hfin), if_neg (not_lt.mpr hx.le)]

theorem bench_of_inexact_ticks (P : HashPrimitive) (junk : Nat → Nat) :
    Double.ofInt ((108086391056891913 : Int) - 0) = .fin 108086391056891920 ∧
    Double.ofInt 36028797018963971 = .fin 36028797018963968 ∧
    ∃ b, bench P 36028797018963971 0 108086391056891913 junk 3 = .ok b ∧ b.speed = 0 := by
  have he : Double.ofInt ((108086391056891913 : Int) - 0) = .fin 108086391056891920 := by
    have h := roundDouble_nearest ((((108086391056891913 : Int) - 0 : Int)) : ℚ) 56
      6755399441055745 (by norm_num) (by norm_num) (by norm_num) (by norm_num) (by norm_num)
      (by
        have : (2 : ℚ) ^ ((56 : Int) - 52) ≤ (2 : ℚ) ^ (10 : Int) :=
          zpow_le_zpow_right₀ (by norm_num) (by norm_num)
        have h2 : (2 : ℚ) ^ (10 : Int) * (2 : ℚ) ^ (60 : Int) < (2 : ℚ) ^ (1024 : Int) := by
          rw [← zpow_add₀ (by norm_num)]
          exact zpow_lt_zpow_right₀ (by norm_num) (by norm_num)
        have h3 : ((6755399441055745 : Int) : ℚ) ≤ (2 : ℚ) ^ (60 : Int) := by norm_num
        calc ((6755399441055745 : Int) : ℚ) * (2 : ℚ) ^ ((56 : Int) - 52)
            ≤ (2 : ℚ) ^ (60 : Int) * (2 : ℚ) ^ (10 : Int) :=
              mul_le_mul h3 this (by positivity) (by positivity)
          _ = (2 : ℚ) ^ (10 : Int) * (2 : ℚ) ^ (60 : Int) := mul_comm _ _
          _ < (2 : ℚ) ^ (1024 : Int) := h2)
    unfold Double.ofInt
    rw [h]
    norm_num
  have hc : Double.ofInt 36028797018963971 = .fin 36028797018963968 := by
    have h := roundDouble_nearest ((36028797018963971 : Int) : ℚ) 55
      4503599627370496 (by norm_num) (by norm_num) (by norm_num) (by norm_num) (by norm_num)
      (by
        have : (2 : ℚ) ^ ((55 : Int) - 52) ≤ (2 : ℚ) ^ (10 : Int) :=
          zpow_le_zpow_right₀ (by norm_num) (by norm_num)
        have h2 : (2 : ℚ) ^ (10 : Int) * (2 : ℚ) ^ (60 : Int) < (2 : ℚ) ^ (1024 : Int) := by
          rw [← zpow_add₀ (by norm_num)]
          exact zpow_lt_zpow_right₀ (by norm_num) (by norm_num)
        have h3 : ((4503599627370496 : Int) : ℚ) ≤ (2 : ℚ) ^ (60 : Int) := by norm_num
        calc ((4503599627370496 : Int) : ℚ) * (2 : ℚ) ^ ((55 : Int) - 52)
            ≤ (2 : ℚ) ^ (60 : Int) * (2 : ℚ) ^ (10 : Int) :=
              mul_le_mul h3 this (by positivity) (by positivity)
          _ = (2 : ℚ) ^ (10 : Int) * (2 : ℚ) ^ (60 : Int) := mul_comm _ _
          _ < (2 : ℚ) ^ (1024 : Int) := h2)
    unfold Double.ofInt
    rw [h]
    norm_num
  refine ⟨he, hc, ?_⟩
  apply bench_of_toInt
  rw [he, hc]
  have hq : (108086391056891920 : ℚ) / 36028797018963968 =
      ((6755399441055745 : Int) : ℚ) * (2 : ℚ) ^ (-51 : Int) := by
    rw [zpow_neg]
    norm_num
  have hfin : ((6755399441055745 : Int) : ℚ) * (2 : ℚ) ^ (-51 : Int) <
      (2 : ℚ) ^ (1024 : Int) := by
    rw [← hq]
    have : (1 : ℚ) ≤ (2 : ℚ) ^ (1024 : Int) := one_le_zpow₀ (by norm_num) (by norm_num)
    have h4 : (108086391056891920 : ℚ) / 36028797018963968 < 4 := by norm_num
    have h5 : (4 : ℚ) = (2 : ℚ) ^ (2 : Int) := by norm_num
    rw [h5] at h4
    exact lt_trans h4 (zpow_lt_zpow_right₀ (by norm_num) (by norm_num))
  obtain ⟨ts, hts, hts1, hts2⟩ := roundDouble_between
    ((108086391056891920 : ℚ) / 36028797018963968) (by norm_num) 6755399441055745 (-51)
    6755399441055745 (-51) (by norm_num) (by norm_num) (by norm_num) (by norm_num)
    hq.ge hq.le hfin
  have htsq : ts = (108086391056891920 : ℚ) / 36028797018963968 := by
    rw [hq]
    exact le_antisymm hts2 hts1
  have hdiv : Double.div (.fin 108086391056891920) (.fin 36028797018963968) = .fin ts := by
    simp only [Double.div]
    rw [if_neg (by norm_num), hts]
  rw [hdiv]
  have htspos : 0 < ts := by rw [htsq]; norm_num
  have hlo : ((1 : Int) : ℚ) * (2 : ℚ) ^ (-1 : Int) ≤ ((3 : Int) : ℚ) / ts := by
    rw [htsq, zpow_neg]
    norm_num
  have hhi : ((3 : Int) : ℚ) / ts ≤ ((9007199254740991 : Int) : ℚ) * (2 : ℚ) ^ (-53 : Int) := by
    rw [htsq, zpow_neg]
    norm_num
  have hlt1 : ((9007199254740991 : Int) : ℚ) * (2 : ℚ) ^ (-53 : Int) < 1 := by
    rw [zpow_neg]
    norm_num
  obtain ⟨y, hy, hy1, hy2⟩ := div_fin_between 3 (by norm_num) (by norm_num) ts htspos
    (by norm_num) 1 (-1) 9007199254740991 (-53) (by norm_num) (by norm_num) (by norm_num)
    (by norm_num) hlo hhi (lt_trans hlt1 (one_lt_zpow₀ (by norm_num) (by norm_num)))
  rw [hy]
  have hy0 : 0 ≤ y := le_trans (by positivity) hy1
  exact toInt_of_lt_one y hy0 (lt_of_le_of_lt hy2 hlt1)

/-- Witness of C11: one million samples in one second of ticks; `bench` returns a strictly
positive rate, and `sha3run 3 2` then divides its estimate by the `double` of a strictly
positive rate and prints a finite estimate. -/
theorem bench_rate_positive_witness :
    ((0 : Int) < 1000000 ∧ (1000000 : Int) ≤ INT_MAX ∧ (0 : Int) < 1000000 ∧
      (1000000 : Int) < 2 ^ 53 ∧ (0 : Int) < 1000000 - 0 ∧ (1000000 : Int) - 0 < 2 ^ 53 ∧
      (1000000 : Int) - 0 ≤ 1000000 * 1000000 ∧
      (1000000 : Int) * 1000000 ≤ 2 ^ 30 * (1000000 - 0)) ∧
    (∃ ts, Double.div (Double.ofInt ((1000000 : Int) - 0)) (Double.ofInt 1000000) = .fin ts ∧
      0 < ts) ∧
    (∃ b, bench zeroHash 1000000 0 1000000 (fun _ => 0) 1000000 = .ok b ∧ 0 < b.speed) ∧
    (∃ res run, main zeroHash oneSecondEnv 3 3 2 = .ok res ∧ res.run = some run ∧
      0 < run.speed ∧ Double.ofInt run.speed = .fin (run.speed : ℚ) ∧
      ∃ e, run.eta = some e) := by
  have hw := bench_rate_positive zeroHash 1000000 0 1000000 (fun _ => 0) 1000000
    (by decide) (by decide) (by decide) (by decide) (by decide) (by decide) (by decide)
  obtain ⟨b, hb, _⟩ := bench_oneSecondEnv zeroHash
  obtain ⟨s, _, hs, _⟩ := brute_five_hashed_take zeroHash oneSecondEnv.bruteJunk 63 94
  have hr : mainRange 3 2 = .ok { threadSize := 31, start := 63, stop := 94 } := by
    rw [mainRange_eq 3 2 (by decide) (by decide) (by decide)]
    rfl
  obtain ⟨res, run, hm, _, hrun, _⟩ := main_eq zeroHash oneSecondEnv 3 2 b _ s hb hr hs
  exact ⟨⟨by decide, by decide, by decide, by decide, by decide, by decide, by decide,
    by decide⟩, hw.1, hw.2.2.1 (by decide), res, run, hm, hrun,
    hw.2.2.2 oneSecondEnv 3 2 res run rfl rfl rfl rfl hm hrun⟩

/-- Counterexample to C11 as stated. With an elapsed tick count of 0 the measured time
is 0, the rate computation divides by zero and the infinite quotient has no defined
conversion to `int`, so `bench` returns no rate. With an elapsed count of `2 * 10^12`
ticks `bench` returns the rate 0, which is not strictly positive, and `sha3run 3 2` then
divides its estimate by zero. With an elapsed count of 1 tick the measured time is
positive but the quotient, about `10^12`, does not fit an `int`. With
`CLOCKS_PER_SEC = 2^55 + 3` and an elapsed count of `3 * CLOCKS_PER_SEC` ticks for
three samples, neither of which a `double` holds exactly, the conversions round in
opposite directions and `bench` returns the rate 0. -/
theorem bench_without_zero_guard :
    ((0 : Int) < 1000000 ∧ (0 : Int) ≤ 0 - 0 ∧
      Double.div (Double.ofInt ((0 : Int) - 0)) (Double.ofInt 1000000) = .fin 0 ∧
      Double.div (Double.ofInt 1000000) (.fin 0) = .inf ∧
      bench zeroHash 1000000 0 0 (fun _ => 0) 1000000 = .error .floatToInt) ∧
    (∃ b, bench zeroHash 1000000 0 2000000000000 (fun _ => 0) 1000000 = .ok b ∧
      b.speed = 0 ∧ ¬ (0 < b.speed)) ∧
    (∃ res run, main zeroHash slowEnv 3 3 2 = .ok res ∧ res.run = some run ∧
      run.speed = 0 ∧ run.eta = none) ∧
    ((∃ ts, Double.div (Double.ofInt ((1 : Int) - 0)) (Double.ofInt 1000000) = .fin ts ∧
      0 < ts) ∧
      bench zeroHash 1000000 0 1 (fun _ => 0) 1000000 = .error .floatToInt) ∧
    ((0 : Int) < 3 ∧ (0 : Int) < 108086391056891913 - 0 ∧
      (108086391056891913 : Int) - 0 ≤ 3 * 36028797018963971 ∧
      Double.ofInt ((108086391056891913 : Int) - 0) = .fin 108086391056891920 ∧
      Double.ofInt 36028797018963971 = .fin 36028797018963968 ∧
      ∃ b, bench zeroHash 36028797018963971 0 108086391056891913 (fun _ => 0) 3 = .ok b ∧
        b.speed = 0) := by
  refine ⟨⟨by decide, by decide, ?_⟩, ?_, ?_, bench_one_tick zeroHash _,
    by decide, by decide, by decide, bench_of_inexact_ticks zeroHash _⟩
  · exact bench_zero_ticks zeroHash 1000000 0 (fun _ => 0) 1000000 (by decide) (by decide)
      (by decide) (by decide)
  · obtain ⟨b, hb, h0⟩ := bench_of_half zeroHash 1000000 0 2000000000000 (fun _ => 0) 1000000
      (by decide) (by decide) (by decide) (by decide)
    exact ⟨b, hb, h0, by rw [h0]; decide⟩
  · obtain ⟨b, hb, h0⟩ := bench_of_half zeroHash slowEnv.clocksPerSec (slowEnv.clock 0)
      (slowEnv.clock 1) slowEnv.benchJunk 1000000 (by decide) (by decide) (by decide)
      (by decide)
    obtain ⟨s, _, hs, _⟩ := brute_five_hashed_take zeroHash slowEnv.bruteJunk 63 94
    have hr : mainRange 3 2 = .ok { threadSize := 31, start := 63, stop := 94 } := by
      rw [mainRange_eq 3 2 (by decide) (by decide) (by decide)]
      rfl
    obtain ⟨res, run, hm, _, hrun, hspeed, _, _, _, heta, _⟩ :=
      main_eq_eta zeroHash slowEnv 3 2 b _ s hb hr hs
    refine ⟨res, run, hm, hrun, hspeed.trans h0, ?_⟩
    rw [heta, h0]
    exact div_ofInt_zero _


/-! ## The estimate -/

theorem bench_twoSecondEnv (P : HashPrimitive) :
    ∃ b, bench P twoSecondEnv.clocksPerSec (twoSecondEnv.clock 0) (twoSecondEnv.clock 1)
      twoSecondEnv.benchJunk 1000000 = .ok b ∧ b.speed = 500000 :=
  bench_of_multiple P twoSecondEnv.clocksPerSec (twoSecondEnv.clock 0) (twoSecondEnv.clock 1)
    twoSecondEnv.benchJunk 1000000 2 500000 (by decide) (by decide) (by decide) (by decide)
    (by decide) (by decide) (by decide) (by decide)

theorem eta_between (x : ℚ) (s a b lo hi : Int) (hs : 0 < s) (hs2 : s < 2 ^ 53) (ha : 0 < a)
    (hb : b < 2 ^ 53) (h1 : (a : ℚ) ≤ x / 60) (h2 : x / 60 ≤ (b : ℚ)) (hlo : lo * s ≤ a)
    (hhi : b ≤ hi * s) (hhi2 : hi < 2 ^ 53) :
    ∃ e, (Double.div (Double.div (.fin x) (Double.ofInt 60)) (Double.ofInt s)).toOption =
      some e ∧ (lo : ℚ) ≤ e ∧ e ≤ (hi : ℚ) := by
  have h60 : Double.ofInt 60 = .fin (60 : ℚ) := by
    have := roundDouble_intCast 60 (by norm_num) (by norm_num)
    simpa [Double.ofInt] using this
  have hs' : Double.ofInt s = .fin (s : ℚ) := roundDouble_intCast s (by omega) hs2
  have haq : (0 : ℚ) < (a : ℚ) := by exact_mod_cast ha
  have hsq : (0 : ℚ) < (s : ℚ) := by exact_mod_cast hs
  have hfin : ∀ n : Int, n < 2 ^ 53 → (n : ℚ) * (2 : ℚ) ^ (0 : Int) < (2 : ℚ) ^ (1024 : Int) := by
    intro n hn
    rw [zpow_zero, mul_one]
    refine lt_trans ?_ two_pow_53_lt
    exact_mod_cast hn
  have hab : a ≤ b := by exact_mod_cast h1.trans h2
  have hlos : lo * s < 2 ^ 53 := by omega
  have hlo53 : lo < 2 ^ 53 := by
    by_contra hc
    have : 2 ^ 53 * 1 ≤ lo * s := mul_le_mul (by omega) (by omega) (by norm_num) (by omega)
    omega
  obtain ⟨y, hy, hy1, hy2⟩ := roundDouble_between (x / 60) (lt_of_lt_of_le haq h1) a 0 b 0
    (by omega) (by norm_num) hb (by norm_num) (by rw [zpow_zero, mul_one]; exact h1)
    (by rw [zpow_zero, mul_one]; exact h2) (hfin b hb)
  rw [zpow_zero, mul_one] at hy1 hy2
  have hypos : 0 < y := lt_of_lt_of_le haq hy1
  have hl : (lo : ℚ) * (2 : ℚ) ^ (0 : Int) ≤ y / (s : ℚ) := by
    rw [zpow_zero, mul_one, le_div_iff₀ hsq]
    have : ((lo * s : Int) : ℚ) ≤ (a : ℚ) := by exact_mod_cast hlo
    push_cast at this
    linarith
  have hh : y / (s : ℚ) ≤ (hi : ℚ) * (2 : ℚ) ^ (0 : Int) := by
    rw [zpow_zero, mul_one, div_le_iff₀ hsq]
    have : (b : ℚ) ≤ ((hi * s : Int) : ℚ) := by exact_mod_cast hhi
    push_cast at this
    linarith
  obtain ⟨z, hz, hz1, hz2⟩ := roundDouble_between (y / (s : ℚ)) (by positivity) lo 0 hi 0
    hlo53 (by norm_num) hhi2 (by norm_num) hl hh (hfin hi hhi2)
  rw [zpow_zero, mul_one] at hz1 hz2
  refine ⟨z, ?_, hz1, hz2⟩
  rw [h60, hs']
  simp only [Double.div]
  rw [if_neg (by norm_num), hy]
  simp only [Double.div]
  rw [if_neg hsq.ne', hz]
  rfl

/-- C14 (evaluation; the defect recorded under C8): the estimate of `main` is computed
from `threadSize`, not from the width `end - start` of the range handed to `brute`.
`sha3run 18 18` searches `[117, 127)` and `sha3run 16 16` searches `[107, 127)`, twice as
wide, yet both report the expected count `5 * 95^4 = 407253125`, not one twice the other.
`sha3run 9 9` at 500000 hashes per second and `sha3run 11 11` at twice that rate search
the same range `[112, 127)`, yet the estimated times are at least 27 and at most 11
minutes, the second not half the first. -/
theorem estimate_ignores_last_worker_width :
    (∃ res1 run1 res2 run2,
      main zeroHash oneSecondEnv 3 18 18 = .ok res1 ∧ res1.run = some run1 ∧
      main zeroHash oneSecondEnv 3 16 16 = .ok res2 ∧ res2.run = some run2 ∧
      run1.num = run2.num ∧
      run1.range = { threadSize := 5, start := 117, stop := 127 } ∧
      run2.range = { threadSize := 5, start := 107, stop := 127 } ∧
      run2.range.stop - run2.range.start = 2 * (run1.range.stop - run1.range.start) ∧
      run1.numHashes = some 407253125 ∧ run2.numHashes = some 407253125 ∧
      run2.numHashes ≠ run1.numHashes.map (2 * ·)) ∧
    (∃ res1 run1 res2 run2,
      main zeroHash twoSecondEnv 3 9 9 = .ok res1 ∧ res1.run = some run1 ∧
      main zeroHash oneSecondEnv 3 11 11 = .ok res2 ∧ res2.run = some run2 ∧
      run1.num = run2.num ∧
      run1.range = { threadSize := 10, start := 112, stop := 127 } ∧
      run2.range = { threadSize := 8, start := 112, stop := 127 } ∧
      run2.range.stop - run2.range.start = run1.range.stop - run1.range.start ∧
      run1.speed = 500000 ∧ run2.speed = 2 * run1.speed ∧
      ∃ e1 e2, run1.eta = some e1 ∧ run2.eta = some e2 ∧ 27 ≤ e1 ∧ e2 ≤ 11 ∧
        e2 ≠ e1 / 2) := by
  obtain ⟨bo, hbo, hso⟩ := bench_oneSecondEnv zeroHash
  obtain ⟨bt, hbt, hst⟩ := bench_twoSecondEnv zeroHash
  have hr18 : mainRange 18 18 = .ok { threadSize := 5, start := 117, stop := 127 } := by
    rw [mainRange_eq 18 18 (by decide) (by decide) (by decide)]
    rfl
  have hr16 : mainRange 16 16 = .ok { threadSize := 5, start := 107, stop := 127 } := by
    rw [mainRange_eq 16 16 (by decide) (by decide) (by decide)]
    rfl
  have hr9 : mainRange 9 9 = .ok { threadSize := 10, start := 112, stop := 127 } := by
    rw [mainRange_eq 9 9 (by decide) (by decide) (by decide)]
    rfl
  have hr11 : mainRange 11 11 = .ok { threadSize := 8, start := 112, stop := 127 } := by
    rw [mainRange_eq 11 11 (by decide) (by decide) (by decide)]
    rfl
  obtain ⟨s117, _, hs117, _⟩ := brute_five_hashed_take zeroHash (fun _ => 0) 117 127
  obtain ⟨s107, _, hs107, _⟩ := brute_five_hashed_take zeroHash (fun _ => 0) 107 127
  obtain ⟨s112, _, hs112, _⟩ := brute_five_hashed_take zeroHash (fun _ => 0) 112 127
  obtain ⟨resA, runA, hmA, _, hrunA, _, hrgA, hnA, hcA, _, _⟩ :=
    main_eq_eta zeroHash oneSecondEnv 18 18 bo _ s117 hbo hr18 hs117
  obtain ⟨resB, runB, hmB, _, hrunB, _, hrgB, hnB, hcB, _, _⟩ :=
    main_eq_eta zeroHash oneSecondEnv 16 16 bo _ s107 hbo hr16 hs107
  obtain ⟨resC, runC, hmC, _, hrunC, hspC, hrgC, hnC, _, heC, _⟩ :=
    main_eq_eta zeroHash twoSecondEnv 9 9 bt _ s112 hbt hr9 hs112
  obtain ⟨resD, runD, hmD, _, hrunD, hspD, hrgD, hnD, _, heD, _⟩ :=
    main_eq_eta zeroHash oneSecondEnv 11 11 bo _ s112 hbo hr11 hs112
  have hcA' : runA.numHashes = some 407253125 := by rw [hcA]; norm_num
  have hcB' : runB.numHashes = some 407253125 := by rw [hcB]; norm_num
  refine ⟨⟨resA, runA, resB, runB, hmA, hrunA, hmB, hrunB, by rw [hnA, hnB], hrgA, hrgB,
    by rw [hrgA, hrgB]; decide, hcA', hcB', by rw [hcA', hcB']; norm_num⟩, ?_⟩
  rw [hst] at heC
  rw [hso] at heD
  obtain ⟨e1, he1, hlo1, _⟩ := eta_between (((10 : Int) : ℚ) * 95 ^ 4) 500000 13575104
    13575105 27 28 (by norm_num) (by norm_num) (by norm_num) (by norm_num) (by norm_num)
    (by norm_num) (by norm_num) (by norm_num) (by norm_num)
  obtain ⟨e2, he2, _, hhi2⟩ := eta_between (((8 : Int) : ℚ) * 95 ^ 4) 1000000 10860083
    10860084 10 11 (by norm_num) (by norm_num) (by norm_num) (by norm_num) (by norm_num)
    (by norm_num) (by norm_num) (by norm_num) (by norm_num)
  have hlo1' : (27 : ℚ) ≤ e1 := by exact_mod_cast hlo1
  have hhi2' : e2 ≤ (11 : ℚ) := by exact_mod_cast hhi2
  refine ⟨resC, runC, resD, runD, hmC, hrunC, hmD, hrunD, by rw [hnC, hnD], hrgC, hrgD,
    by rw [hrgC, hrgD], by rw [hspC, hst], by rw [hspC, hspD, hst, hso]; decide,
    e1, e2, heC.trans he1, heD.trans he2, hlo1', hhi2', ?_⟩
  intro hc
  rw [hc] at hhi2'
  linarith

end Sha3run
